import Mathlib

/-! # Ternary search tree of klopp/trees (src/ttree.c, src/ttree.h)

A shallow embedding of the ternary search tree and the properties of its
specification.

Modelling conventions.

* A C string (`const char *`) is the list of its characters before the
  terminating NUL; `*s` is the head of the list (0 when the list is empty),
  `s++` is the tail and `s[pos]` is `s.getD pos 0`.
* `char` is a signed 8-bit integer; characters are values of `Int`.
* `void *` values are natural numbers, 0 being `NULL`.
* `size_t` is 64 bits wide; the counters wrap modulo `2 ^ 64`.
* A node pointer is the access path (list of links) that leads to the node
  from a root node; `none` is the `NULL` pointer.
* Allocation of a node, a tree or a key string is assumed to succeed; the
  allocation of an array by `Calloc` fails when its size does not fit
  `size_t`. Locking is ignored.
* The calls of the destructor callback are recorded, in order, in the ghost
  field `destroyed` of the tree.
-/

namespace Trees

/-! ## Data model -/

/-- The modulus of `size_t` arithmetic. -/
def SIZE_MOD : Nat := 2 ^ 64

/-- Increment of a `size_t`: `(n + 1) % 2 ^ 64` for a value `n` of the type,
written with the wrap-around spelled out. -/
def size_inc (n : Nat) : Nat := if n + 1 = SIZE_MOD then 0 else n + 1

/-- Decrement of a `size_t`: `(n + 2 ^ 64 - 1) % 2 ^ 64` for a value `n` of
the type, written with the wrap-around at zero spelled out. -/
def size_dec (n : Nat) : Nat := if n = 0 then SIZE_MOD - 1 else n - 1

/-- Modelled from the spec: the flag bits of `Tree_Flags` declared in tree.h
(replace-on-conflict, case-insensitive, fast-insert, auto-free), one boolean
for each test `flags & T_...` made by the code. -/
structure Tree_Flags where
  T_INSERT_REPLACE : Bool
  T_NOCASE : Bool
  T_INSERT_FAST : Bool
  T_FREE_DEFAULT : Bool
deriving DecidableEq, Repr

/-- Modelled from the spec: the type `Tree_Destroy` of tree.h, a destructor
callback; `T_Free` is the default one, `callback n` a callback of the caller. -/
inductive Tree_Destroy where
  | T_Free
  | callback (id : Nat)
deriving DecidableEq, Repr

/-- The record `struct _TTNode`, reached through a pointer: `null` is the
`NULL` pointer. -/
inductive TTNode where
  | null
  | mk (splitter : Int) (key : Option (List Int)) (data : Nat) (depth : Nat)
      (left mid right : TTNode)
deriving DecidableEq, Repr

/-- The record `struct _TT_Data`: a key (or `NULL`) and a value. -/
structure TT_Data where
  key : Option (List Int)
  data : Nat
deriving DecidableEq, Repr

/-- The record `struct _TernaryTree`, with the ghost log of destructor calls. -/
structure TTree where
  flags : Tree_Flags
  destructor : Option Tree_Destroy
  keys : Nat
  nodes : Nat
  depth : Nat
  head : TTNode
  destroyed : List Nat
deriving DecidableEq, Repr

/-- The three links of a node. -/
inductive Link where
  | left
  | mid
  | right
deriving DecidableEq, Repr

/-- A node pointer relative to a root: `none` is `NULL`. -/
abbrev NodePtr := Option (List Link)

namespace TTNode

/-- Field `splitter` (0 for the purposes of a `NULL` node). -/
def splitter : TTNode → Int
  | null => 0
  | mk sp _ _ _ _ _ _ => sp

/-- Field `key`. -/
def key : TTNode → Option (List Int)
  | null => none
  | mk _ k _ _ _ _ _ => k

/-- Field `data`. -/
def data : TTNode → Nat
  | null => 0
  | mk _ _ d _ _ _ _ => d

/-- Field `left`. -/
def left : TTNode → TTNode
  | null => null
  | mk _ _ _ _ l _ _ => l

/-- Field `mid`. -/
def mid : TTNode → TTNode
  | null => null
  | mk _ _ _ _ _ m _ => m

/-- Field `right`. -/
def right : TTNode → TTNode
  | null => null
  | mk _ _ _ _ _ _ r => r

/-- Assignment `node->mid = m`. -/
def setMid : TTNode → TTNode → TTNode
  | null, _ => null
  | mk sp k d dep l _ r, m => mk sp k d dep l m r

/-- The node a pointer designates. -/
def deref : TTNode → List Link → TTNode
  | n, [] => n
  | null, _ :: _ => null
  | mk _ _ _ _ l _ _, Link.left :: p => deref l p
  | mk _ _ _ _ _ m _, Link.mid :: p => deref m p
  | mk _ _ _ _ _ _ r, Link.right :: p => deref r p

/-- Overwrite the node a pointer designates. -/
def store : TTNode → List Link → TTNode → TTNode
  | _, [], new => new
  | null, _ :: _, _ => null
  | mk sp k d dep l m r, Link.left :: p, new => mk sp k d dep (store l p new) m r
  | mk sp k d dep l m r, Link.mid :: p, new => mk sp k d dep l (store m p new) r
  | mk sp k d dep l m r, Link.right :: p, new => mk sp k d dep l m (store r p new)

/-- Number of links on the longest path below a node pointer. -/
def height : TTNode → Nat
  | null => 0
  | mk _ _ _ _ l m r => 1 + max (height l) (max (height m) (height r))

end TTNode

/-- The function `tolower` of ctype.h in the "C" locale. -/
def tolower (c : Int) : Int :=
  if 65 ≤ c ∧ c ≤ 90 then c + 32 else c

/-- The character compared by the tree: `(flags & T_NOCASE) ? tolower(c) : c`. -/
def foldc (flags : Tree_Flags) (c : Int) : Int :=
  if flags.T_NOCASE then tolower c else c

/-- The function `Strdup`: a copy of the string up to its terminator. -/
def Strdup (s : List Int) : List Int :=
  s.takeWhile (fun c => decide (c ≠ 0))

/-! ## Creation -/

/-- The function `_TT_create_node`: a zero-filled node with the splitter set. -/
def _TT_create_node (c : Int) : TTNode :=
  TTNode.mk c none 0 0 TTNode.null TTNode.null TTNode.null

/-- The function `TT_create`. -/
def TT_create (flags : Tree_Flags) (destructor : Option Tree_Destroy) : TTree :=
  { flags := flags
    destructor :=
      match destructor with
      | some d => some d
      | none => if flags.T_FREE_DEFAULT then some Tree_Destroy.T_Free else none
    keys := 0
    nodes := 0
    depth := 0
    head := _TT_create_node 0
    destroyed := [] }

/-- The call `tree->destructor( data )` guarded by
`if( data && tree->destructor )`. -/
def call_destructor (tree : TTree) (data : Nat) : TTree :=
  if data ≠ 0 ∧ tree.destructor.isSome then
    { tree with destroyed := tree.destroyed ++ [data] }
  else tree

/-! ## Search -/

/-- The loop of `_TT_search`: the final value of `ptr`, relative to `node`. -/
def _TT_search_loop (flags : Tree_Flags) : TTNode → List Int → NodePtr
  | TTNode.null, _ => none
  | TTNode.mk sp k _ _ l m r, s =>
    if s.headD 0 ≠ 0 ∧ (sp ≠ 0 ∨ k.isSome) then
      let c := foldc flags (s.headD 0)
      if c < sp then (_TT_search_loop flags l s).map (fun p => Link.left :: p)
      else if c > sp then (_TT_search_loop flags r s).map (fun p => Link.right :: p)
      else if s.tail.headD 0 ≠ 0 then
        (_TT_search_loop flags m s.tail).map (fun p => Link.mid :: p)
      else some []
    else some []

/-- The function `_TT_search`. -/
def _TT_search (node : TTNode) (s : List Int) (flags : Tree_Flags) : NodePtr :=
  if node = TTNode.null ∨ s.headD 0 = 0 then none
  else
    match _TT_search_loop flags node s with
    | none => none
    | some p => if ((node.deref p).key).isSome then some p else none

/-- The function `TT_search`; the result is relative to `tree->head`. -/
def TT_search (tree : TTree) (s : List Int) : NodePtr :=
  if tree.head = TTNode.null ∨ s.headD 0 = 0 then none
  else (_TT_search tree.head.mid s tree.flags).map (fun p => Link.mid :: p)

/-! ## Insertion -/

/-- The function `_TT_insert`. The recursion of the source is bounded by the
extra argument `fuel`; `none` is returned only when the fuel runs out. The
three `if` statements on `c` and `node->splitter` are exclusive and are
written as one chain. -/
def _TT_insert : Nat → TTNode → List Int → Nat → Nat → TTree → Nat →
    Option (TTNode × TTree)
  | 0, _, _, _, _, _, _ => none
  | fuel + 1, node, s, pos, data, tree, depth =>
    if tree.head = TTNode.null ∨ s.headD 0 = 0 then some (TTNode.null, tree)
    else
      let c := foldc tree.flags (s.getD pos 0)
      let prep : TTNode × TTree :=
        match node with
        | TTNode.null =>
          (TTNode.mk c none 0 depth TTNode.null TTNode.null TTNode.null,
            { tree with nodes := size_inc tree.nodes })
        | TTNode.mk sp k d dep l m r =>
          if sp = 0 ∧ k = none then
            (TTNode.mk c none 0 depth TTNode.null TTNode.null TTNode.null, tree)
          else (TTNode.mk sp k d dep l m r, tree)
      match prep with
      | (TTNode.null, tree1) => some (TTNode.null, tree1)
      | (TTNode.mk sp k d dep l m r, tree1) =>
        if c < sp then
          match _TT_insert fuel l s pos data tree1 (size_inc depth) with
          | none => none
          | some (l1, tree2) => some (TTNode.mk sp k d dep l1 m r, tree2)
        else if c = sp then
          if s.getD (pos + 1) 0 > 0 then
            match _TT_insert fuel m s (pos + 1) data tree1 (size_inc depth) with
            | none => none
            | some (m1, tree2) => some (TTNode.mk sp k d dep l m1 r, tree2)
          else
            let (k1, tree2) :=
              match k with
              | none => (some (Strdup s), { tree1 with keys := size_inc tree1.keys })
              | some ks => (some ks, tree1)
            if tree2.flags.T_INSERT_REPLACE then
              some (TTNode.mk sp k1 data dep l m r, call_destructor tree2 d)
            else some (TTNode.mk sp k1 d dep l m r, tree2)
        else
          match _TT_insert fuel r s pos data tree1 (size_inc depth) with
          | none => none
          | some (r1, tree2) => some (TTNode.mk sp k d dep l m r1, tree2)

/-- Fuel that suffices for `_TT_insert` started at `node`. -/
def insert_fuel (node : TTNode) (s : List Int) : Nat :=
  node.height + s.length + 1

/-- The function `TT_insert`: the new tree and the returned node pointer
(relative to `tree->head`). -/
def TT_insert (tree : TTree) (s : List Int) (data : Nat) : TTree × NodePtr :=
  if tree.head = TTNode.null ∨ s.headD 0 = 0 then (tree, none)
  else
    match _TT_insert (insert_fuel tree.head.mid s) tree.head.mid s 0 data tree 1 with
    | none => (tree, none)
    | some (m1, tree1) =>
      let tree2 := { tree1 with head := tree.head.setMid m1 }
      if m1 = TTNode.null then (tree2, none)
      else if tree2.flags.T_INSERT_FAST then (tree2, some [])
      else (tree2, (_TT_search m1 s tree2.flags).map (fun p => Link.mid :: p))

/-! ## Deletion -/

/-- The recursion of `_TT_destroy` below a node: the destructor calls and the
counter updates, children first (left, mid, right), then the node itself. A
`NULL` child is skipped by the guards `if( node->left )` of the source. -/
def _TT_destroy_walk : TTNode → TTree → TTree
  | TTNode.null, tree => tree
  | TTNode.mk _ _ d _ l m r, tree =>
    let t1 := _TT_destroy_walk l tree
    let t2 := _TT_destroy_walk m t1
    let t3 := _TT_destroy_walk r t2
    let t4 := call_destructor t3 d
    { t4 with keys := size_dec t4.keys, nodes := size_dec t4.nodes }

/-- The function `_TT_destroy`. The result is the content left at the address
of `node` and the updated tree: with `delnode = 0` the node is zero-filled and
stays where it is (its children are zero-filled too and no longer linked);
with `delnode = 1` the node is freed, which is written `null`. A `NULL`
argument is dereferenced by the source: `none` (fault). -/
def _TT_destroy (node : TTNode) (tree : TTree) (delnode : Bool) :
    Option (TTNode × TTree) :=
  match node with
  | TTNode.null => none
  | TTNode.mk sp k d dep l m r =>
    some (if delnode then TTNode.null
          else TTNode.mk 0 none 0 0 TTNode.null TTNode.null TTNode.null,
      _TT_destroy_walk (TTNode.mk sp k d dep l m r) tree)

/-- The function `TT_del_node`: the new tree and the returned `int`. -/
def TT_del_node (tree : TTree) (key : List Int) : TTree × Int :=
  if tree.head = TTNode.null ∨ key.headD 0 = 0 then (tree, 0)
  else
    match _TT_search tree.head.mid key tree.flags with
    | none => (tree, 0)
    | some p =>
      match _TT_destroy (tree.head.mid.deref p) tree false with
      | none => (tree, 0)
      | some (n1, tree1) =>
        ({ tree1 with head := tree.head.setMid (tree.head.mid.store p n1) }, 1)

/-- The function `TT_del_key`: the new tree and the returned `int`. -/
def TT_del_key (tree : TTree) (key : List Int) : TTree × Int :=
  if tree.head = TTNode.null ∨ key.headD 0 = 0 then (tree, 0)
  else
    match _TT_search tree.head.mid key tree.flags with
    | none => (tree, 0)
    | some p =>
      match tree.head.mid.deref p with
      | TTNode.null => (tree, 0)
      | TTNode.mk sp _ d dep l m r =>
        let tree1 := call_destructor tree d
        ({ tree1 with
            keys := size_dec tree1.keys
            head := tree.head.setMid
              (tree.head.mid.store p (TTNode.mk sp none 0 dep l m r)) }, 1)

/-! ## Traversal -/

/-- The function `_TT_walk`: left, mid, right, then the node. -/
def _TT_walk {σ : Type} (walker : TTNode → σ → σ) : TTNode → σ → σ
  | TTNode.null, st => st
  | TTNode.mk sp k d dep l m r, st =>
    walker (TTNode.mk sp k d dep l m r)
      (_TT_walk walker r (_TT_walk walker m (_TT_walk walker l st)))

/-- The function `_TT_walk_asc`: left, the node, mid, right. -/
def _TT_walk_asc {σ : Type} (walker : TTNode → σ → σ) : TTNode → σ → σ
  | TTNode.null, st => st
  | TTNode.mk sp k d dep l m r, st =>
    _TT_walk_asc walker r
      (_TT_walk_asc walker m
        (walker (TTNode.mk sp k d dep l m r) (_TT_walk_asc walker l st)))

/-- The function `_TT_walk_desc`: right, mid, the node, left. -/
def _TT_walk_desc {σ : Type} (walker : TTNode → σ → σ) : TTNode → σ → σ
  | TTNode.null, st => st
  | TTNode.mk sp k d dep l m r, st =>
    _TT_walk_desc walker l
      (walker (TTNode.mk sp k d dep l m r)
        (_TT_walk_desc walker m (_TT_walk_desc walker r st)))

/-- The function `TT_walk_asc`. -/
def TT_walk_asc {σ : Type} (tree : TTree) (walker : TTNode → σ → σ) (st : σ) : σ :=
  _TT_walk_asc walker tree.head st

/-! ## Sorted extraction and prefix lookup -/

/-- The anonymous record `{ max, idx, data }` handed to the walker `_TT_data`;
`data` holds the entries written so far, `data[idx]` being the next one. -/
structure DataCursor where
  max : Nat
  idx : Nat
  data : List TT_Data
deriving DecidableEq, Repr

/-- The walker `_TT_data`. -/
def _TT_data (node : TTNode) (cur : DataCursor) : DataCursor :=
  if node.key.isSome then
    if cur.idx < cur.max then
      { cur with data := cur.data ++ [⟨node.key, node.data⟩], idx := cur.idx + 1 }
    else cur
  else cur

/-- The size of `struct _TT_Data` in bytes: two pointers of 8 bytes. -/
def sizeof_TT_Data : Nat := 16

/-- Modelled from the spec: the allocator `Calloc( size, n )`, whose definition
is not under src/; the spec describes it as an allocator that can fail
returning an empty result. It yields an array of `n` zero-filled elements of
`size` bytes, or `NULL` when the request cannot be met. A request whose size
`size * n` does not fit `size_t` is refused; every other request is taken to
succeed. The value is `true` when the array is obtained. -/
def Calloc (size n : Nat) : Bool := decide (size * n < SIZE_MOD)

/-- The function `TT_data`: the returned array (`none` for `NULL`, else its
entries before the `{ NULL, NULL }` terminator) and the value stored in
`*count`. The array has `tree->keys + 1` slots, the sum being computed in
`size_t`; when it cannot be allocated the result is `NULL` with count 0. The
outer `none` means that the walk wrote past the end of the array, or filled it
and left no slot for the terminator. -/
def TT_data (tree : TTree) : Option (Option (List TT_Data) × Nat) :=
  if Calloc sizeof_TT_Data (size_inc tree.keys) then
    let cur := TT_walk_asc tree _TT_data ⟨SIZE_MOD - 1, 0, []⟩
    if cur.idx < size_inc tree.keys then some (some cur.data, cur.idx) else none
  else some (none, 0)

/-- The function `__TT_lookup`: the node at which the navigation stops. -/
def __TT_lookup (flags : Tree_Flags) : TTNode → List Int → TTNode
  | TTNode.null, _ => TTNode.null
  | TTNode.mk sp k d dep l m r, s =>
    if s.headD 0 ≠ 0 ∧ sp ≠ 0 then
      let c := foldc flags (s.headD 0)
      if c < sp then __TT_lookup flags l s
      else if c > sp then __TT_lookup flags r s
      else if s.tail.headD 0 ≠ 0 then __TT_lookup flags m s.tail
      else TTNode.mk sp k d dep l m r
    else TTNode.mk sp k d dep l m r

/-- The function `_TT_lookup`: the returned array (`none` for `NULL`, else its
entries before the terminator) and the value stored in `*count`. The array has
`max + 1` slots, the sum being computed in `size_t`; when it cannot be
allocated the result is `NULL` with count 0. The outer `none` is a fault:
`tree->head` is dereferenced unchecked, and the walk must leave a slot of the
array for the terminator. -/
def _TT_lookup (tree : TTree) (pfx : List Int) (max : Nat) :
    Option (Option (List TT_Data) × Nat) :=
  if pfx.headD 0 = 0 then some (none, 0)
  else
    match tree.head with
    | TTNode.null => none
    | TTNode.mk _ _ _ _ _ hm _ =>
      let node := __TT_lookup tree.flags hm pfx
      if node = TTNode.null ∨ node.mid = TTNode.null then some (none, 0)
      else
        let max1 := if max = 0 then tree.keys else max
        if Calloc sizeof_TT_Data (size_inc max1) then
          let cur := _TT_walk_asc _TT_data node.mid ⟨max1, 0, []⟩
          if cur.idx < size_inc max1 then some (some cur.data, cur.idx) else none
        else some (none, 0)

/-- The loop of `TT_lookup_tree`: every entry of the array, up to the first
one whose key is `NULL`, is given to `_TT_insert` and the node returned is
stored in `rc->head->mid`. -/
def TT_lookup_tree_loop : List TT_Data → TTree → TTree
  | [], rc => rc
  | ⟨none, _⟩ :: _, rc => rc
  | ⟨some key, data⟩ :: rest, rc =>
    match _TT_insert (insert_fuel rc.head.mid key) rc.head.mid key 0 data rc 1 with
    | none => rc
    | some (m1, rc1) => TT_lookup_tree_loop rest { rc1 with head := rc.head.setMid m1 }

/-- The function `TT_lookup_tree`: the new tree; `none` is the fault of
`_TT_lookup`. The source tree is only read. -/
def TT_lookup_tree (tree : TTree) (pfx : List Int) : Option TTree :=
  match _TT_lookup tree pfx 0 with
  | none => none
  | some (data, _) => some (TT_lookup_tree_loop (data.getD []) (TT_create tree.flags none))

/-- The function `TT_clear`. `tree->head->mid` is handed to `_TT_destroy`
without a test; `none` is the fault of dereferencing `NULL` (the head, or the
absent `mid` child inside `_TT_destroy`). -/
def TT_clear (tree : TTree) : Option TTree :=
  match tree.head with
  | TTNode.null => none
  | TTNode.mk sp k d dep l hm r =>
    match _TT_destroy hm tree true with
    | none => none
    | some (_, tree1) => some { tree1 with head := TTNode.mk sp k d dep l TTNode.null r }

/-- The function `TT_walk`. -/
def TT_walk {σ : Type} (tree : TTree) (walker : TTNode → σ → σ) (st : σ) : σ :=
  _TT_walk walker tree.head st

/-- The function `TT_walk_desc`. -/
def TT_walk_desc {σ : Type} (tree : TTree) (walker : TTNode → σ → σ) (st : σ) : σ :=
  _TT_walk_desc walker tree.head st

/-! ## Notions used by the statements -/

/-- The key and the value of the node that `_TT_search` returns. -/
def sfind (flags : Tree_Flags) (n : TTNode) (s : List Int) : Option TT_Data :=
  (_TT_search n s flags).map (fun p => ⟨(n.deref p).key, (n.deref p).data⟩)

/-- The key and the value of the node that `TT_search` returns. -/
def TT_find (tree : TTree) (s : List Int) : Option TT_Data :=
  (TT_search tree s).map (fun p => ⟨(tree.head.deref p).key, (tree.head.deref p).data⟩)

/-- A key as the tree compares it: every character folded. -/
def foldk (flags : Tree_Flags) (s : List Int) : List Int :=
  s.map (foldc flags)

/-- The keyed nodes below a node pointer, in the order of `_TT_walk_asc`. -/
def entries : TTNode → List TT_Data
  | TTNode.null => []
  | TTNode.mk _ k d _ l m r =>
    entries l ++ (if k.isSome then [⟨k, d⟩] else []) ++ entries m ++ entries r

/-- The node on which the body of `_TT_insert` works: a fresh node for a
`NULL` or zero-filled one, else the node itself. -/
def ins_prep (c : Int) (depth : Nat) : TTNode → TTNode
  | TTNode.null => TTNode.mk c none 0 depth TTNode.null TTNode.null TTNode.null
  | TTNode.mk sp k d dep l m r =>
    if sp = 0 ∧ k = none then
      TTNode.mk c none 0 depth TTNode.null TTNode.null TTNode.null
    else TTNode.mk sp k d dep l m r

/-- The effect of `_TT_insert` on the nodes, as a relation between the node
before and after; the boolean tells whether a key string was stored. -/
inductive Ins (flags : Tree_Flags) (s : List Int) (data : Nat) :
    Nat → Nat → TTNode → TTNode → Bool → Prop where
  | lt {pos depth : Nat} {n : TTNode} {sp : Int} {k : Option (List Int)}
      {d : Nat} {dep : Nat} {l m r l1 : TTNode} {b : Bool} :
      ins_prep (foldc flags (s.getD pos 0)) depth n = TTNode.mk sp k d dep l m r →
      foldc flags (s.getD pos 0) < sp →
      Ins flags s data pos (size_inc depth) l l1 b →
      Ins flags s data pos depth n (TTNode.mk sp k d dep l1 m r) b
  | gt {pos depth : Nat} {n : TTNode} {sp : Int} {k : Option (List Int)}
      {d : Nat} {dep : Nat} {l m r r1 : TTNode} {b : Bool} :
      ins_prep (foldc flags (s.getD pos 0)) depth n = TTNode.mk sp k d dep l m r →
      sp < foldc flags (s.getD pos 0) →
      Ins flags s data pos (size_inc depth) r r1 b →
      Ins flags s data pos depth n (TTNode.mk sp k d dep l m r1) b
  | mid {pos depth : Nat} {n : TTNode} {sp : Int} {k : Option (List Int)}
      {d : Nat} {dep : Nat} {l m r m1 : TTNode} {b : Bool} :
      ins_prep (foldc flags (s.getD pos 0)) depth n = TTNode.mk sp k d dep l m r →
      foldc flags (s.getD pos 0) = sp →
      0 < s.getD (pos + 1) 0 →
      Ins flags s data (pos + 1) (size_inc depth) m m1 b →
      Ins flags s data pos depth n (TTNode.mk sp k d dep l m1 r) b
  | last {pos depth : Nat} {n : TTNode} {sp : Int} {k : Option (List Int)}
      {d : Nat} {dep : Nat} {l m r : TTNode} :
      ins_prep (foldc flags (s.getD pos 0)) depth n = TTNode.mk sp k d dep l m r →
      foldc flags (s.getD pos 0) = sp →
      ¬ 0 < s.getD (pos + 1) 0 →
      Ins flags s data pos depth n
        (TTNode.mk sp (some (k.getD (Strdup s)))
          (if flags.T_INSERT_REPLACE then data else d) dep l m r) k.isNone

/-- The part of the tree record that `_TT_insert` leaves alone, and its
`keys` counter. -/
def TreeFrame (tree t1 : TTree) (b : Bool) : Prop :=
  t1.flags = tree.flags ∧ t1.destructor = tree.destructor ∧ t1.head = tree.head ∧
    t1.depth = tree.depth ∧ t1.keys = if b then size_inc tree.keys else tree.keys

/-- What a search for the inserted key finds after the insertion: the key
string stored first, the new value when the replace flag is set and the old
one otherwise. -/
def HitResult (flags : Tree_Flags) (s : List Int) (data : Nat) (old : Option TT_Data)
    (new : Option TT_Data) (b : Bool) : Prop :=
  ∃ e, new = some e ∧
    e.key = some ((old.bind (fun x => x.key)).getD (Strdup s)) ∧
    (flags.T_INSERT_REPLACE = true → e.data = data) ∧
    (flags.T_INSERT_REPLACE = false → ∀ e0, old = some e0 → e.data = e0.data) ∧
    b = old.isNone

/-- A plain key: not empty, every byte in 1..127. -/
def KeyOK (s : List Int) : Prop := s ≠ [] ∧ ∀ c ∈ s, 1 ≤ c ∧ c ≤ 127

instance (s : List Int) : Decidable (KeyOK s) := by
  unfold KeyOK
  infer_instance

/-- A key that `_TT_insert` reads to its end: a non-empty string whose bytes
after the first are in 1..127. The type `char` being signed, the test
`*( s + pos + 1 ) > 0` takes a later byte above 127 for the end of the key;
the first byte is any byte but NUL. -/
def KeyStorable (s : List Int) : Prop :=
  s ≠ [] ∧ (∀ c ∈ s, c ≠ 0) ∧ ∀ c ∈ s.tail, 0 < c

instance (s : List Int) : Decidable (KeyStorable s) := by
  unfold KeyStorable
  infer_instance

/-- A finite sequence of `TT_insert` calls, the results being ignored. -/
def insert_all (tree : TTree) (ops : List (List Int × Nat)) : TTree :=
  ops.foldl (fun t op => (TT_insert t op.1 op.2).1) tree

/-- The value given by the last insertion of a key in a sequence of
insertions, keys being identified as the tree compares them. -/
def last_value (flags : Tree_Flags) (ops : List (List Int × Nat)) (k : List Int) :
    Option Nat :=
  ((ops.filter (fun o => decide (foldk flags o.1 = foldk flags k))).getLast?).map
    (fun o => o.2)

/-- The node updated by an insertion that meets a stored key. -/
def replace_data (flags : Tree_Flags) (data : Nat) : TTNode → TTNode
  | TTNode.null => TTNode.null
  | TTNode.mk sp k d dep l m r =>
    TTNode.mk sp k (if flags.T_INSERT_REPLACE then data else d) dep l m r

/-- The structure invariant below a node pointer, for the nodes reached from
the head through the folded characters `p` and whose splitter lies strictly
between `lo` and `hi`. A node is either zero-filled and without children, or
its splitter is within the bounds, its key (if any) is a NUL-free string that
folds to `p` followed by the splitter, the left and right children are
ordered around the splitter and the mid child continues the path. -/
def Inv (flags : Tree_Flags) : List Int → Int → Int → TTNode → Prop
  | _, _, _, TTNode.null => True
  | p, lo, hi, TTNode.mk sp k _ _ l m r =>
    (sp = 0 ∧ k = none ∧ l = TTNode.null ∧ m = TTNode.null ∧ r = TTNode.null) ∨
    (lo < sp ∧ sp < hi ∧
      (∀ ks, k = some ks → foldk flags ks = p ++ [sp] ∧ ∀ c ∈ ks, c ≠ 0) ∧
      Inv flags p lo sp l ∧ Inv flags (p ++ [sp]) 0 128 m ∧ Inv flags p sp hi r)

/-- A call of the interface that changes the tree. -/
inductive Op where
  | insert (key : List Int) (data : Nat)
  | del_key (key : List Int)
  | del_node (key : List Int)
deriving DecidableEq, Repr

/-- The tree after a call. -/
def apply_op (t : TTree) : Op → TTree
  | Op.insert key data => (TT_insert t key data).1
  | Op.del_key key => (TT_del_key t key).1
  | Op.del_node key => (TT_del_node t key).1

/-- The tree after a sequence of calls. -/
def run (t : TTree) (ops : List Op) : TTree := ops.foldl apply_op t

/-- The keys given to `TT_insert` are made of bytes 1..127. -/
def OpOK : Op → Prop
  | Op.insert key _ => KeyOK key
  | Op.del_key _ => True
  | Op.del_node _ => True

instance (op : Op) : Decidable (OpOK op) := by
  cases op <;> unfold OpOK <;> infer_instance

/-- The key of an entry as the tree compares it. -/
def entry_key (flags : Tree_Flags) (e : TT_Data) : List Int :=
  foldk flags (e.key.getD [])

/-- Strictly increasing keys, in the lexicographic order of the characters. -/
def KeySorted (flags : Tree_Flags) (es : List TT_Data) : Prop :=
  es.Pairwise (fun a b => List.Lex (fun x y : Int => x < y) (entry_key flags a) (entry_key flags b))

/-- The shape of the key of an entry found below a node pointer: a NUL-free
string that folds to the path `p`, then a character strictly between `lo` and
`hi`, then the rest. -/
def KeyForm (flags : Tree_Flags) (p : List Int) (lo hi : Int) (e : TT_Data) : Prop :=
  ∃ ks c rest, e.key = some ks ∧ (∀ x ∈ ks, x ≠ 0) ∧
    foldk flags ks = p ++ c :: rest ∧ lo < c ∧ c < hi

/-- The cursor after the walker has been offered a list of entries. -/
def collect (es : List TT_Data) (cur : DataCursor) : DataCursor :=
  ⟨cur.max, cur.idx + min es.length (cur.max - cur.idx),
    cur.data ++ es.take (cur.max - cur.idx)⟩

/-- The node left by `TT_del_key`: key and value cleared, links kept. -/
def clear_key : TTNode → TTNode
  | TTNode.null => TTNode.null
  | TTNode.mk sp _ _ dep l m r => TTNode.mk sp none 0 dep l m r

/-- The zero-filled node left by `_TT_destroy` with `delnode = 0`. -/
def zero_node : TTNode := TTNode.mk 0 none 0 0 TTNode.null TTNode.null TTNode.null

/-- The state invariant of a tree: the head is the sentinel created by
`TT_create` and the nodes below it satisfy the structure invariant. -/
def GoodTree (t : TTree) : Prop :=
  ∃ m, t.head = TTNode.mk 0 none 0 0 TTNode.null m TTNode.null ∧ Inv t.flags [] 0 128 m

/-- The counter `keys` counts the entries, modulo the width of `size_t`. -/
def KeysOK (t : TTree) : Prop :=
  t.keys = (entries t.head.mid).length % SIZE_MOD

/-- The folded key of an entry strictly extends a list of folded characters. -/
def ext_at (flags : Tree_Flags) (full : List Int) (e : TT_Data) : Prop :=
  full <+: entry_key flags e ∧ full.length < (entry_key flags e).length

instance (flags : Tree_Flags) (full : List Int) (e : TT_Data) :
    Decidable (ext_at flags full e) := by
  unfold ext_at
  infer_instance

/-- The key of an entry strictly extends a string, as the tree compares them:
the folded string is a prefix of the folded key, which is longer. -/
def extends_key (flags : Tree_Flags) (pfx : List Int) (e : TT_Data) : Prop :=
  ext_at flags (foldk flags pfx) e

instance (flags : Tree_Flags) (pfx : List Int) (e : TT_Data) :
    Decidable (extends_key flags pfx e) := by
  unfold extends_key
  infer_instance

/-- The sequence of calls holds no `TT_del_node`. -/
def NoDelNode : Op → Prop
  | Op.insert _ _ => True
  | Op.del_key _ => True
  | Op.del_node _ => False

instance (op : Op) : Decidable (NoDelNode op) := by
  cases op <;> unfold NoDelNode <;> infer_instance

/-- The spelling given by the first insertion of a key in a sequence of
insertions, keys being identified as the tree compares them. -/
def first_key (flags : Tree_Flags) (ops : List (List Int × Nat)) (k : List Int) :
    Option (List Int) :=
  ((ops.filter (fun o => decide (foldk flags o.1 = foldk flags k))).head?).map
    (fun o => o.1)

/-- No node below a node pointer holds a value: every `data` field is `NULL`. -/
def NoData : TTNode → Prop
  | TTNode.null => True
  | TTNode.mk _ _ d _ l m r => d = 0 ∧ NoData l ∧ NoData m ∧ NoData r

/-- The key and value of an entry, as the arguments of an insertion. -/
def entry_pair (e : TT_Data) : List Int × Nat := (e.key.getD [], e.data)

/-- A visitor that records, in order, the nodes it is given. -/
def visit (node : TTNode) (seen : List TTNode) : List TTNode := seen ++ [node]

/-- Number of nodes below a node pointer. -/
def node_count : TTNode → Nat
  | TTNode.null => 0
  | TTNode.mk _ _ _ _ l m r => node_count l + node_count m + node_count r + 1

/-- The splitters of the nodes at which a path, followed from a node pointer,
takes the `mid` link. -/
def mid_splitters : TTNode → List Link → List Int
  | _, [] => []
  | TTNode.null, _ :: _ => []
  | TTNode.mk _ _ _ _ l _ _, Link.left :: p => mid_splitters l p
  | TTNode.mk sp _ _ _ _ m _, Link.mid :: p => sp :: mid_splitters m p
  | TTNode.mk _ _ _ _ _ _ r, Link.right :: p => mid_splitters r p

/-- The splitters of the nodes reached from a node pointer through `left` and
`right` links only, the node itself included. -/
def level : TTNode → List Int
  | TTNode.null => []
  | TTNode.mk sp _ _ _ l _ r => level l ++ [sp] ++ level r

/-! ## Basic facts -/

theorem ins_prep_ne_null (c : Int) (depth : Nat) (n : TTNode) :
    ins_prep c depth n ≠ TTNode.null := by
  cases n with
  | null => simp [ins_prep]
  | mk sp k d dep l m r =>
    simp only [ins_prep]
    split <;> simp

theorem call_destructor_fields (tree : TTree) (d : Nat) :
    (call_destructor tree d).flags = tree.flags ∧
    (call_destructor tree d).destructor = tree.destructor ∧
    (call_destructor tree d).keys = tree.keys ∧
    (call_destructor tree d).nodes = tree.nodes ∧
    (call_destructor tree d).depth = tree.depth ∧
    (call_destructor tree d).head = tree.head := by
  unfold call_destructor
  split <;> simp

/-- One step of `_TT_insert`, with the prepared node made explicit. -/
theorem _TT_insert_step (fuel : Nat) (node : TTNode) (s : List Int) (pos : Nat)
    (data : Nat) (tree : TTree) (depth : Nat) (hh : tree.head ≠ TTNode.null)
    (hs : s.headD 0 ≠ 0) (sp : Int) (k : Option (List Int)) (d : Nat)
    (dep : Nat) (l m r : TTNode)
    (hp : ins_prep (foldc tree.flags (s.getD pos 0)) depth node = TTNode.mk sp k d dep l m r) :
    _TT_insert (fuel + 1) node s pos data tree depth =
      (let tree1 : TTree :=
        if node = TTNode.null then { tree with nodes := size_inc tree.nodes } else tree
      if foldc tree.flags (s.getD pos 0) < sp then
        (_TT_insert fuel l s pos data tree1 (size_inc depth)).map
          (fun x => (TTNode.mk sp k d dep x.1 m r, x.2))
      else if foldc tree.flags (s.getD pos 0) = sp then
        if s.getD (pos + 1) 0 > 0 then
          (_TT_insert fuel m s (pos + 1) data tree1 (size_inc depth)).map
            (fun x => (TTNode.mk sp k d dep l x.1 r, x.2))
        else
          let tree2 : TTree :=
            if k.isNone then { tree1 with keys := size_inc tree1.keys } else tree1
          if tree.flags.T_INSERT_REPLACE then
            some (TTNode.mk sp (some (k.getD (Strdup s))) data dep l m r,
              call_destructor tree2 d)
          else some (TTNode.mk sp (some (k.getD (Strdup s))) d dep l m r, tree2)
      else
        (_TT_insert fuel r s pos data tree1 (size_inc depth)).map
          (fun x => (TTNode.mk sp k d dep l m x.1, x.2))) := by
  have hg : ¬ (tree.head = TTNode.null ∨ s.headD 0 = 0) := by
    rintro (h | h)
    · exact hh h
    · exact hs h
  cases node with
  | null =>
    simp only [ins_prep, TTNode.mk.injEq] at hp
    obtain ⟨h1, h2, h3, h4, h5, h6, h7⟩ := hp
    subst h1 h2 h3 h4 h5 h6 h7
    simp only [_TT_insert, hg, if_false, if_true]
    simp only [lt_irrefl, if_false, if_true]
    split
    · cases h : _TT_insert fuel TTNode.null s (pos + 1) data
        { tree with nodes := size_inc tree.nodes } (size_inc depth) <;> simp
    · simp
  | mk sp0 k0 d0 dep0 l0 m0 r0 =>
    by_cases hz : sp0 = 0 ∧ k0 = none
    · simp only [ins_prep, hz, and_self, if_true, TTNode.mk.injEq] at hp
      obtain ⟨h1, h2, h3, h4, h5, h6, h7⟩ := hp
      subst h1 h2 h3 h4 h5 h6 h7
      obtain ⟨hz1, hz2⟩ := hz
      subst hz1 hz2
      simp only [_TT_insert, hg, if_false, if_true, and_self]
      simp only [lt_irrefl, if_false, if_true, reduceCtorEq]
      split
      · cases h : _TT_insert fuel TTNode.null s (pos + 1) data tree (size_inc depth) <;> simp [h]
      · simp
    · simp only [ins_prep, hz, if_false, TTNode.mk.injEq] at hp
      obtain ⟨h1, h2, h3, h4, h5, h6, h7⟩ := hp
      subst h1 h2 h3 h4 h5 h6 h7
      simp only [_TT_insert, hg, if_false, hz, reduceCtorEq]
      split
      · cases h : _TT_insert fuel l0 s pos data tree (size_inc depth) <;> simp [h]
      · split
        · split
          · cases h : _TT_insert fuel m0 s (pos + 1) data tree (size_inc depth) <;> simp [h]
          · cases k0 <;> simp
        · cases h : _TT_insert fuel r0 s pos data tree (size_inc depth) <;> simp [h]

theorem ins_prep_exists (c : Int) (depth : Nat) (n : TTNode) :
    ∃ sp k d dep l m r, ins_prep c depth n = TTNode.mk sp k d dep l m r := by
  cases h : ins_prep c depth n with
  | null => exact absurd h (ins_prep_ne_null c depth n)
  | mk sp k d dep l m r => exact ⟨sp, k, d, dep, l, m, r, rfl⟩

theorem TreeFrame_trans_false {tree t1 t2 : TTree} {b : Bool}
    (h1 : TreeFrame tree t1 false) (h2 : TreeFrame t1 t2 b) : TreeFrame tree t2 b := by
  obtain ⟨a1, a2, a3, a4, a5⟩ := h1
  obtain ⟨b1, b2, b3, b4, b5⟩ := h2
  refine ⟨b1.trans a1, b2.trans a2, b3.trans a3, b4.trans a4, ?_⟩
  simp only [Bool.false_eq_true, if_false] at a5
  rw [b5, a5]

theorem TreeFrame_nodes (tree : TTree) (n : TTNode) :
    TreeFrame tree
      (if n = TTNode.null then { tree with nodes := size_inc tree.nodes } else tree) false := by
  unfold TreeFrame
  split <;> simp

/-- What `_TT_insert` returns is described by `Ins`, and the tree record keeps
its flags, destructor and head. -/
theorem _TT_insert_sound (fuel : Nat) : ∀ (node : TTNode) (s : List Int) (pos : Nat)
    (data : Nat) (tree : TTree) (depth : Nat) (n1 : TTNode) (t1 : TTree),
    tree.head ≠ TTNode.null → s.headD 0 ≠ 0 →
    _TT_insert fuel node s pos data tree depth = some (n1, t1) →
    ∃ b, Ins tree.flags s data pos depth node n1 b ∧ TreeFrame tree t1 b := by
  induction fuel with
  | zero => intro node s pos data tree depth n1 t1 _ _ h; simp [_TT_insert] at h
  | succ fuel ih =>
    intro node s pos data tree depth n1 t1 hh hs h
    obtain ⟨sp, k, d, dep, l, m, r, hp⟩ :=
      ins_prep_exists (foldc tree.flags (s.getD pos 0)) depth node
    rw [_TT_insert_step fuel node s pos data tree depth hh hs sp k d dep l m r hp] at h
    have hf := TreeFrame_nodes tree node
    have hfl : (if node = TTNode.null then { tree with nodes := size_inc tree.nodes }
        else tree).flags = tree.flags := hf.1
    have hhd : (if node = TTNode.null then { tree with nodes := size_inc tree.nodes }
        else tree).head ≠ TTNode.null := by rw [hf.2.2.1]; exact hh
    simp only at h
    split at h
    · rename_i hlt
      obtain ⟨⟨x, tx⟩, hx, he⟩ := Option.map_eq_some'.1 h
      simp only [Prod.mk.injEq] at he
      obtain ⟨he1, he2⟩ := he
      subst he1 he2
      obtain ⟨b, hb, hfb⟩ := ih _ _ _ _ _ _ _ _ hhd hs hx
      rw [hfl] at hb
      exact ⟨b, Ins.lt hp hlt hb, TreeFrame_trans_false hf hfb⟩
    · split at h
      · rename_i hnlt heq
        split at h
        · rename_i hmore
          obtain ⟨⟨x, tx⟩, hx, he⟩ := Option.map_eq_some'.1 h
          simp only [Prod.mk.injEq] at he
          obtain ⟨he1, he2⟩ := he
          subst he1 he2
          obtain ⟨b, hb, hfb⟩ := ih _ _ _ _ _ _ _ _ hhd hs hx
          rw [hfl] at hb
          exact ⟨b, Ins.mid hp heq hmore hb, TreeFrame_trans_false hf hfb⟩
        · rename_i hmore
          have hk : TreeFrame tree
              (if k.isNone then
                { (if node = TTNode.null then { tree with nodes := size_inc tree.nodes }
                    else tree) with
                  keys := size_inc (if node = TTNode.null then
                    { tree with nodes := size_inc tree.nodes } else tree).keys }
              else (if node = TTNode.null then { tree with nodes := size_inc tree.nodes }
                    else tree)) k.isNone := by
            obtain ⟨a1, a2, a3, a4, a5⟩ := hf
            simp only [Bool.false_eq_true, if_false] at a5
            unfold TreeFrame
            cases k <;> simp [a1, a2, a3, a4, a5]
          refine ⟨k.isNone, ?_, ?_⟩
          · split at h
            · simp only [Option.some.injEq, Prod.mk.injEq] at h
              rw [← h.1]
              have := @Ins.last tree.flags s data pos depth node sp k d dep l m r hp heq hmore
              simpa [*] using this
            · rename_i hr
              simp only [Option.some.injEq, Prod.mk.injEq] at h
              rw [← h.1]
              have := @Ins.last tree.flags s data pos depth node sp k d dep l m r hp heq hmore
              simpa [hr] using this
          · split at h
            · simp only [Option.some.injEq, Prod.mk.injEq] at h
              rw [← h.2]
              obtain ⟨c1, c2, c3, c4, c5, c6⟩ := call_destructor_fields
                (if k.isNone then
                { (if node = TTNode.null then { tree with nodes := size_inc tree.nodes }
                    else tree) with
                  keys := size_inc (if node = TTNode.null then
                    { tree with nodes := size_inc tree.nodes } else tree).keys }
                else (if node = TTNode.null then { tree with nodes := size_inc tree.nodes }
                    else tree)) d
              obtain ⟨a1, a2, a3, a4, a5⟩ := hk
              exact ⟨c1.trans a1, c2.trans a2, c6.trans a3, c5.trans a4, c3.trans a5⟩
            · simp only [Option.some.injEq, Prod.mk.injEq] at h
              rw [← h.2]
              exact hk
      · rename_i hnlt hne
        obtain ⟨⟨x, tx⟩, hx, he⟩ := Option.map_eq_some'.1 h
        simp only [Prod.mk.injEq] at he
        obtain ⟨he1, he2⟩ := he
        subst he1 he2
        obtain ⟨b, hb, hfb⟩ := ih _ _ _ _ _ _ _ _ hhd hs hx
        rw [hfl] at hb
        have hgt : sp < foldc tree.flags (s.getD pos 0) := by
          rcases lt_trichotomy (foldc tree.flags (s.getD pos 0)) sp with h1 | h1 | h1
          · exact absurd h1 hnlt
          · exact absurd h1 hne
          · exact h1
        exact ⟨b, Ins.gt hp hgt hb, TreeFrame_trans_false hf hfb⟩

theorem ins_prep_cases {c : Int} {depth : Nat} {n : TTNode} {sp : Int}
    {k : Option (List Int)} {d : Nat} {dep : Nat} {l m r : TTNode}
    (hp : ins_prep c depth n = TTNode.mk sp k d dep l m r) :
    (sp = c ∧ k = none ∧ d = 0 ∧ dep = depth ∧ l = TTNode.null ∧ m = TTNode.null ∧
        r = TTNode.null ∧
        (n = TTNode.null ∨ ∃ d0 dep0 l0 m0 r0, n = TTNode.mk 0 none d0 dep0 l0 m0 r0)) ∨
      (n = TTNode.mk sp k d dep l m r ∧ ¬ (sp = 0 ∧ k = none)) := by
  cases n with
  | null =>
    simp only [ins_prep, TTNode.mk.injEq] at hp
    obtain ⟨h1, h2, h3, h4, h5, h6, h7⟩ := hp
    exact Or.inl ⟨h1.symm, h2.symm, h3.symm, h4.symm, h5.symm, h6.symm, h7.symm, Or.inl rfl⟩
  | mk sp0 k0 d0 dep0 l0 m0 r0 =>
    by_cases hz : sp0 = 0 ∧ k0 = none
    · simp only [ins_prep, hz, and_self, if_true, TTNode.mk.injEq] at hp
      obtain ⟨h1, h2, h3, h4, h5, h6, h7⟩ := hp
      refine Or.inl ⟨h1.symm, h2.symm, h3.symm, h4.symm, h5.symm, h6.symm, h7.symm, Or.inr ?_⟩
      exact ⟨d0, dep0, l0, m0, r0, by rw [hz.1, hz.2]⟩
    · simp only [ins_prep, hz, if_false, TTNode.mk.injEq] at hp
      obtain ⟨h1, h2, h3, h4, h5, h6, h7⟩ := hp
      subst h1 h2 h3 h4 h5 h6 h7
      exact Or.inr ⟨rfl, hz⟩

theorem getD_pos_lt_length (s : List Int) (i : Nat) (h : 0 < s.getD i 0) :
    i < s.length := by
  by_contra hc
  rw [List.getD_eq_default _ _ (by omega)] at h
  exact lt_irrefl _ h

/-- The recursion of `_TT_insert` ends: with fuel above the height of the node
plus the number of characters left, a result is returned. -/
theorem _TT_insert_total (fuel : Nat) : ∀ (node : TTNode) (s : List Int) (pos : Nat)
    (data : Nat) (tree : TTree) (depth : Nat),
    node.height + (s.length - pos) < fuel →
    ∃ r, _TT_insert fuel node s pos data tree depth = some r := by
  induction fuel with
  | zero => intro node s pos data tree depth h; omega
  | succ fuel ih =>
    intro node s pos data tree depth hfu
    by_cases hg : tree.head = TTNode.null ∨ s.headD 0 = 0
    · exact ⟨(TTNode.null, tree), by simp only [_TT_insert, hg, if_true]⟩
    · have hh : tree.head ≠ TTNode.null := fun h => hg (Or.inl h)
      have hs : s.headD 0 ≠ 0 := fun h => hg (Or.inr h)
      obtain ⟨sp, k, d, dep, l, m, r, hp⟩ :=
        ins_prep_exists (foldc tree.flags (s.getD pos 0)) depth node
      rw [_TT_insert_step fuel node s pos data tree depth hh hs sp k d dep l m r hp]
      simp only
      have hcase := ins_prep_cases hp
      split
      · rename_i hlt
        rcases hcase with ⟨h1, _⟩ | ⟨h1, _⟩
        · rw [h1] at hlt; exact absurd hlt (lt_irrefl _)
        · obtain ⟨x, hx⟩ := ih l s pos data
            (if node = TTNode.null then { tree with nodes := size_inc tree.nodes } else tree)
            (size_inc depth) (by rw [h1] at hfu; simp only [TTNode.height] at hfu; omega)
          exact ⟨_, by rw [hx]; rfl⟩
      · split
        · split
          · rename_i hmore
            have hlen := getD_pos_lt_length s (pos + 1) hmore
            obtain ⟨x, hx⟩ := ih m s (pos + 1) data
              (if node = TTNode.null then { tree with nodes := size_inc tree.nodes } else tree)
              (size_inc depth) (by
                rcases hcase with ⟨_, _, _, _, _, h1, _⟩ | ⟨h1, _⟩
                · rw [h1]; simp only [TTNode.height]; omega
                · rw [h1] at hfu; simp only [TTNode.height] at hfu; omega)
            exact ⟨_, by rw [hx]; rfl⟩
          · split <;> exact ⟨_, rfl⟩
        · rename_i hnlt hne
          rcases hcase with ⟨h1, _⟩ | ⟨h1, _⟩
          · exact absurd h1.symm hne
          · obtain ⟨x, hx⟩ := ih r s pos data
              (if node = TTNode.null then { tree with nodes := size_inc tree.nodes } else tree)
              (size_inc depth) (by rw [h1] at hfu; simp only [TTNode.height] at hfu; omega)
            exact ⟨_, by rw [hx]; rfl⟩

/-! ## Facts on search -/

theorem _TT_search_null (s : List Int) (flags : Tree_Flags) :
    _TT_search TTNode.null s flags = none := by
  simp [_TT_search]

theorem _TT_search_nil (n : TTNode) (flags : Tree_Flags) :
    _TT_search n [] flags = none := by
  simp [_TT_search]

theorem _TT_search_headD_zero (n : TTNode) (s : List Int) (flags : Tree_Flags)
    (h : s.headD 0 = 0) : _TT_search n s flags = none := by
  simp only [_TT_search, h, or_true, if_true]

/-- The search below a child, seen from the parent. -/
theorem _TT_search_child (flags : Tree_Flags) (x : TTNode) (s : List Int)
    (hs : s.headD 0 ≠ 0) (root : TTNode) (lk : Link)
    (hd : ∀ p, root.deref (lk :: p) = x.deref p) :
    (match (_TT_search_loop flags x s).map (fun p => lk :: p) with
      | none => none
      | some p => if ((root.deref p).key).isSome then some p else none) =
    (_TT_search x s flags).map (fun p => lk :: p) := by
  unfold _TT_search
  by_cases hx : x = TTNode.null
  · subst hx
    simp [_TT_search_loop]
  · simp only [hx, hs, or_self, if_false]
    cases h : _TT_search_loop flags x s with
    | none => simp
    | some p =>
      simp only [Option.map_some', hd]
      split <;> simp

/-- One iteration of the loop of `_TT_search`. -/
theorem _TT_search_mk (flags : Tree_Flags) (sp : Int) (k : Option (List Int))
    (d : Nat) (dep : Nat) (l m r : TTNode) (ch : Int) (rest : List Int)
    (hch : ch ≠ 0) :
    _TT_search (TTNode.mk sp k d dep l m r) (ch :: rest) flags =
      if sp = 0 ∧ k = none then none
      else if foldc flags ch < sp then
        (_TT_search l (ch :: rest) flags).map (fun p => Link.left :: p)
      else if foldc flags ch > sp then
        (_TT_search r (ch :: rest) flags).map (fun p => Link.right :: p)
      else if rest.headD 0 ≠ 0 then
        (_TT_search m rest flags).map (fun p => Link.mid :: p)
      else if k.isSome then some [] else none := by
  have hs : (ch :: rest).headD 0 ≠ 0 := by simpa using hch
  by_cases hz : sp = 0 ∧ k = none
  · obtain ⟨h1, h2⟩ := hz
    subst h1 h2
    simp [_TT_search, _TT_search_loop, TTNode.deref, TTNode.key]
  · have hz2 : sp ≠ 0 ∨ k.isSome = true := by
      by_contra hc
      push_neg at hc
      apply hz
      refine ⟨hc.1, ?_⟩
      cases k with
      | none => rfl
      | some ks => simp at hc
    rw [if_neg hz]
    conv_lhs => unfold _TT_search
    rw [if_neg (by simp [hch])]
    conv_lhs => unfold _TT_search_loop
    rw [if_pos ⟨hs, hz2⟩]
    simp only [List.headD_cons, List.tail_cons]
    by_cases h1 : foldc flags ch < sp
    · rw [if_pos h1, if_pos h1]
      exact _TT_search_child flags l (ch :: rest) hs (TTNode.mk sp k d dep l m r) Link.left
        (fun p => by simp [TTNode.deref])
    · rw [if_neg h1, if_neg h1]
      by_cases h2 : foldc flags ch > sp
      · rw [if_pos h2, if_pos h2]
        exact _TT_search_child flags r (ch :: rest) hs (TTNode.mk sp k d dep l m r) Link.right
          (fun p => by simp [TTNode.deref])
      · rw [if_neg h2, if_neg h2]
        by_cases h3 : rest.headD 0 ≠ 0
        · rw [if_pos h3, if_pos h3]
          exact _TT_search_child flags m rest h3 (TTNode.mk sp k d dep l m r) Link.mid
            (fun p => by simp [TTNode.deref])
        · rw [if_neg h3, if_neg h3]
          simp [TTNode.deref, TTNode.key]

theorem sfind_null (s : List Int) (flags : Tree_Flags) :
    sfind flags TTNode.null s = none := by
  simp [sfind, _TT_search_null]

theorem sfind_nil (n : TTNode) (flags : Tree_Flags) : sfind flags n [] = none := by
  simp [sfind, _TT_search_nil]

/-- One iteration of the loop of `_TT_search`, in terms of what is found. -/
theorem sfind_mk (flags : Tree_Flags) (sp : Int) (k : Option (List Int))
    (d : Nat) (dep : Nat) (l m r : TTNode) (ch : Int) (rest : List Int)
    (hch : ch ≠ 0) :
    sfind flags (TTNode.mk sp k d dep l m r) (ch :: rest) =
      if sp = 0 ∧ k = none then none
      else if foldc flags ch < sp then sfind flags l (ch :: rest)
      else if foldc flags ch > sp then sfind flags r (ch :: rest)
      else if rest.headD 0 ≠ 0 then sfind flags m rest
      else if k.isSome then some ⟨k, d⟩ else none := by
  unfold sfind
  rw [_TT_search_mk flags sp k d dep l m r ch rest hch]
  split
  · rfl
  · split
    · simp [Option.map_map, Function.comp_def, TTNode.deref]
    · split
      · simp [Option.map_map, Function.comp_def, TTNode.deref]
      · split
        · simp [Option.map_map, Function.comp_def, TTNode.deref]
        · split <;> simp [TTNode.deref, TTNode.key, TTNode.data]

/-! ## Facts on strings -/

theorem tolower_pos {c : Int} (h : 0 < c) : 0 < tolower c := by
  unfold tolower
  split <;> omega

theorem foldc_pos (flags : Tree_Flags) {c : Int} (h : 0 < c) : 0 < foldc flags c := by
  unfold foldc
  split
  · exact tolower_pos h
  · exact h

theorem drop_eq_getD_cons (s : List Int) (pos : Nat) (h : pos < s.length) :
    s.drop pos = s.getD pos 0 :: s.drop (pos + 1) := by
  rw [List.drop_eq_getElem_cons h, List.getD_eq_getElem _ _ h]

theorem getD_pos_of_lt (s : List Int) (hpos : ∀ c ∈ s, 0 < c) (i : Nat)
    (h : i < s.length) : 0 < s.getD i 0 := by
  rw [List.getD_eq_getElem _ _ h]
  exact hpos _ (List.getElem_mem _)

theorem drop_succ_eq_nil (s : List Int) (hpos : ∀ c ∈ s, 0 < c) (pos : Nat)
    (h : ¬ 0 < s.getD (pos + 1) 0) : s.drop (pos + 1) = [] := by
  rw [List.drop_eq_nil_iff]
  by_contra hc
  exact h (getD_pos_of_lt s hpos (pos + 1) (by omega))

theorem headD_ne_zero_iff (rest : List Int) (h : ∀ c ∈ rest, c ≠ 0) :
    rest.headD 0 ≠ 0 ↔ rest ≠ [] := by
  cases rest with
  | nil => simp
  | cons a t => simpa using h a (List.mem_cons_self _ _)

theorem foldk_cons (flags : Tree_Flags) (c : Int) (s : List Int) :
    foldk flags (c :: s) = foldc flags c :: foldk flags s := rfl

theorem foldk_eq_nil (flags : Tree_Flags) (s : List Int) :
    foldk flags s = [] ↔ s = [] := by
  simp [foldk]

theorem sfind_fresh (flags : Tree_Flags) (n : TTNode) (s1 : List Int)
    (h : n = TTNode.null ∨ ∃ d0 dep0 l0 m0 r0, n = TTNode.mk 0 none d0 dep0 l0 m0 r0) :
    sfind flags n s1 = none := by
  rcases h with h | ⟨d0, dep0, l0, m0, r0, h⟩
  · rw [h, sfind_null]
  · subst h
    cases s1 with
    | nil => exact sfind_nil _ _
    | cons ch rest =>
      by_cases hch : ch = 0
      · subst hch; simp [sfind, _TT_search]
      · rw [sfind_mk _ _ _ _ _ _ _ _ _ _ hch]; simp

/-! ## Search after insertion -/

/-- Frame property of insertion: a search for a key other than the inserted
one is answered as before. -/
theorem Ins_frame {flags : Tree_Flags} {s : List Int} {data : Nat} {pos depth : Nat}
    {n n1 : TTNode} {b : Bool} (h : Ins flags s data pos depth n n1 b)
    (hpos : ∀ c ∈ s, 0 < c) :
    pos < s.length → ∀ s1 : List Int, (∀ c ∈ s1, c ≠ 0) →
      foldk flags s1 ≠ foldk flags (s.drop pos) → sfind flags n1 s1 = sfind flags n s1 := by
  induction h with
  | @lt pos depth n sp k d dep l m r l1 b hp hc _ ih =>
    intro hlt s1 hs1 hne
    rcases ins_prep_cases hp with ⟨h1, _⟩ | ⟨h1, hnz⟩
    · rw [h1] at hc; exact absurd hc (lt_irrefl _)
    · subst h1
      cases s1 with
      | nil => simp [sfind_nil]
      | cons ch rest =>
        have hch : ch ≠ 0 := hs1 ch (List.mem_cons_self _ _)
        rw [sfind_mk _ _ _ _ _ _ _ _ _ _ hch, sfind_mk _ _ _ _ _ _ _ _ _ _ hch,
          ih hlt (ch :: rest) hs1 hne]
  | @gt pos depth n sp k d dep l m r r1 b hp hc _ ih =>
    intro hlt s1 hs1 hne
    rcases ins_prep_cases hp with ⟨h1, _⟩ | ⟨h1, hnz⟩
    · rw [h1] at hc; exact absurd hc (lt_irrefl _)
    · subst h1
      cases s1 with
      | nil => simp [sfind_nil]
      | cons ch rest =>
        have hch : ch ≠ 0 := hs1 ch (List.mem_cons_self _ _)
        rw [sfind_mk _ _ _ _ _ _ _ _ _ _ hch, sfind_mk _ _ _ _ _ _ _ _ _ _ hch,
          ih hlt (ch :: rest) hs1 hne]
  | @mid pos depth n sp k d dep l m r m1 b hp hc hmore _ ih =>
    intro hlt s1 hs1 hne
    have hlt1 : pos + 1 < s.length := getD_pos_lt_length s (pos + 1) hmore
    have hsp : 0 < sp := by
      rw [← hc]; exact foldc_pos flags (getD_pos_of_lt s hpos pos hlt)
    cases s1 with
    | nil => simp [sfind_nil]
    | cons ch rest =>
      have hch : ch ≠ 0 := hs1 ch (List.mem_cons_self _ _)
      have hrest : ∀ c ∈ rest, c ≠ 0 := fun c hc1 => hs1 c (List.mem_cons_of_mem _ hc1)
      rw [drop_eq_getD_cons s pos hlt, foldk_cons, foldk_cons, hc] at hne
      have hih : foldc flags ch = sp → sfind flags m1 rest = sfind flags m rest := by
        intro he
        apply ih hlt1 rest hrest
        intro hcon
        apply hne
        rw [he, hcon]
      have hstep : sfind flags (TTNode.mk sp k d dep l m1 r) (ch :: rest) =
          sfind flags (TTNode.mk sp k d dep l m r) (ch :: rest) := by
        rw [sfind_mk _ _ _ _ _ _ _ _ _ _ hch, sfind_mk _ _ _ _ _ _ _ _ _ _ hch]
        by_cases h1 : foldc flags ch < sp
        · simp [h1]
        · by_cases h2 : foldc flags ch > sp
          · simp [h1, h2]
          · have he : foldc flags ch = sp := by omega
            simp only [h1, h2, if_false, hih he]
      rw [hstep]
      rcases ins_prep_cases hp with ⟨h1, h2, h3, h4, h5, h6, h7, hn⟩ | ⟨h1, hnz⟩
      · subst h2 h5 h6 h7
        rw [sfind_fresh flags n (ch :: rest) hn, sfind_mk _ _ _ _ _ _ _ _ _ _ hch]
        have hnz : ¬ (sp = 0 ∧ (none : Option (List Int)) = none) := by
          intro hcon; omega
        simp only [hnz, if_false, sfind_null]
        simp
      · rw [h1]
  | @last pos depth n sp k d dep l m r hp hc hmore =>
    intro hlt s1 hs1 hne
    have hsp : 0 < sp := by
      rw [← hc]; exact foldc_pos flags (getD_pos_of_lt s hpos pos hlt)
    cases s1 with
    | nil => simp [sfind_nil]
    | cons ch rest =>
      have hch : ch ≠ 0 := hs1 ch (List.mem_cons_self _ _)
      have hrest : ∀ c ∈ rest, c ≠ 0 := fun c hc1 => hs1 c (List.mem_cons_of_mem _ hc1)
      rw [drop_eq_getD_cons s pos hlt, drop_succ_eq_nil s hpos pos hmore, foldk_cons,
        foldk_cons, hc] at hne
      have hne2 : foldc flags ch = sp → rest.headD 0 ≠ 0 := by
        intro he
        rw [headD_ne_zero_iff rest hrest]
        intro hr
        apply hne
        rw [he, hr]
      have hstep : ∀ (k1 k2 : Option (List Int)) (d1 d2 : Nat),
          ¬ (sp = 0 ∧ k1 = none) → ¬ (sp = 0 ∧ k2 = none) →
          sfind flags (TTNode.mk sp k1 d1 dep l m r) (ch :: rest) =
          sfind flags (TTNode.mk sp k2 d2 dep l m r) (ch :: rest) := by
        intro k1 k2 d1 d2 hz1 hz2
        rw [sfind_mk _ _ _ _ _ _ _ _ _ _ hch, sfind_mk _ _ _ _ _ _ _ _ _ _ hch]
        by_cases h1 : foldc flags ch < sp
        · simp [h1, hz1, hz2]
        · by_cases h2 : foldc flags ch > sp
          · simp [h1, h2, hz1, hz2]
          · have he : foldc flags ch = sp := by omega
            simp only [h1, h2, if_false, hz1, hz2, hne2 he, if_true, ne_eq, not_false_eq_true]
      rcases ins_prep_cases hp with ⟨h1, h2, h3, h4, h5, h6, h7, hn⟩ | ⟨h1, hnz⟩
      · subst h2 h5 h6 h7
        rw [sfind_fresh flags n (ch :: rest) hn, sfind_mk _ _ _ _ _ _ _ _ _ _ hch]
        have hnz : ¬ (sp = 0 ∧ (some ((none : Option (List Int)).getD (Strdup s))) = none) := by
          intro hcon; omega
        simp only [hnz, if_false, sfind_null]
        by_cases h1 : foldc flags ch < sp
        · simp [h1]
        · by_cases h2 : foldc flags ch > sp
          · simp [h1, h2]
          · have he : foldc flags ch = sp := by omega
            simp only [h1, h2, if_false, hne2 he, if_true, ne_eq, not_false_eq_true]
      · rw [h1]
        exact hstep _ _ _ _ (by intro hcon; omega) hnz

theorem Ins_hit {flags : Tree_Flags} {s : List Int} {data : Nat} {pos depth : Nat}
    {n n1 : TTNode} {b : Bool} (h : Ins flags s data pos depth n n1 b)
    (hpos : ∀ c ∈ s, 0 < c) :
    pos < s.length → ∀ s1 : List Int, (∀ c ∈ s1, c ≠ 0) →
      foldk flags s1 = foldk flags (s.drop pos) →
      HitResult flags s data (sfind flags n s1) (sfind flags n1 s1) b := by
  induction h with
  | @lt pos depth n sp k d dep l m r l1 b hp hc _ ih =>
    intro hlt s1 hs1 heq
    rcases ins_prep_cases hp with ⟨h1, _⟩ | ⟨h1, hnz⟩
    · rw [h1] at hc; exact absurd hc (lt_irrefl _)
    · subst h1
      cases s1 with
      | nil => rw [drop_eq_getD_cons s pos hlt] at heq; simp [foldk] at heq
      | cons ch rest =>
        have hch : ch ≠ 0 := hs1 ch (List.mem_cons_self _ _)
        have heq2 := heq
        rw [drop_eq_getD_cons s pos hlt, foldk_cons, foldk_cons, List.cons.injEq] at heq2
        have h1 : foldc flags ch < sp := by rw [heq2.1]; exact hc
        rw [sfind_mk _ _ _ _ _ _ _ _ _ _ hch, sfind_mk _ _ _ _ _ _ _ _ _ _ hch]
        simp only [hnz, h1, if_false, if_true]
        exact ih hlt (ch :: rest) hs1 heq
  | @gt pos depth n sp k d dep l m r r1 b hp hc _ ih =>
    intro hlt s1 hs1 heq
    rcases ins_prep_cases hp with ⟨h1, _⟩ | ⟨h1, hnz⟩
    · rw [h1] at hc; exact absurd hc (lt_irrefl _)
    · subst h1
      cases s1 with
      | nil => rw [drop_eq_getD_cons s pos hlt] at heq; simp [foldk] at heq
      | cons ch rest =>
        have hch : ch ≠ 0 := hs1 ch (List.mem_cons_self _ _)
        have heq2 := heq
        rw [drop_eq_getD_cons s pos hlt, foldk_cons, foldk_cons, List.cons.injEq] at heq2
        have h1 : ¬ foldc flags ch < sp := by rw [heq2.1]; omega
        have h2 : foldc flags ch > sp := by rw [heq2.1]; exact hc
        rw [sfind_mk _ _ _ _ _ _ _ _ _ _ hch, sfind_mk _ _ _ _ _ _ _ _ _ _ hch]
        simp only [hnz, h1, h2, if_false, if_true]
        exact ih hlt (ch :: rest) hs1 heq
  | @mid pos depth n sp k d dep l m r m1 b hp hc hmore _ ih =>
    intro hlt s1 hs1 heq
    have hlt1 : pos + 1 < s.length := getD_pos_lt_length s (pos + 1) hmore
    have hsp : 0 < sp := by
      rw [← hc]; exact foldc_pos flags (getD_pos_of_lt s hpos pos hlt)
    cases s1 with
    | nil => rw [drop_eq_getD_cons s pos hlt] at heq; simp [foldk] at heq
    | cons ch rest =>
      have hch : ch ≠ 0 := hs1 ch (List.mem_cons_self _ _)
      have hrest : ∀ c ∈ rest, c ≠ 0 := fun c hc1 => hs1 c (List.mem_cons_of_mem _ hc1)
      rw [drop_eq_getD_cons s pos hlt, foldk_cons, foldk_cons, List.cons.injEq, hc] at heq
      obtain ⟨he, heq1⟩ := heq
      have hrne : rest.headD 0 ≠ 0 := by
        rw [headD_ne_zero_iff rest hrest]
        intro hr
        rw [hr, drop_eq_getD_cons s (pos + 1) hlt1] at heq1
        simp [foldk] at heq1
      have h1 : ¬ foldc flags ch < sp := by omega
      have h2 : ¬ foldc flags ch > sp := by omega
      have hih := ih hlt1 rest hrest heq1
      have hnew : ∀ (k0 : Option (List Int)) (d0 dep0 : Nat) (l0 r0 : TTNode),
          sfind flags (TTNode.mk sp k0 d0 dep0 l0 m1 r0) (ch :: rest) = sfind flags m1 rest := by
        intro k0 d0 dep0 l0 r0
        rw [sfind_mk _ _ _ _ _ _ _ _ _ _ hch]
        have hnz : ¬ (sp = 0 ∧ k0 = none) := by intro hcon; omega
        simp only [hnz, h1, h2, hrne, if_false, if_true, ne_eq, not_false_eq_true]
      rw [hnew]
      rcases ins_prep_cases hp with ⟨_, _, _, _, _, h6, _, hn⟩ | ⟨h1n, hnz⟩
      · subst h6
        rw [sfind_fresh flags n (ch :: rest) hn]
        rw [sfind_null] at hih
        exact hih
      · subst h1n
        rw [sfind_mk _ _ _ _ _ _ _ _ _ _ hch]
        simp only [hnz, h1, h2, hrne, if_false, if_true, ne_eq, not_false_eq_true]
        exact hih
  | @last pos depth n sp k d dep l m r hp hc hmore =>
    intro hlt s1 hs1 heq
    have hsp : 0 < sp := by
      rw [← hc]; exact foldc_pos flags (getD_pos_of_lt s hpos pos hlt)
    cases s1 with
    | nil => rw [drop_eq_getD_cons s pos hlt] at heq; simp [foldk] at heq
    | cons ch rest =>
      have hch : ch ≠ 0 := hs1 ch (List.mem_cons_self _ _)
      rw [drop_eq_getD_cons s pos hlt, drop_succ_eq_nil s hpos pos hmore, foldk_cons,
        foldk_cons, List.cons.injEq, hc] at heq
      obtain ⟨he, heq1⟩ := heq
      have hr : rest = [] := (foldk_eq_nil flags rest).1 heq1
      subst hr
      have h1 : ¬ foldc flags ch < sp := by omega
      have h2 : ¬ foldc flags ch > sp := by omega
      have hnew : ∀ (k0 : List Int) (d0 dep0 : Nat) (l0 m0 r0 : TTNode),
          sfind flags (TTNode.mk sp (some k0) d0 dep0 l0 m0 r0) [ch] = some ⟨some k0, d0⟩ := by
        intro k0 d0 dep0 l0 m0 r0
        rw [sfind_mk _ _ _ _ _ _ _ _ _ _ hch]
        simp [h1, h2]
      rw [hnew]
      rcases ins_prep_cases hp with ⟨_, h2n, h3n, _, _, _, _, hn⟩ | ⟨h1n, hnz⟩
      · subst h2n h3n
        rw [sfind_fresh flags n [ch] hn]
        refine ⟨_, rfl, by simp, ?_, ?_, by simp⟩
        · intro hr; simp [hr]
        · intro _ e0 he0; simp at he0
      · subst h1n
        rw [sfind_mk _ _ _ _ _ _ _ _ _ _ hch]
        simp only [hnz, h1, h2, if_false, List.headD_nil, ne_eq, not_true_eq_false]
        cases k with
        | none =>
          refine ⟨_, rfl, by simp, ?_, ?_, by simp⟩
          · intro hr; simp [hr]
          · intro _ e0 he0; simp at he0
        | some ks =>
          refine ⟨_, rfl, by simp, ?_, ?_, by simp⟩
          · intro hr; simp [hr]
          · intro hr e0 he0
            simp only [Option.isSome_some, if_true, Option.some.injEq] at he0
            rw [← he0]; simp [hr]

/-! ## The public functions -/

theorem KeyOK_pos {s : List Int} (h : KeyOK s) : ∀ c ∈ s, 0 < c := by
  intro c hc
  have := h.2 c hc
  omega

theorem KeyOK_headD {s : List Int} (h : KeyOK s) : s.headD 0 ≠ 0 := by
  obtain ⟨h1, h2⟩ := h
  cases s with
  | nil => exact absurd rfl h1
  | cons a t =>
    have := h2 a (List.mem_cons_self _ _)
    simp only [List.headD_cons]
    omega

theorem KeyOK_length {s : List Int} (h : KeyOK s) : 0 < s.length :=
  List.length_pos.2 h.1

theorem deref_mid_cons (n : TTNode) (p : List Link) :
    n.deref (Link.mid :: p) = n.mid.deref p := by
  cases n with
  | null => cases p <;> simp [TTNode.deref, TTNode.mid]
  | mk sp k d dep l m r => simp [TTNode.deref, TTNode.mid]

theorem TT_find_eq (tree : TTree) (s : List Int) (hh : tree.head ≠ TTNode.null) :
    TT_find tree s = sfind tree.flags tree.head.mid s := by
  unfold TT_find TT_search sfind
  by_cases hs : s.headD 0 = 0
  · simp only [hs, or_true, if_true, _TT_search, Option.map_none']
  · simp only [hh, hs, or_self, if_false, Option.map_map, Function.comp_def, deref_mid_cons]

theorem TT_find_some_iff (tree : TTree) (s : List Int) (e : TT_Data) :
    TT_find tree s = some e ↔
      ∃ p, TT_search tree s = some p ∧
        e = ⟨(tree.head.deref p).key, (tree.head.deref p).data⟩ := by
  unfold TT_find
  rw [Option.map_eq_some']
  constructor
  · rintro ⟨p, h1, h2⟩; exact ⟨p, h1, h2.symm⟩
  · rintro ⟨p, h1, h2⟩; exact ⟨p, h1, h2.symm⟩

theorem Ins_ne_null {flags : Tree_Flags} {s : List Int} {data : Nat} {pos depth : Nat}
    {n n1 : TTNode} {b : Bool} (h : Ins flags s data pos depth n n1 b) :
    n1 ≠ TTNode.null := by
  cases h <;> simp

theorem setMid_mid (n m : TTNode) (h : n ≠ TTNode.null) : (n.setMid m).mid = m := by
  cases n with
  | null => exact absurd rfl h
  | mk sp k d dep l m0 r => rfl

theorem setMid_ne_null (n m : TTNode) (h : n ≠ TTNode.null) : n.setMid m ≠ TTNode.null := by
  cases n with
  | null => exact absurd rfl h
  | mk sp k d dep l m0 r => simp [TTNode.setMid]

theorem setMid_self (n : TTNode) : n.setMid n.mid = n := by
  cases n <;> rfl

/-- The function `TT_insert` on a key of bytes 1..127: `_TT_insert` returns a
node, which becomes the child of the head. -/
theorem TT_insert_spec0 (tree : TTree) (s : List Int) (data : Nat)
    (hh : tree.head ≠ TTNode.null) (hs : s.headD 0 ≠ 0) :
    ∃ m1 t1 b, _TT_insert (insert_fuel tree.head.mid s) tree.head.mid s 0 data tree 1 =
        some (m1, t1) ∧
      Ins tree.flags s data 0 1 tree.head.mid m1 b ∧ TreeFrame tree t1 b ∧
      (TT_insert tree s data).1 = { t1 with head := tree.head.setMid m1 } := by
  obtain ⟨⟨m1, t1⟩, hr⟩ := _TT_insert_total (insert_fuel tree.head.mid s) tree.head.mid s 0
    data tree 1 (by unfold insert_fuel; omega)
  obtain ⟨b, hb, hf⟩ := _TT_insert_sound _ _ _ _ _ _ _ _ _ hh hs hr
  refine ⟨m1, t1, b, hr, hb, hf, ?_⟩
  have hg : ¬ (tree.head = TTNode.null ∨ s.headD 0 = 0) := by
    rintro (h | h)
    · exact hh h
    · exact hs h
  have hm : m1 ≠ TTNode.null := Ins_ne_null hb
  unfold TT_insert
  rw [if_neg hg, hr]
  simp only [hm, if_false]
  split <;> rfl

theorem TT_insert_spec (tree : TTree) (s : List Int) (data : Nat)
    (hh : tree.head ≠ TTNode.null) (hs : KeyOK s) :
    ∃ m1 t1 b, _TT_insert (insert_fuel tree.head.mid s) tree.head.mid s 0 data tree 1 =
        some (m1, t1) ∧
      Ins tree.flags s data 0 1 tree.head.mid m1 b ∧ TreeFrame tree t1 b ∧
      (TT_insert tree s data).1 = { t1 with head := tree.head.setMid m1 } :=
  TT_insert_spec0 tree s data hh (KeyOK_headD hs)

/-- After `TT_insert`, a search meets the node that `_TT_insert` returned. -/
theorem TT_insert_find (tree : TTree) (s : List Int) (data : Nat)
    (hh : tree.head ≠ TTNode.null) (hs : KeyOK s) :
    (TT_insert tree s data).1.head ≠ TTNode.null ∧
    (TT_insert tree s data).1.flags = tree.flags ∧
    (TT_insert tree s data).1.destructor = tree.destructor ∧
    (∀ s1 : List Int, (∀ c ∈ s1, c ≠ 0) → foldk tree.flags s1 ≠ foldk tree.flags s →
      TT_find (TT_insert tree s data).1 s1 = TT_find tree s1) ∧
    (∀ s1 : List Int, (∀ c ∈ s1, c ≠ 0) → foldk tree.flags s1 = foldk tree.flags s →
      ∃ b, HitResult tree.flags s data (TT_find tree s1)
        (TT_find (TT_insert tree s data).1 s1) b ∧
        (TT_insert tree s data).1.keys = if b then size_inc tree.keys else tree.keys) := by
  obtain ⟨m1, t1, b, hr, hb, hf, he⟩ := TT_insert_spec tree s data hh hs
  obtain ⟨f1, f2, f3, f4, f5⟩ := hf
  have hh1 : (TT_insert tree s data).1.head ≠ TTNode.null := by
    rw [he]; exact setMid_ne_null _ _ hh
  have hfl : (TT_insert tree s data).1.flags = tree.flags := by rw [he]; exact f1
  have hmid : (TT_insert tree s data).1.head.mid = m1 := by
    rw [he]; exact setMid_mid _ _ hh
  refine ⟨hh1, hfl, by rw [he]; exact f2, ?_, ?_⟩
  · intro s1 hs1 hne
    rw [TT_find_eq _ _ hh1, TT_find_eq _ _ hh, hfl, hmid]
    exact Ins_frame hb (KeyOK_pos hs) (KeyOK_length hs) s1 hs1 (by simpa using hne)
  · intro s1 hs1 heq
    refine ⟨b, ?_, by rw [he]; exact f5⟩
    rw [TT_find_eq _ _ hh1, TT_find_eq _ _ hh, hfl, hmid]
    exact Ins_hit hb (KeyOK_pos hs) (KeyOK_length hs) s1 hs1 (by simpa using heq)

/-! ## Sequences of insertions -/

theorem insert_all_snoc (t : TTree) (ops : List (List Int × Nat)) (op : List Int × Nat) :
    insert_all t (ops ++ [op]) = (TT_insert (insert_all t ops) op.1 op.2).1 := by
  simp [insert_all, List.foldl_append]

theorem insert_all_fields (t : TTree) (hh : t.head ≠ TTNode.null)
    (ops : List (List Int × Nat)) (hk : ∀ op ∈ ops, KeyOK op.1) :
    (insert_all t ops).head ≠ TTNode.null ∧ (insert_all t ops).flags = t.flags ∧
      (insert_all t ops).destructor = t.destructor := by
  induction ops using List.reverseRecOn with
  | nil => exact ⟨hh, rfl, rfl⟩
  | append_singleton ops op ih =>
    have hk1 : ∀ o ∈ ops, KeyOK o.1 := fun o ho => hk o (List.mem_append_left _ ho)
    have hko : KeyOK op.1 := hk op (by simp)
    obtain ⟨i1, i2, i3⟩ := ih hk1
    obtain ⟨j1, j2, j3, _, _⟩ := TT_insert_find (insert_all t ops) op.1 op.2 i1 hko
    rw [insert_all_snoc]
    exact ⟨j1, j2.trans i2, j3.trans i3⟩

theorem last_value_snoc (flags : Tree_Flags) (ops : List (List Int × Nat))
    (op : List Int × Nat) (k : List Int) :
    last_value flags (ops ++ [op]) k =
      if foldk flags op.1 = foldk flags k then some op.2 else last_value flags ops k := by
  unfold last_value
  rw [List.filter_append]
  by_cases h : foldk flags op.1 = foldk flags k
  · simp [List.filter_cons, h]
  · simp [List.filter_cons, h]

theorem TT_find_create (flags : Tree_Flags) (destructor : Option Tree_Destroy)
    (s : List Int) : TT_find (TT_create flags destructor) s = none := by
  rw [TT_find_eq _ _ (by simp [TT_create, _TT_create_node])]
  simp [TT_create, _TT_create_node, TTNode.mid, sfind_null]

theorem HitResult_isSome {flags : Tree_Flags} {s : List Int} {data : Nat}
    {old new : Option TT_Data} {b : Bool} (h : HitResult flags s data old new b) :
    new.isSome = true := by
  obtain ⟨e, he, _⟩ := h
  rw [he]; rfl

/-- A search in a tree built by insertions succeeds exactly on the inserted
keys, as the tree compares them. -/
theorem insert_all_found (flags : Tree_Flags) (destructor : Option Tree_Destroy)
    (ops : List (List Int × Nat)) (hk : ∀ op ∈ ops, KeyOK op.1) (s : List Int)
    (hs : ∀ c ∈ s, c ≠ 0) :
    (TT_find (insert_all (TT_create flags destructor) ops) s).isSome = true ↔
      ∃ op ∈ ops, foldk flags op.1 = foldk flags s := by
  induction ops using List.reverseRecOn with
  | nil => simp [insert_all, TT_find_create]
  | append_singleton ops op ih =>
    have hk1 : ∀ o ∈ ops, KeyOK o.1 := fun o ho => hk o (List.mem_append_left _ ho)
    have hko : KeyOK op.1 := hk op (by simp)
    obtain ⟨i1, i2, _⟩ := insert_all_fields (TT_create flags destructor)
      (by simp [TT_create, _TT_create_node]) ops hk1
    have i2f : (insert_all (TT_create flags destructor) ops).flags = flags := i2
    obtain ⟨_, _, _, hfr, hhit⟩ :=
      TT_insert_find (insert_all (TT_create flags destructor) ops) op.1 op.2 i1 hko
    rw [i2f] at hfr hhit
    rw [insert_all_snoc]
    by_cases he : foldk flags s = foldk flags op.1
    · obtain ⟨b, hb, _⟩ := hhit s hs he
      rw [HitResult_isSome hb]
      simp only [true_iff]
      exact ⟨op, by simp, he.symm⟩
    · rw [hfr s hs he, ih hk1]
      constructor
      · rintro ⟨o, ho, h1⟩
        exact ⟨o, List.mem_append_left _ ho, h1⟩
      · rintro ⟨o, ho, h1⟩
        rcases List.mem_append.1 ho with h2 | h2
        · exact ⟨o, h2, h1⟩
        · simp only [List.mem_singleton] at h2
          subst h2
          exact absurd h1.symm he

/-- With the replace flag, a search in a tree built by insertions finds the
value of the last insertion of the key. -/
theorem insert_all_last (flags : Tree_Flags) (hrep : flags.T_INSERT_REPLACE = true)
    (destructor : Option Tree_Destroy) (ops : List (List Int × Nat))
    (hk : ∀ op ∈ ops, KeyOK op.1) (s : List Int) (hs : ∀ c ∈ s, c ≠ 0) (v : Nat)
    (hv : last_value flags ops s = some v) :
    ∃ e, TT_find (insert_all (TT_create flags destructor) ops) s = some e ∧ e.data = v := by
  induction ops using List.reverseRecOn with
  | nil => simp [last_value] at hv
  | append_singleton ops op ih =>
    have hk1 : ∀ o ∈ ops, KeyOK o.1 := fun o ho => hk o (List.mem_append_left _ ho)
    have hko : KeyOK op.1 := hk op (by simp)
    obtain ⟨i1, i2, _⟩ := insert_all_fields (TT_create flags destructor)
      (by simp [TT_create, _TT_create_node]) ops hk1
    have i2f : (insert_all (TT_create flags destructor) ops).flags = flags := i2
    obtain ⟨_, _, _, hfr, hhit⟩ :=
      TT_insert_find (insert_all (TT_create flags destructor) ops) op.1 op.2 i1 hko
    rw [i2f] at hfr hhit
    rw [insert_all_snoc]
    rw [last_value_snoc] at hv
    by_cases he : foldk flags s = foldk flags op.1
    · rw [if_pos he.symm, Option.some.injEq] at hv
      obtain ⟨b, ⟨e, h1, _, h3, _⟩, _⟩ := hhit s hs he
      exact ⟨e, h1, by rw [h3 hrep, hv]⟩
    · rw [if_neg (fun h => he h.symm)] at hv
      rw [hfr s hs he]
      exact ih hk1 hv

theorem last_value_isSome (flags : Tree_Flags) (ops : List (List Int × Nat))
    (op : List Int × Nat) (hop : op ∈ ops) : ∃ v, last_value flags ops op.1 = some v := by
  unfold last_value
  have hne : ops.filter (fun o => decide (foldk flags o.1 = foldk flags op.1)) ≠ [] := by
    intro h
    have : op ∈ ops.filter (fun o => decide (foldk flags o.1 = foldk flags op.1)) := by
      simp [List.mem_filter, hop]
    rw [h] at this
    simp at this
  rw [List.getLast?_eq_getLast _ hne]
  exact ⟨_, rfl⟩

theorem foldk_eq_iff (flags : Tree_Flags) (a b : List Int) :
    foldk flags a = foldk flags b ↔
      if flags.T_NOCASE then a.map tolower = b.map tolower else a = b := by
  unfold foldk foldc
  cases flags.T_NOCASE
  · simp only [Bool.false_eq_true, if_false]
    have hid : (fun c : Int => c) = id := rfl
    rw [hid, List.map_id, List.map_id]
  · simp only [if_true]

/-! ## Round trip and exact search -/

/-- C1. Round trip with replace enabled: after any finite sequence of
`TT_insert` calls with keys of bytes 1..127 into a tree freshly created with
the replace-on-conflict flag, `TT_search` of each inserted key returns a node
whose value is the one given by the last insertion of that key, keys being
identified up to lower-case folding when the case-insensitive flag is set. -/
theorem C1_round_trip_replace (flags : Tree_Flags)
    (hrep : flags.T_INSERT_REPLACE = true) (destructor : Option Tree_Destroy)
    (ops : List (List Int × Nat)) (hk : ∀ op ∈ ops, KeyOK op.1)
    (op : List Int × Nat) (hop : op ∈ ops) :
    ∃ p v, TT_search (insert_all (TT_create flags destructor) ops) op.1 = some p ∧
      last_value flags ops op.1 = some v ∧
      ((insert_all (TT_create flags destructor) ops).head.deref p).data = v := by
  obtain ⟨v, hv⟩ := last_value_isSome flags ops op hop
  have hs : ∀ c ∈ op.1, c ≠ 0 := by
    intro c hc
    have := KeyOK_pos (hk op hop) c hc
    omega
  obtain ⟨e, he, hd⟩ := insert_all_last flags hrep destructor ops hk op.1 hs v hv
  obtain ⟨p, hp, hep⟩ := (TT_find_some_iff _ _ _).1 he
  refine ⟨p, v, hp, hv, ?_⟩
  rw [← hd, hep]

theorem C1_round_trip_replace_witness :
    ∃ p v, TT_search (insert_all (TT_create ⟨true, true, false, false⟩ none)
        [([67, 97], 1), ([99, 97, 116], 2), ([99, 65], 3)]) [99, 65] = some p ∧
      last_value ⟨true, true, false, false⟩
        [([67, 97], 1), ([99, 97, 116], 2), ([99, 65], 3)] [99, 65] = some v ∧
      ((insert_all (TT_create ⟨true, true, false, false⟩ none)
        [([67, 97], 1), ([99, 97, 116], 2), ([99, 65], 3)]).head.deref p).data = v :=
  C1_round_trip_replace ⟨true, true, false, false⟩ rfl none
    [([67, 97], 1), ([99, 97, 116], 2), ([99, 65], 3)] (by decide) ([99, 65], 3) (by decide)

/-- C2. Without the replace flag the value of a new key is not stored: in a
fresh tree created without replace-on-conflict, after `TT_insert` of the key
"a" (not stored before) with the value 7, `TT_search` returns the node of the
key and its value is `NULL`, not 7. -/
theorem C2_new_key_value_dropped :
    TT_search (TT_create ⟨false, false, false, false⟩ none) [97] = none ∧
    TT_search (TT_insert (TT_create ⟨false, false, false, false⟩ none) [97] 7).1 [97] =
      some [Link.mid] ∧
    ((TT_insert (TT_create ⟨false, false, false, false⟩ none) [97] 7).1.head.deref
      [Link.mid]).key = some [97] ∧
    ((TT_insert (TT_create ⟨false, false, false, false⟩ none) [97] 7).1.head.deref
      [Link.mid]).data = 0 := by
  decide

/-- C3. Exact search is sound and complete: in a tree built from a fresh one
by insertions of keys of bytes 1..127, whatever the flags, `TT_search` of a
string returns a node if and only if the string is one of the inserted keys
(after lower-case folding when the case-insensitive flag is set); in
particular a prefix of a stored key that was not inserted is not found. -/
theorem C3_search_sound_complete (flags : Tree_Flags) (destructor : Option Tree_Destroy)
    (ops : List (List Int × Nat)) (hk : ∀ op ∈ ops, KeyOK op.1) (s : List Int)
    (hs : ∀ c ∈ s, c ≠ 0) :
    ((TT_search (insert_all (TT_create flags destructor) ops) s).isSome = true ↔
      ∃ op ∈ ops, if flags.T_NOCASE then op.1.map tolower = s.map tolower else op.1 = s) ∧
    ((∃ op ∈ ops, s <+: op.1) →
      (¬ ∃ op ∈ ops, if flags.T_NOCASE then op.1.map tolower = s.map tolower else op.1 = s) →
      TT_search (insert_all (TT_create flags destructor) ops) s = none) := by
  have hiff : (TT_search (insert_all (TT_create flags destructor) ops) s).isSome = true ↔
      ∃ op ∈ ops, if flags.T_NOCASE then op.1.map tolower = s.map tolower else op.1 = s := by
    have h := insert_all_found flags destructor ops hk s hs
    unfold TT_find at h
    rw [Option.isSome_map'] at h
    rw [h]
    constructor
    · rintro ⟨op, ho, h1⟩
      exact ⟨op, ho, (foldk_eq_iff flags op.1 s).1 h1⟩
    · rintro ⟨op, ho, h1⟩
      exact ⟨op, ho, (foldk_eq_iff flags op.1 s).2 h1⟩
  refine ⟨hiff, ?_⟩
  intro _ hno
  cases h : TT_search (insert_all (TT_create flags destructor) ops) s with
  | none => rfl
  | some p =>
    exfalso
    apply hno
    apply hiff.1
    rw [h]; rfl

theorem C3_search_sound_complete_witness :
    ((TT_search (insert_all (TT_create ⟨false, false, false, false⟩ none)
        [([98, 111, 98], 1), ([98, 111, 98, 98, 121], 3)]) [98, 111]).isSome = true ↔
      ∃ op ∈ [(([98, 111, 98] : List Int), 1), ([98, 111, 98, 98, 121], 3)],
        if (⟨false, false, false, false⟩ : Tree_Flags).T_NOCASE then
          op.1.map tolower = ([98, 111] : List Int).map tolower
        else op.1 = [98, 111]) ∧
    ((∃ op ∈ [(([98, 111, 98] : List Int), 1), ([98, 111, 98, 98, 121], 3)], [98, 111] <+: op.1) →
      (¬ ∃ op ∈ [(([98, 111, 98] : List Int), 1), ([98, 111, 98, 98, 121], 3)],
        if (⟨false, false, false, false⟩ : Tree_Flags).T_NOCASE then
          op.1.map tolower = ([98, 111] : List Int).map tolower
        else op.1 = [98, 111]) →
      TT_search (insert_all (TT_create ⟨false, false, false, false⟩ none)
        [([98, 111, 98], 1), ([98, 111, 98, 98, 121], 3)]) [98, 111] = none) :=
  C3_search_sound_complete ⟨false, false, false, false⟩ none
    [([98, 111, 98], 1), ([98, 111, 98, 98, 121], 3)] (by decide) [98, 111] (by decide)

/-- C5. A refused overwrite is not reported as a failure: in a tree created
without replace-on-conflict in which the key "a" is stored, `TT_insert` of "a"
with another value returns the node of the key, not `NULL`. -/
theorem C5_refused_overwrite_returns_node :
    TT_search (TT_insert (TT_create ⟨false, false, false, false⟩ none) [97] 1).1 [97] =
      some [Link.mid] ∧
    (TT_insert (TT_insert (TT_create ⟨false, false, false, false⟩ none) [97] 1).1 [97] 2).2 =
      some [Link.mid] := by
  decide

/-! ## Insertion of a stored key -/

theorem headD_drop (s : List Int) (i : Nat) : (s.drop i).headD 0 = s.getD i 0 := by
  simp [List.headD_eq_head?_getD, List.head?_drop, List.getD_eq_getElem?_getD]

theorem store_deref_self (n : TTNode) (p : List Link) : n.store p (n.deref p) = n := by
  induction p generalizing n with
  | nil => cases n <;> simp [TTNode.store, TTNode.deref]
  | cons lk p ih =>
    cases n with
    | null => simp [TTNode.store]
    | mk sp k d dep l m r => cases lk <;> simp [TTNode.store, TTNode.deref, ih]

theorem KeyOK_storable {s : List Int} (h : KeyOK s) : KeyStorable s := by
  refine ⟨h.1, ?_, ?_⟩
  · intro c hc
    have := h.2 c hc
    omega
  · intro c hc
    have := h.2 c (List.mem_of_mem_tail hc)
    omega

theorem KeyStorable_headD {s : List Int} (h : KeyStorable s) : s.headD 0 ≠ 0 := by
  obtain ⟨h1, h2, _⟩ := h
  cases s with
  | nil => exact absurd rfl h1
  | cons a t => simpa using h2 a (List.mem_cons_self _ _)

theorem KeyStorable_getD {s : List Int} (h : KeyStorable s) (i : Nat) (hi : i < s.length) :
    s.getD i 0 ≠ 0 := by
  rw [List.getD_eq_getElem _ _ hi]
  exact h.2.1 _ (List.getElem_mem _)

theorem KeyStorable_getD_succ {s : List Int} (h : KeyStorable s) (i : Nat)
    (hi : i + 1 < s.length) : 0 < s.getD (i + 1) 0 := by
  obtain ⟨_, _, h3⟩ := h
  cases s with
  | nil => simp at hi
  | cons a t =>
    simp only [List.length_cons, Nat.add_lt_add_iff_right] at hi
    simp only [List.tail_cons] at h3
    rw [List.getD_eq_getElem _ _ (by simpa using hi)]
    simp only [List.getElem_cons_succ]
    exact h3 _ (List.getElem_mem _)

/-- Insertion of a key that a search finds: the nodes keep their place, and
only the value of the node found is touched, when the replace flag is set. -/
theorem _TT_insert_existing (fuel : Nat) : ∀ (node : TTNode) (s : List Int) (pos : Nat)
    (data : Nat) (tree : TTree) (depth : Nat) (p : List Link) (res : TTNode × TTree),
    tree.head ≠ TTNode.null → KeyStorable s → pos < s.length →
    _TT_search node (s.drop pos) tree.flags = some p →
    _TT_insert fuel node s pos data tree depth = some res →
    res = (node.store p (replace_data tree.flags data (node.deref p)),
      if tree.flags.T_INSERT_REPLACE then call_destructor tree (node.deref p).data
      else tree) := by
  induction fuel with
  | zero => intro node s pos data tree depth p res _ _ _ _ h; simp [_TT_insert] at h
  | succ fuel ih =>
    intro node s pos data tree depth p res hh hks hlt hsr hins
    have hs : s.headD 0 ≠ 0 := KeyStorable_headD hks
    cases node with
    | null => rw [_TT_search_null] at hsr; exact absurd hsr (by simp)
    | mk sp k d dep l m r =>
      have hsr0 := hsr
      have hch : s.getD pos 0 ≠ 0 := KeyStorable_getD hks pos hlt
      rw [drop_eq_getD_cons s pos hlt, _TT_search_mk _ _ _ _ _ _ _ _ _ _ hch] at hsr
      by_cases hnz : sp = 0 ∧ k = none
      · rw [if_pos hnz] at hsr; exact absurd hsr (by simp)
      · rw [if_neg hnz] at hsr
        have hp : ins_prep (foldc tree.flags (s.getD pos 0)) depth (TTNode.mk sp k d dep l m r) =
            TTNode.mk sp k d dep l m r := by
          simp only [ins_prep, hnz, if_false]
        rw [_TT_insert_step fuel _ s pos data tree depth hh hs sp k d dep l m r hp] at hins
        simp only [reduceCtorEq, if_false] at hins
        rw [← drop_eq_getD_cons s pos hlt] at hsr
        by_cases h1 : foldc tree.flags (s.getD pos 0) < sp
        · rw [if_pos h1] at hsr hins
          obtain ⟨q, hq, hpq⟩ := Option.map_eq_some'.1 hsr
          obtain ⟨x, hx, hrx⟩ := Option.map_eq_some'.1 hins
          have := ih l s pos data tree (size_inc depth) q x hh hks hlt hq hx
          rw [← hrx, ← hpq, this]
          simp [TTNode.store, TTNode.deref]
        · rw [if_neg h1] at hsr hins
          by_cases h2 : foldc tree.flags (s.getD pos 0) > sp
          · have h3 : ¬ foldc tree.flags (s.getD pos 0) = sp := by omega
            rw [if_pos h2] at hsr
            rw [if_neg h3] at hins
            obtain ⟨q, hq, hpq⟩ := Option.map_eq_some'.1 hsr
            obtain ⟨x, hx, hrx⟩ := Option.map_eq_some'.1 hins
            have := ih r s pos data tree (size_inc depth) q x hh hks hlt hq hx
            rw [← hrx, ← hpq, this]
            simp [TTNode.store, TTNode.deref]
          · have h3 : foldc tree.flags (s.getD pos 0) = sp := by omega
            rw [if_neg h2, headD_drop] at hsr
            rw [if_pos h3] at hins
            by_cases h4 : 0 < s.getD (pos + 1) 0
            · have h5 : s.getD (pos + 1) 0 ≠ 0 := by omega
              rw [if_pos h5] at hsr
              rw [if_pos h4] at hins
              have hlt1 := getD_pos_lt_length s (pos + 1) h4
              obtain ⟨q, hq, hpq⟩ := Option.map_eq_some'.1 hsr
              obtain ⟨x, hx, hrx⟩ := Option.map_eq_some'.1 hins
              have := ih m s (pos + 1) data tree (size_inc depth) q x hh hks hlt1 hq hx
              rw [← hrx, ← hpq, this]
              simp [TTNode.store, TTNode.deref]
            · have h5 : ¬ s.getD (pos + 1) 0 ≠ 0 := by
                intro hc
                apply h4
                by_cases hl : pos + 1 < s.length
                · exact KeyStorable_getD_succ hks pos hl
                · rw [List.getD_eq_default _ _ (by omega)] at hc
                  exact absurd rfl hc
              rw [if_neg h5] at hsr
              rw [if_neg h4] at hins
              cases k with
              | none => simp at hsr
              | some ks =>
                simp only [Option.isSome_some, if_true, Option.some.injEq] at hsr
                subst hsr
                simp only [Option.isNone_some, Bool.false_eq_true, if_false,
                  Option.getD_some] at hins
                by_cases hr : tree.flags.T_INSERT_REPLACE = true
                · rw [if_pos hr, Option.some.injEq] at hins
                  rw [← hins]
                  simp [TTNode.store, TTNode.deref, replace_data, hr, TTNode.data]
                · rw [if_neg hr, Option.some.injEq] at hins
                  rw [← hins]
                  simp [TTNode.store, TTNode.deref, replace_data, hr]

theorem _TT_search_key (n : TTNode) (s : List Int) (flags : Tree_Flags) (p : List Link)
    (h : _TT_search n s flags = some p) : ((n.deref p).key).isSome = true := by
  unfold _TT_search at h
  split at h
  · exact absurd h (by simp)
  · split at h
    · exact absurd h (by simp)
    · rename_i q hq
      split at h
      · rename_i hk
        simp only [Option.some.injEq] at h
        rw [← h]; exact hk
      · exact absurd h (by simp)

theorem TT_search_inv (tree : TTree) (s : List Int) (p : List Link)
    (h : TT_search tree s = some p) :
    tree.head ≠ TTNode.null ∧
      ∃ q, p = Link.mid :: q ∧ _TT_search tree.head.mid s tree.flags = some q ∧
        ((tree.head.mid.deref q).key).isSome = true := by
  unfold TT_search at h
  split at h
  · exact absurd h (by simp)
  · rename_i hg
    obtain ⟨q, hq, hpq⟩ := Option.map_eq_some'.1 h
    exact ⟨fun hc => hg (Or.inl hc), q, hpq.symm, hq, _TT_search_key _ _ _ _ hq⟩

theorem replace_data_of_false (flags : Tree_Flags) (h : flags.T_INSERT_REPLACE = false)
    (data : Nat) (n : TTNode) : replace_data flags data n = n := by
  cases n with
  | null => rfl
  | mk sp k d dep l m r => simp [replace_data, h]

/-- Replacing the value of a node changes no search. -/
theorem _TT_search_store_data (flags fl : Tree_Flags) (v : Nat) : ∀ (n : TTNode)
    (q : List Link) (s : List Int),
    _TT_search (n.store q (replace_data fl v (n.deref q))) s flags = _TT_search n s flags := by
  intro n
  induction n with
  | null =>
    intro q s
    cases q <;> simp [TTNode.store, TTNode.deref, replace_data]
  | mk sp k d dep l m r ihl ihm ihr =>
    intro q s
    cases s with
    | nil => rw [_TT_search_nil, _TT_search_nil]
    | cons ch rest =>
      by_cases hch : ch = 0
      · rw [_TT_search_headD_zero _ _ _ (by simpa using hch),
          _TT_search_headD_zero _ _ _ (by simpa using hch)]
      · cases q with
        | nil =>
          simp only [TTNode.store, TTNode.deref, replace_data]
          rw [_TT_search_mk _ _ _ _ _ _ _ _ _ _ hch, _TT_search_mk _ _ _ _ _ _ _ _ _ _ hch]
        | cons lk q1 =>
          cases lk with
          | left =>
            simp only [TTNode.store, TTNode.deref]
            rw [_TT_search_mk _ _ _ _ _ _ _ _ _ _ hch, _TT_search_mk _ _ _ _ _ _ _ _ _ _ hch,
              ihl q1 (ch :: rest)]
          | mid =>
            simp only [TTNode.store, TTNode.deref]
            rw [_TT_search_mk _ _ _ _ _ _ _ _ _ _ hch, _TT_search_mk _ _ _ _ _ _ _ _ _ _ hch,
              ihm q1 rest]
          | right =>
            simp only [TTNode.store, TTNode.deref]
            rw [_TT_search_mk _ _ _ _ _ _ _ _ _ _ hch, _TT_search_mk _ _ _ _ _ _ _ _ _ _ hch,
              ihr q1 (ch :: rest)]

theorem deref_store_self (n : TTNode) (q : List Link) (x : TTNode)
    (h : n.deref q ≠ TTNode.null) : (n.store q x).deref q = x := by
  induction q generalizing n with
  | nil => cases n <;> simp [TTNode.store, TTNode.deref]
  | cons lk q ih =>
    cases n with
    | null => simp [TTNode.deref] at h
    | mk sp k d dep l m r =>
      cases lk <;> simp only [TTNode.store, TTNode.deref] at h ⊢ <;> exact ih _ h

/-- The effect of `TT_insert` on a stored key, as a whole. -/
theorem TT_insert_existing (tree : TTree) (key : List Int) (hk : KeyStorable key) (v2 : Nat)
    (p : List Link) (hp : TT_search tree key = some p) :
    ∃ q, p = Link.mid :: q ∧
      (TT_insert tree key v2).1 =
        { (if tree.flags.T_INSERT_REPLACE then
              call_destructor tree (tree.head.mid.deref q).data else tree) with
          head := tree.head.setMid
            (tree.head.mid.store q (replace_data tree.flags v2 (tree.head.mid.deref q))) } := by
  obtain ⟨hh, q, hpq, hq, _⟩ := TT_search_inv tree key p hp
  obtain ⟨m1, t1, b, hr, _, _, he⟩ := TT_insert_spec0 tree key v2 hh (KeyStorable_headD hk)
  have hx := _TT_insert_existing _ tree.head.mid key 0 v2 tree 1 q (m1, t1) hh hk
    (List.length_pos.2 hk.1) (by simpa using hq) hr
  simp only [Prod.mk.injEq] at hx
  refine ⟨q, hpq, ?_⟩
  rw [he, hx.1, hx.2]

/-- C4. Replace policy with the flag set: in every tree with
replace-on-conflict set, `TT_insert` of a stored key with a value `v2` makes
`TT_search` of the key return the same node as before, now with the value
`v2` and with the key string stored before, and leaves the counters `keys`
and `nodes` unchanged. The key is any key that `_TT_insert` reads to its end
(bytes after the first in 1..127). -/
theorem C4_replace_existing (tree : TTree) (hrep : tree.flags.T_INSERT_REPLACE = true)
    (key : List Int) (hk : KeyStorable key) (v2 : Nat) (p : List Link)
    (hp : TT_search tree key = some p) :
    TT_search (TT_insert tree key v2).1 key = some p ∧
      ((TT_insert tree key v2).1.head.deref p).data = v2 ∧
      ((TT_insert tree key v2).1.head.deref p).key = (tree.head.deref p).key ∧
      (TT_insert tree key v2).1.keys = tree.keys ∧
      (TT_insert tree key v2).1.nodes = tree.nodes := by
  obtain ⟨hh, q0, hpq0, hq0, hkey0⟩ := TT_search_inv tree key p hp
  obtain ⟨q, hpq, hex⟩ := TT_insert_existing tree key hk v2 p hp
  have hqq : q0 = q := by
    rw [hpq0] at hpq
    exact (List.cons.inj hpq).2
  subst hqq
  obtain ⟨c1, c2, c3, c4, c5, c6⟩ := call_destructor_fields tree (tree.head.mid.deref q0).data
  have hnn : tree.head.mid.deref q0 ≠ TTNode.null := by
    intro hc
    rw [hc] at hkey0
    simp [TTNode.key] at hkey0
  have hhead : (TT_insert tree key v2).1.head = tree.head.setMid
      (tree.head.mid.store q0 (replace_data tree.flags v2 (tree.head.mid.deref q0))) := by
    rw [hex]
  have hflags : (TT_insert tree key v2).1.flags = tree.flags := by
    rw [hex, if_pos hrep]; exact c1
  have hderef : (TT_insert tree key v2).1.head.deref p =
      replace_data tree.flags v2 (tree.head.mid.deref q0) := by
    rw [hhead, hpq0, deref_mid_cons, setMid_mid _ _ hh, deref_store_self _ _ _ hnn]
  refine ⟨?_, ?_, ?_, ?_, ?_⟩
  · unfold TT_search
    have hg : ¬ ((TT_insert tree key v2).1.head = TTNode.null ∨ key.headD 0 = 0) := by
      rintro (h | h)
      · rw [hhead] at h; exact setMid_ne_null _ _ hh h
      · exact KeyStorable_headD hk h
    rw [if_neg hg, hflags, hhead, setMid_mid _ _ hh, _TT_search_store_data, hq0, hpq0]
    rfl
  · rw [hderef]
    cases hd : tree.head.mid.deref q0 with
    | null => exact absurd hd hnn
    | mk sp k d dep l m r => simp [replace_data, hrep, TTNode.data]
  · rw [hderef, hpq0, deref_mid_cons]
    cases hd : tree.head.mid.deref q0 with
    | null => exact absurd hd hnn
    | mk sp k d dep l m r => simp [replace_data, TTNode.key]
  · rw [hex, if_pos hrep]; exact c3
  · rw [hex, if_pos hrep]; exact c4

theorem C4_replace_existing_witness :
    TT_search (TT_insert (TT_create ⟨true, false, false, false⟩ none) [-23, 98] 1).1 [-23, 98] =
      some [Link.mid, Link.mid] ∧
    (TT_search (TT_insert (TT_insert (TT_create ⟨true, false, false, false⟩ none)
        [-23, 98] 1).1 [-23, 98] 2).1 [-23, 98] = some [Link.mid, Link.mid] ∧
      ((TT_insert (TT_insert (TT_create ⟨true, false, false, false⟩ none)
        [-23, 98] 1).1 [-23, 98] 2).1.head.deref [Link.mid, Link.mid]).data = 2 ∧
      ((TT_insert (TT_insert (TT_create ⟨true, false, false, false⟩ none)
        [-23, 98] 1).1 [-23, 98] 2).1.head.deref [Link.mid, Link.mid]).key =
        ((TT_insert (TT_create ⟨true, false, false, false⟩ none) [-23, 98] 1).1.head.deref
          [Link.mid, Link.mid]).key ∧
      (TT_insert (TT_insert (TT_create ⟨true, false, false, false⟩ none)
        [-23, 98] 1).1 [-23, 98] 2).1.keys =
        (TT_insert (TT_create ⟨true, false, false, false⟩ none) [-23, 98] 1).1.keys ∧
      (TT_insert (TT_insert (TT_create ⟨true, false, false, false⟩ none)
        [-23, 98] 1).1 [-23, 98] 2).1.nodes =
        (TT_insert (TT_create ⟨true, false, false, false⟩ none) [-23, 98] 1).1.nodes) :=
  ⟨by decide,
    C4_replace_existing (TT_insert (TT_create ⟨true, false, false, false⟩ none) [-23, 98] 1).1
      (by decide) [-23, 98] (by decide) 2 [Link.mid, Link.mid] (by decide)⟩

/-- C6. A refused overwrite changes nothing: in every tree without the
replace-on-conflict flag, `TT_insert` of a stored key leaves the whole tree
state as it was: nodes, key strings, values, counters, and the log of
destructor calls, so that the destructor is invoked on no value. The key is
any key that `_TT_insert` reads to its end (bytes after the first in
1..127). -/
theorem C6_refused_overwrite_no_change (tree : TTree)
    (hrep : tree.flags.T_INSERT_REPLACE = false) (key : List Int) (hk : KeyStorable key)
    (v2 : Nat) (p : List Link) (hp : TT_search tree key = some p) :
    (TT_insert tree key v2).1 = tree := by
  obtain ⟨q, _, hex⟩ := TT_insert_existing tree key hk v2 p hp
  rw [hex, replace_data_of_false _ hrep, store_deref_self, setMid_self]
  simp [hrep]

theorem C6_refused_overwrite_no_change_witness :
    TT_search (TT_insert (TT_create ⟨false, false, false, false⟩ (some Tree_Destroy.T_Free))
      [97, 98] 1).1 [97, 98] = some [Link.mid, Link.mid] ∧
    (TT_insert (TT_insert (TT_create ⟨false, false, false, false⟩ (some Tree_Destroy.T_Free))
      [97, 98] 1).1 [97, 98] 2).1 =
    (TT_insert (TT_create ⟨false, false, false, false⟩ (some Tree_Destroy.T_Free))
      [97, 98] 1).1 :=
  ⟨by decide,
    C6_refused_overwrite_no_change
      (TT_insert (TT_create ⟨false, false, false, false⟩ (some Tree_Destroy.T_Free))
        [97, 98] 1).1 (by decide) [97, 98] (by decide) 2 [Link.mid, Link.mid] (by decide)⟩

/-! ## The structure invariant -/

theorem Inv_regular {flags : Tree_Flags} {p : List Int} {lo hi sp : Int}
    {k : Option (List Int)} {d dep : Nat} {l m r : TTNode}
    (h : Inv flags p lo hi (TTNode.mk sp k d dep l m r)) (hnz : ¬ (sp = 0 ∧ k = none)) :
    lo < sp ∧ sp < hi ∧
      (∀ ks, k = some ks → foldk flags ks = p ++ [sp] ∧ ∀ c ∈ ks, c ≠ 0) ∧
      Inv flags p lo sp l ∧ Inv flags (p ++ [sp]) 0 128 m ∧ Inv flags p sp hi r := by
  unfold Inv at h
  rcases h with ⟨h1, h2, _⟩ | h
  · exact absurd ⟨h1, h2⟩ hnz
  · exact h

theorem Inv_null (flags : Tree_Flags) (p : List Int) (lo hi : Int) :
    Inv flags p lo hi TTNode.null := by
  unfold Inv
  trivial

theorem tolower_range {c : Int} (h : 1 ≤ c ∧ c ≤ 127) : 1 ≤ tolower c ∧ tolower c ≤ 127 := by
  unfold tolower
  split <;> omega

theorem foldc_range (flags : Tree_Flags) {c : Int} (h : 1 ≤ c ∧ c ≤ 127) :
    1 ≤ foldc flags c ∧ foldc flags c ≤ 127 := by
  unfold foldc
  split
  · exact tolower_range h
  · exact h

theorem getD_range (s : List Int) (hs : KeyOK s) (i : Nat) (h : i < s.length) :
    1 ≤ s.getD i 0 ∧ s.getD i 0 ≤ 127 := by
  rw [List.getD_eq_getElem _ _ h]
  exact hs.2 _ (List.getElem_mem _)

theorem foldk_take_succ (flags : Tree_Flags) (s : List Int) (pos : Nat) (h : pos < s.length) :
    foldk flags (s.take (pos + 1)) = foldk flags (s.take pos) ++ [foldc flags (s.getD pos 0)] := by
  unfold foldk
  rw [List.take_succ, List.map_append, List.getD_eq_getElem?_getD, List.getElem?_eq_getElem h]
  simp

theorem Strdup_eq (s : List Int) (h : ∀ c ∈ s, c ≠ 0) : Strdup s = s := by
  unfold Strdup
  rw [List.takeWhile_eq_self_iff]
  intro c hc
  simpa using h c hc

/-- Insertion keeps the structure invariant. -/
theorem Ins_Inv {flags : Tree_Flags} {s : List Int} {data : Nat} {pos depth : Nat}
    {n n1 : TTNode} {b : Bool} (h : Ins flags s data pos depth n n1 b) (hs : KeyOK s) :
    pos < s.length → ∀ lo hi : Int, lo < foldc flags (s.getD pos 0) →
      foldc flags (s.getD pos 0) < hi →
      Inv flags (foldk flags (s.take pos)) lo hi n →
      Inv flags (foldk flags (s.take pos)) lo hi n1 := by
  induction h with
  | @lt pos depth n sp k d dep l m r l1 b hp hc _ ih =>
    intro hlt lo hi hlo hhi hinv
    rcases ins_prep_cases hp with ⟨h1, _⟩ | ⟨h1, hnz⟩
    · rw [h1] at hc; exact absurd hc (lt_irrefl _)
    · subst h1
      obtain ⟨i1, i2, i3, i4, i5, i6⟩ := Inv_regular hinv hnz
      unfold Inv
      exact Or.inr ⟨i1, i2, i3, ih hlt lo sp hlo hc i4, i5, i6⟩
  | @gt pos depth n sp k d dep l m r r1 b hp hc _ ih =>
    intro hlt lo hi hlo hhi hinv
    rcases ins_prep_cases hp with ⟨h1, _⟩ | ⟨h1, hnz⟩
    · rw [h1] at hc; exact absurd hc (lt_irrefl _)
    · subst h1
      obtain ⟨i1, i2, i3, i4, i5, i6⟩ := Inv_regular hinv hnz
      unfold Inv
      exact Or.inr ⟨i1, i2, i3, i4, i5, ih hlt sp hi hc hhi i6⟩
  | @mid pos depth n sp k d dep l m r m1 b hp hc hmore _ ih =>
    intro hlt lo hi hlo hhi hinv
    have hlt1 : pos + 1 < s.length := getD_pos_lt_length s (pos + 1) hmore
    have hr1 := foldc_range flags (getD_range s hs (pos + 1) hlt1)
    have hih := ih hlt1 0 128 (by omega) (by omega)
    rw [foldk_take_succ flags s pos hlt, hc] at hih
    rcases ins_prep_cases hp with ⟨_, h2, _, _, h5, h6, h7, _⟩ | ⟨h1, hnz⟩
    · subst h2 h5 h6 h7
      unfold Inv
      refine Or.inr ⟨by omega, by omega, ?_, Inv_null _ _ _ _, hih (Inv_null _ _ _ _),
        Inv_null _ _ _ _⟩
      intro ks hks
      exact absurd hks (by simp)
    · subst h1
      obtain ⟨i1, i2, i3, i4, i5, i6⟩ := Inv_regular hinv hnz
      unfold Inv
      exact Or.inr ⟨i1, i2, i3, i4, hih i5, i6⟩
  | @last pos depth n sp k d dep l m r hp hc hmore =>
    intro hlt lo hi hlo hhi hinv
    have hnew : foldk flags (Strdup s) = foldk flags (s.take pos) ++ [sp] ∧
        ∀ c ∈ Strdup s, c ≠ 0 := by
      have hz : ∀ c ∈ s, c ≠ 0 := by
        intro c hc1
        have := KeyOK_pos hs c hc1
        omega
      rw [Strdup_eq s hz]
      refine ⟨?_, hz⟩
      have hd := drop_succ_eq_nil s (KeyOK_pos hs) pos hmore
      rw [List.drop_eq_nil_iff] at hd
      have hlen : s.length = pos + 1 := by omega
      rw [← hc, ← foldk_take_succ flags s pos hlt, ← hlen, List.take_length]
    rcases ins_prep_cases hp with ⟨_, h2, _, _, h5, h6, h7, _⟩ | ⟨h1, hnz⟩
    · subst h2 h5 h6 h7
      unfold Inv
      refine Or.inr ⟨by omega, by omega, ?_, Inv_null _ _ _ _, Inv_null _ _ _ _,
        Inv_null _ _ _ _⟩
      intro ks hks
      simp only [Option.getD_none, Option.some.injEq] at hks
      rw [← hks]
      exact hnew
    · subst h1
      obtain ⟨i1, i2, i3, i4, i5, i6⟩ := Inv_regular hinv hnz
      unfold Inv
      refine Or.inr ⟨i1, i2, ?_, i4, i5, i6⟩
      intro ks hks
      cases k with
      | none =>
        simp only [Option.getD_none, Option.some.injEq] at hks
        rw [← hks]
        exact hnew
      | some k0 =>
        simp only [Option.getD_some, Option.some.injEq] at hks
        exact i3 ks (by rw [hks])

/-- Overwriting the node that a search returns keeps the structure invariant,
when the new content satisfies it wherever the old one does. -/
theorem Inv_store_search (flags : Tree_Flags) (f : TTNode → TTNode)
    (hf : ∀ p lo hi x, Inv flags p lo hi x → Inv flags p lo hi (f x)) :
    ∀ (n : TTNode) (p : List Int) (lo hi : Int) (s : List Int) (q : List Link),
      Inv flags p lo hi n → _TT_search n s flags = some q →
      Inv flags p lo hi (n.store q (f (n.deref q))) := by
  intro n
  induction n with
  | null =>
    intro p lo hi s q _ hq
    rw [_TT_search_null] at hq
    exact absurd hq (by simp)
  | mk sp k d dep l m r ihl ihm ihr =>
    intro p lo hi s q hinv hq
    cases s with
    | nil => rw [_TT_search_nil] at hq; exact absurd hq (by simp)
    | cons ch rest =>
      by_cases hch : ch = 0
      · rw [_TT_search_headD_zero _ _ _ (by simpa using hch)] at hq
        exact absurd hq (by simp)
      · rw [_TT_search_mk _ _ _ _ _ _ _ _ _ _ hch] at hq
        by_cases hnz : sp = 0 ∧ k = none
        · rw [if_pos hnz] at hq; exact absurd hq (by simp)
        · rw [if_neg hnz] at hq
          obtain ⟨i1, i2, i3, i4, i5, i6⟩ := Inv_regular hinv hnz
          split at hq
          · obtain ⟨q1, hq1, hqq⟩ := Option.map_eq_some'.1 hq
            subst hqq
            simp only [TTNode.store, TTNode.deref]
            unfold Inv
            exact Or.inr ⟨i1, i2, i3, ihl p lo sp _ q1 i4 hq1, i5, i6⟩
          · split at hq
            · obtain ⟨q1, hq1, hqq⟩ := Option.map_eq_some'.1 hq
              subst hqq
              simp only [TTNode.store, TTNode.deref]
              unfold Inv
              exact Or.inr ⟨i1, i2, i3, i4, i5, ihr p sp hi _ q1 i6 hq1⟩
            · split at hq
              · obtain ⟨q1, hq1, hqq⟩ := Option.map_eq_some'.1 hq
                subst hqq
                simp only [TTNode.store, TTNode.deref]
                unfold Inv
                exact Or.inr ⟨i1, i2, i3, i4, ihm (p ++ [sp]) 0 128 _ q1 i5 hq1, i6⟩
              · split at hq
                · simp only [Option.some.injEq] at hq
                  subst hq
                  simp only [TTNode.store, TTNode.deref]
                  exact hf _ _ _ _ hinv
                · exact absurd hq (by simp)

theorem KeyForm_widen {flags : Tree_Flags} {p : List Int} {lo hi lo1 hi1 : Int}
    {e : TT_Data} (h : KeyForm flags p lo hi e) (h1 : lo1 ≤ lo) (h2 : hi ≤ hi1) :
    KeyForm flags p lo1 hi1 e := by
  obtain ⟨ks, c, rest, a1, a2, a3, a4, a5⟩ := h
  exact ⟨ks, c, rest, a1, a2, a3, by omega, by omega⟩

theorem KeyForm_mid {flags : Tree_Flags} {p : List Int} {sp lo hi : Int}
    {e : TT_Data} (h : KeyForm flags (p ++ [sp]) lo hi e) :
    KeyForm flags p (sp - 1) (sp + 1) e := by
  obtain ⟨ks, c, rest, a1, a2, a3, _, _⟩ := h
  exact ⟨ks, sp, c :: rest, a1, a2, by rw [a3]; simp, by omega, by omega⟩

theorem KeyForm_entry_key {flags : Tree_Flags} {p : List Int} {lo hi : Int}
    {e : TT_Data} (h : KeyForm flags p lo hi e) :
    ∃ c rest, entry_key flags e = p ++ c :: rest ∧ lo < c ∧ c < hi := by
  obtain ⟨ks, c, rest, a1, _, a3, a4, a5⟩ := h
  exact ⟨c, rest, by simp [entry_key, a1, a3], a4, a5⟩

/-- Under the invariant every entry has the shape given by the path and the
bounds. -/
theorem Inv_entries_form (flags : Tree_Flags) : ∀ (n : TTNode) (p : List Int) (lo hi : Int),
    Inv flags p lo hi n → ∀ e ∈ entries n, KeyForm flags p lo hi e := by
  intro n
  induction n with
  | null => intro p lo hi _ e he; simp [entries] at he
  | mk sp k d dep l m r ihl ihm ihr =>
    intro p lo hi hinv e he
    unfold Inv at hinv
    rcases hinv with ⟨_, h2, h3, h4, h5⟩ | ⟨i1, i2, i3, i4, i5, i6⟩
    · subst h2 h3 h4 h5
      simp [entries] at he
    · simp only [entries, List.mem_append] at he
      rcases he with ((he | he) | he) | he
      · exact KeyForm_widen (ihl p lo sp i4 e he) (le_refl _) (by omega)
      · cases k with
        | none => simp at he
        | some ks =>
          simp only [Option.isSome_some, if_true, List.mem_singleton] at he
          subst he
          obtain ⟨a1, a2⟩ := i3 ks rfl
          exact ⟨ks, sp, [], rfl, a2, a1, i1, i2⟩
      · exact KeyForm_widen (KeyForm_mid (ihm (p ++ [sp]) 0 128 i5 e he)) (by omega) (by omega)
      · exact KeyForm_widen (ihr p sp hi i6 e he) (by omega) (le_refl _)

theorem KeyForm_lex {flags : Tree_Flags} {p : List Int} {lo1 hi1 lo2 hi2 : Int}
    {a b : TT_Data} (ha : KeyForm flags p lo1 hi1 a) (hb : KeyForm flags p lo2 hi2 b)
    (h : hi1 ≤ lo2 + 1) :
    List.Lex (fun x y : Int => x < y) (entry_key flags a) (entry_key flags b) := by
  obtain ⟨c1, r1, e1, _, u1⟩ := KeyForm_entry_key ha
  obtain ⟨c2, r2, e2, l2, _⟩ := KeyForm_entry_key hb
  rw [e1, e2]
  exact List.Lex.append_left _ (List.Lex.rel (by omega)) p

/-- Under the invariant the entries are met in strictly increasing order of
their folded keys. -/
theorem Inv_entries_sorted (flags : Tree_Flags) : ∀ (n : TTNode) (p : List Int) (lo hi : Int),
    Inv flags p lo hi n → KeySorted flags (entries n) := by
  intro n
  induction n with
  | null => intro p lo hi _; simp [entries, KeySorted]
  | mk sp k d dep l m r ihl ihm ihr =>
    intro p lo hi hinv
    have hinv0 := hinv
    unfold Inv at hinv
    rcases hinv with ⟨_, h2, h3, h4, h5⟩ | ⟨i1, i2, i3, i4, i5, i6⟩
    · subst h2 h3 h4 h5
      simp [entries, KeySorted]
    · have fl := Inv_entries_form flags l p lo sp i4
      have fm := Inv_entries_form flags m (p ++ [sp]) 0 128 i5
      have fr := Inv_entries_form flags r p sp hi i6
      have fself : ∀ e ∈ (if k.isSome then [(⟨k, d⟩ : TT_Data)] else []),
          KeyForm flags p (sp - 1) (sp + 1) e ∧ entry_key flags e = p ++ [sp] := by
        intro e he
        cases k with
        | none => simp at he
        | some ks =>
          simp only [Option.isSome_some, if_true, List.mem_singleton] at he
          subst he
          obtain ⟨a1, a2⟩ := i3 ks rfl
          exact ⟨⟨ks, sp, [], rfl, a2, a1, by omega, by omega⟩, by simp [entry_key, a1]⟩
      unfold KeySorted
      simp only [entries]
      rw [List.pairwise_append, List.pairwise_append, List.pairwise_append]
      refine ⟨⟨⟨ihl p lo sp i4, ?_, ?_⟩, ihm (p ++ [sp]) 0 128 i5, ?_⟩, ihr p sp hi i6, ?_⟩
      · cases k with
        | none => simp
        | some ks => simp
      · intro a ha b hb
        exact KeyForm_lex (fl a ha) (fself b hb).1 (by omega)
      · intro a ha b hb
        rcases List.mem_append.1 ha with ha | ha
        · exact KeyForm_lex (fl a ha) (KeyForm_mid (fm b hb)) (by omega)
        · obtain ⟨c, rest, e2, _, _⟩ := KeyForm_entry_key (fm b hb)
          rw [(fself a ha).2, e2]
          have := List.Lex.append_left (fun x y : Int => x < y)
            (List.Lex.nil (a := c) (l := rest)) (p ++ [sp])
          simpa using this
      · intro a ha b hb
        rcases List.mem_append.1 ha with ha | ha
        · rcases List.mem_append.1 ha with ha | ha
          · exact KeyForm_lex (fl a ha) (fr b hb) (by omega)
          · exact KeyForm_lex (fself a ha).1 (fr b hb) (by omega)
        · exact KeyForm_lex (KeyForm_mid (fm a ha)) (fr b hb) (by omega)

/-! ## The walk of the extraction -/

theorem collect_nil (cur : DataCursor) : collect [] cur = cur := by
  simp [collect]

theorem collect_append (a b : List TT_Data) (cur : DataCursor) :
    collect (a ++ b) cur = collect b (collect a cur) := by
  unfold collect
  simp only [List.length_append, List.take_append_eq_append_take, DataCursor.mk.injEq,
    true_and, List.append_assoc, List.append_cancel_left_eq]
  constructor
  · omega
  · congr 1
    omega

theorem _TT_data_collect (n : TTNode) (cur : DataCursor) :
    _TT_data n cur =
      collect (if n.key.isSome then [(⟨n.key, n.data⟩ : TT_Data)] else []) cur := by
  unfold _TT_data
  split
  · split
    · rename_i h
      simp only [collect, List.length_singleton, DataCursor.mk.injEq, true_and]
      constructor
      · omega
      · rw [List.take_of_length_le (by simp; omega)]
    · rename_i h
      simp only [collect, List.length_singleton]
      have h0 : cur.max - cur.idx = 0 := by omega
      rw [h0]
      simp
  · exact (collect_nil cur).symm

/-- The function `_TT_walk_asc` with the walker `_TT_data` offers the entries
of the node in their order. -/
theorem _TT_walk_asc_data (n : TTNode) : ∀ cur : DataCursor,
    _TT_walk_asc _TT_data n cur = collect (entries n) cur := by
  induction n with
  | null => intro cur; simp [_TT_walk_asc, entries, collect_nil]
  | mk sp k d dep l m r ihl ihm ihr =>
    intro cur
    simp only [_TT_walk_asc, entries]
    rw [ihl, _TT_data_collect, ihm, ihr, collect_append, collect_append, collect_append]
    rfl

/-! ## Deletion and the reachable states -/

theorem _TT_destroy_walk_mk (sp : Int) (k : Option (List Int)) (d dep : Nat)
    (l m r : TTNode) (tree : TTree) :
    _TT_destroy_walk (TTNode.mk sp k d dep l m r) tree =
      { call_destructor (_TT_destroy_walk r (_TT_destroy_walk m (_TT_destroy_walk l tree))) d with
        keys := size_dec
          (call_destructor
            (_TT_destroy_walk r (_TT_destroy_walk m (_TT_destroy_walk l tree))) d).keys
        nodes := size_dec
          (call_destructor
            (_TT_destroy_walk r (_TT_destroy_walk m (_TT_destroy_walk l tree))) d).nodes } := by
  rw [_TT_destroy_walk]

theorem _TT_destroy_walk_fields (n : TTNode) : ∀ tree : TTree,
    (_TT_destroy_walk n tree).flags = tree.flags ∧
    (_TT_destroy_walk n tree).destructor = tree.destructor ∧
    (_TT_destroy_walk n tree).head = tree.head ∧
    (_TT_destroy_walk n tree).depth = tree.depth := by
  induction n with
  | null => intro tree; rw [_TT_destroy_walk]; exact ⟨rfl, rfl, rfl, rfl⟩
  | mk sp k d dep l m r ihl ihm ihr =>
    intro tree
    obtain ⟨a1, a2, a3, a4⟩ := ihl tree
    obtain ⟨b1, b2, b3, b4⟩ := ihm (_TT_destroy_walk l tree)
    obtain ⟨c1, c2, c3, c4⟩ := ihr (_TT_destroy_walk m (_TT_destroy_walk l tree))
    obtain ⟨e1, e2, _, _, e5, e6⟩ := call_destructor_fields
      (_TT_destroy_walk r (_TT_destroy_walk m (_TT_destroy_walk l tree))) d
    rw [_TT_destroy_walk_mk]
    simp only
    exact ⟨e1.trans (c1.trans (b1.trans a1)), e2.trans (c2.trans (b2.trans a2)),
      e6.trans (c3.trans (b3.trans a3)), e5.trans (c4.trans (b4.trans a4))⟩

/-- The two outcomes of `TT_del_key`. -/
theorem TT_del_key_cases (tree : TTree) (key : List Int) :
    TT_del_key tree key = (tree, 0) ∨
    ∃ p, tree.head ≠ TTNode.null ∧ _TT_search tree.head.mid key tree.flags = some p ∧
      (TT_del_key tree key).2 = 1 ∧
      (TT_del_key tree key).1.flags = tree.flags ∧
      (TT_del_key tree key).1.destructor = tree.destructor ∧
      (TT_del_key tree key).1.head =
        tree.head.setMid (tree.head.mid.store p (clear_key (tree.head.mid.deref p))) ∧
      (TT_del_key tree key).1.keys = size_dec tree.keys ∧
      (TT_del_key tree key).1.nodes = tree.nodes ∧
      (TT_del_key tree key).1.destroyed =
        (call_destructor tree (tree.head.mid.deref p).data).destroyed := by
  by_cases hg : tree.head = TTNode.null ∨ key.headD 0 = 0
  · exact Or.inl (by simp only [TT_del_key, hg, if_true])
  · cases hs : _TT_search tree.head.mid key tree.flags with
    | none => exact Or.inl (by simp only [TT_del_key, hg, if_false, hs])
    | some p =>
      cases hd : tree.head.mid.deref p with
      | null => exact Or.inl (by simp only [TT_del_key, hg, if_false, hs, hd])
      | mk sp k d dep l m r =>
        refine Or.inr ⟨p, fun hc => hg (Or.inl hc), rfl, ?_⟩
        obtain ⟨c1, c2, c3, c4, _, _⟩ := call_destructor_fields tree d
        simp only [TT_del_key, hg, if_false, hs, hd, clear_key, TTNode.data, c1, c2, c3, c4,
          and_self]

/-- The two outcomes of `TT_del_node`. -/
theorem TT_del_node_cases (tree : TTree) (key : List Int) :
    TT_del_node tree key = (tree, 0) ∨
    ∃ p, tree.head ≠ TTNode.null ∧ _TT_search tree.head.mid key tree.flags = some p ∧
      (TT_del_node tree key).2 = 1 ∧
      (TT_del_node tree key).1.flags = tree.flags ∧
      (TT_del_node tree key).1.destructor = tree.destructor ∧
      (TT_del_node tree key).1.head =
        tree.head.setMid (tree.head.mid.store p zero_node) ∧
      (TT_del_node tree key).1.keys =
        (_TT_destroy_walk (tree.head.mid.deref p) tree).keys ∧
      (TT_del_node tree key).1.nodes =
        (_TT_destroy_walk (tree.head.mid.deref p) tree).nodes ∧
      (TT_del_node tree key).1.destroyed =
        (_TT_destroy_walk (tree.head.mid.deref p) tree).destroyed := by
  by_cases hg : tree.head = TTNode.null ∨ key.headD 0 = 0
  · exact Or.inl (by simp only [TT_del_node, hg, if_true])
  · cases hs : _TT_search tree.head.mid key tree.flags with
    | none => exact Or.inl (by simp only [TT_del_node, hg, if_false, hs])
    | some p =>
      cases hd : tree.head.mid.deref p with
      | null => exact Or.inl (by simp only [TT_del_node, hg, if_false, hs, hd, _TT_destroy])
      | mk sp k d dep l m r =>
        refine Or.inr ⟨p, fun hc => hg (Or.inl hc), rfl, ?_⟩
        obtain ⟨c1, c2, _, _⟩ := _TT_destroy_walk_fields (TTNode.mk sp k d dep l m r) tree
        simp only [TT_del_node, hg, if_false, hs, hd, _TT_destroy, zero_node,
          Bool.false_eq_true, c1, c2, and_self]

theorem Inv_clear_key (flags : Tree_Flags) (p : List Int) (lo hi : Int) (x : TTNode)
    (h : Inv flags p lo hi x) : Inv flags p lo hi (clear_key x) := by
  cases x with
  | null => exact h
  | mk sp k d dep l m r =>
    unfold Inv at h
    simp only [clear_key]
    unfold Inv
    rcases h with ⟨h1, h2, h3, h4, h5⟩ | ⟨i1, i2, i3, i4, i5, i6⟩
    · exact Or.inl ⟨h1, rfl, h3, h4, h5⟩
    · refine Or.inr ⟨i1, i2, ?_, i4, i5, i6⟩
      intro ks hks
      exact absurd hks (by simp)

theorem Inv_zero_node (flags : Tree_Flags) (p : List Int) (lo hi : Int) :
    Inv flags p lo hi zero_node := by
  unfold zero_node Inv
  exact Or.inl ⟨rfl, rfl, rfl, rfl, rfl⟩

theorem GoodTree_create (flags : Tree_Flags) (destructor : Option Tree_Destroy) :
    GoodTree (TT_create flags destructor) :=
  ⟨TTNode.null, rfl, Inv_null _ _ _ _⟩

theorem GoodTree_head {t : TTree} (h : GoodTree t) : t.head ≠ TTNode.null := by
  obtain ⟨m, hm, _⟩ := h
  rw [hm]
  simp

theorem GoodTree_insert {t : TTree} (h : GoodTree t) (s : List Int) (hs : KeyOK s)
    (data : Nat) :
    GoodTree (TT_insert t s data).1 ∧ (TT_insert t s data).1.flags = t.flags := by
  obtain ⟨m, hm, hinv⟩ := h
  have hh : t.head ≠ TTNode.null := by rw [hm]; simp
  obtain ⟨m1, t1, b, _, hb, hf, he⟩ := TT_insert_spec t s data hh hs
  have hr := foldc_range t.flags (getD_range s hs 0 (KeyOK_length hs))
  have hmid : t.head.mid = m := by rw [hm]; rfl
  rw [hmid] at hb
  have hi := Ins_Inv hb hs (KeyOK_length hs) 0 128 (by omega) (by omega)
    (by simpa using hinv)
  refine ⟨⟨m1, ?_, ?_⟩, ?_⟩
  · rw [he, hm]; rfl
  · rw [he]
    simp only [List.take_zero] at hi
    have : foldk t.flags [] = [] := rfl
    rw [this] at hi
    simpa [hf.1] using hi
  · rw [he]; exact hf.1

theorem GoodTree_store {t : TTree} (h : GoodTree t) (f : TTNode → TTNode)
    (hf : ∀ p lo hi x, Inv t.flags p lo hi x → Inv t.flags p lo hi (f x))
    (s : List Int) (q : List Link) (hq : _TT_search t.head.mid s t.flags = some q)
    (t1 : TTree) (hfl : t1.flags = t.flags)
    (hhd : t1.head = t.head.setMid (t.head.mid.store q (f (t.head.mid.deref q)))) :
    GoodTree t1 := by
  obtain ⟨m, hm, hinv⟩ := h
  have hmid : t.head.mid = m := by rw [hm]; rfl
  rw [hmid] at hq hhd
  refine ⟨m.store q (f (m.deref q)), ?_, ?_⟩
  · rw [hhd, hm]; rfl
  · rw [hfl]
    exact Inv_store_search t.flags f hf m [] 0 128 s q hinv hq

theorem GoodTree_del_key {t : TTree} (h : GoodTree t) (s : List Int) :
    GoodTree (TT_del_key t s).1 ∧ (TT_del_key t s).1.flags = t.flags := by
  rcases TT_del_key_cases t s with hc | ⟨q, _, hq, _, hfl, _, hhd, _⟩
  · rw [hc]; exact ⟨h, rfl⟩
  · exact ⟨GoodTree_store h clear_key (Inv_clear_key t.flags) s q hq (TT_del_key t s).1 hfl hhd,
      hfl⟩

theorem GoodTree_del_node {t : TTree} (h : GoodTree t) (s : List Int) :
    GoodTree (TT_del_node t s).1 ∧ (TT_del_node t s).1.flags = t.flags := by
  rcases TT_del_node_cases t s with hc | ⟨q, _, hq, _, hfl, _, hhd, _⟩
  · rw [hc]; exact ⟨h, rfl⟩
  · exact ⟨GoodTree_store h (fun _ => zero_node)
      (fun p lo hi _ _ => Inv_zero_node t.flags p lo hi) s q hq (TT_del_node t s).1 hfl hhd,
      hfl⟩

theorem run_snoc (t : TTree) (ops : List Op) (op : Op) :
    run t (ops ++ [op]) = apply_op (run t ops) op := by
  simp [run, List.foldl_append]

/-- Every state reached from a fresh tree satisfies the state invariant. -/
theorem GoodTree_run (flags : Tree_Flags) (destructor : Option Tree_Destroy)
    (ops : List Op) (hk : ∀ op ∈ ops, OpOK op) :
    GoodTree (run (TT_create flags destructor) ops) ∧
      (run (TT_create flags destructor) ops).flags = flags := by
  induction ops using List.reverseRecOn with
  | nil => exact ⟨GoodTree_create flags destructor, rfl⟩
  | append_singleton ops op ih =>
    obtain ⟨i1, i2⟩ := ih (fun o ho => hk o (List.mem_append_left _ ho))
    have hop : OpOK op := hk op (by simp)
    rw [run_snoc]
    cases op with
    | insert key data =>
      obtain ⟨j1, j2⟩ := GoodTree_insert i1 key hop data
      exact ⟨j1, j2.trans i2⟩
    | del_key key =>
      obtain ⟨j1, j2⟩ := GoodTree_del_key i1 key
      exact ⟨j1, j2.trans i2⟩
    | del_node key =>
      obtain ⟨j1, j2⟩ := GoodTree_del_node i1 key
      exact ⟨j1, j2.trans i2⟩

theorem GoodTree_walk {t : TTree} (h : GoodTree t) (cur : DataCursor) :
    TT_walk_asc t _TT_data cur = collect (entries t.head.mid) cur := by
  obtain ⟨m, hm, _⟩ := h
  unfold TT_walk_asc
  rw [_TT_walk_asc_data, hm]
  simp [entries, TTNode.mid]

theorem KeySorted_take {flags : Tree_Flags} {es : List TT_Data} (h : KeySorted flags es)
    (k : Nat) : KeySorted flags (es.take k) :=
  List.Pairwise.sublist (List.take_sublist k es) h

theorem KeySorted_nodup {flags : Tree_Flags} {es : List TT_Data} (h : KeySorted flags es) :
    (es.map (entry_key flags)).Nodup := by
  unfold List.Nodup
  rw [List.pairwise_map]
  apply List.Pairwise.imp _ h
  intro a b hab
  exact List.Lex.to_ne (List.Lex.imp (fun _ _ hxy => ne_of_lt hxy) _ _ hab)

/-- The sort order of the ascending walk: in every state reached from a fresh
tree by `TT_insert` (keys of bytes 1..127), `TT_del_key` and `TT_del_node`,
the keys that the walk of `TT_data` writes are strictly increasing in the
lexicographic order of their characters (folded when the case-insensitive
flag is set) and free of duplicates; so are the keys of the array whenever
`TT_data` returns one. -/
theorem TT_data_walk_sorted (flags : Tree_Flags) (destructor : Option Tree_Destroy)
    (ops : List Op) (hk : ∀ op ∈ ops, OpOK op) :
    KeySorted flags
      (TT_walk_asc (run (TT_create flags destructor) ops) _TT_data
        ⟨SIZE_MOD - 1, 0, []⟩).data ∧
    (∀ es cnt, TT_data (run (TT_create flags destructor) ops) = some (some es, cnt) →
      KeySorted flags es ∧ (es.map (entry_key flags)).Nodup) := by
  obtain ⟨hg, hfl⟩ := GoodTree_run flags destructor ops hk
  have hsorted : KeySorted flags
      (TT_walk_asc (run (TT_create flags destructor) ops) _TT_data
        ⟨SIZE_MOD - 1, 0, []⟩).data := by
    rw [GoodTree_walk hg]
    obtain ⟨m, hm, hinv⟩ := hg
    rw [hfl] at hinv
    have := Inv_entries_sorted flags m [] 0 128 hinv
    simp only [collect, List.nil_append]
    rw [hm]
    exact KeySorted_take this _
  refine ⟨hsorted, ?_⟩
  intro es cnt hd
  unfold TT_data at hd
  split at hd
  · simp only at hd
    split at hd
    · simp only [Option.some.injEq, Prod.mk.injEq] at hd
      rw [← hd.1]
      exact ⟨hsorted, KeySorted_nodup hsorted⟩
    · exact absurd hd (by simp)
  · simp at hd

/-- C7 fails on the code. After inserting "x", "xa", "xb", "q", "qrst" (replace
enabled) and `TT_del_node(tree, "q")`, a state of the claim, three keys are
stored and found, but the counter `keys` is 1: `_TT_destroy` decrements it
once for each of the four nodes it visits, two of which hold a key. `TT_data`
allocates `keys + 1` = 2 slots and its walk writes the three entries: the
third write is past the end of the array, so no key sequence is returned. -/
theorem C7_data_overflow_after_del_node :
    (run (TT_create ⟨true, false, false, false⟩ none)
      [Op.insert [120] 1, Op.insert [120, 97] 2, Op.insert [120, 98] 3, Op.insert [113] 4,
        Op.insert [113, 114, 115, 116] 5, Op.del_node [113]]).keys = 1 ∧
    (TT_walk_asc (run (TT_create ⟨true, false, false, false⟩ none)
      [Op.insert [120] 1, Op.insert [120, 97] 2, Op.insert [120, 98] 3, Op.insert [113] 4,
        Op.insert [113, 114, 115, 116] 5, Op.del_node [113]]) _TT_data
        ⟨SIZE_MOD - 1, 0, []⟩).data =
      [⟨some [120], 1⟩, ⟨some [120, 97], 2⟩, ⟨some [120, 98], 3⟩] ∧
    TT_find (run (TT_create ⟨true, false, false, false⟩ none)
      [Op.insert [120] 1, Op.insert [120, 97] 2, Op.insert [120, 98] 3, Op.insert [113] 4,
        Op.insert [113, 114, 115, 116] 5, Op.del_node [113]]) [120, 98] =
      some ⟨some [120, 98], 3⟩ ∧
    TT_data (run (TT_create ⟨true, false, false, false⟩ none)
      [Op.insert [120] 1, Op.insert [120, 97] 2, Op.insert [120, 98] 3, Op.insert [113] 4,
        Op.insert [113, 114, 115, 116] 5, Op.del_node [113]]) = none := by
  decide

/-! ## Entries, search and the counter of keys -/

theorem entries_fresh {flags : Tree_Flags} {p : List Int} {lo hi : Int} {n : TTNode}
    (hn : n = TTNode.null ∨ ∃ d0 dep0 l0 m0 r0, n = TTNode.mk 0 none d0 dep0 l0 m0 r0)
    (hlo : 0 ≤ lo) (hinv : Inv flags p lo hi n) : entries n = [] := by
  rcases hn with hn | ⟨d0, dep0, l0, m0, r0, hn⟩
  · rw [hn]; rfl
  · subst hn
    unfold Inv at hinv
    rcases hinv with ⟨_, _, h3, h4, h5⟩ | ⟨h1, _⟩
    · subst h3 h4 h5
      simp [entries]
    · omega

theorem entries_mk (sp : Int) (k : Option (List Int)) (d dep : Nat) (l m r : TTNode) :
    entries (TTNode.mk sp k d dep l m r) =
      entries l ++ (if k.isSome then [(⟨k, d⟩ : TT_Data)] else []) ++ entries m ++ entries r :=
  rfl

/-- Insertion adds one entry when it stores a key string, and none else. -/
theorem Ins_entries_length {flags : Tree_Flags} {s : List Int} {data : Nat}
    {pos depth : Nat} {n n1 : TTNode} {b : Bool} (h : Ins flags s data pos depth n n1 b) :
    ∀ (p : List Int) (lo hi : Int), 0 ≤ lo → Inv flags p lo hi n →
      (entries n1).length = (entries n).length + (if b then 1 else 0) := by
  induction h with
  | @lt pos depth n sp k d dep l m r l1 b hp hc _ ih =>
    intro p lo hi hlo hinv
    rcases ins_prep_cases hp with ⟨h1, _⟩ | ⟨h1, hnz⟩
    · rw [h1] at hc; exact absurd hc (lt_irrefl _)
    · subst h1
      obtain ⟨i1, i2, i3, i4, i5, i6⟩ := Inv_regular hinv hnz
      rw [entries_mk, entries_mk]
      simp only [List.length_append]
      rw [ih p lo sp hlo i4]
      omega
  | @gt pos depth n sp k d dep l m r r1 b hp hc _ ih =>
    intro p lo hi hlo hinv
    rcases ins_prep_cases hp with ⟨h1, _⟩ | ⟨h1, hnz⟩
    · rw [h1] at hc; exact absurd hc (lt_irrefl _)
    · subst h1
      obtain ⟨i1, i2, i3, i4, i5, i6⟩ := Inv_regular hinv hnz
      rw [entries_mk, entries_mk]
      simp only [List.length_append]
      rw [ih p sp hi (by omega) i6]
      omega
  | @mid pos depth n sp k d dep l m r m1 b hp hc hmore _ ih =>
    intro p lo hi hlo hinv
    rcases ins_prep_cases hp with ⟨_, h2, _, _, h5, h6, h7, hn⟩ | ⟨h1, hnz⟩
    · subst h2 h5 h6 h7
      rw [entries_fresh hn hlo hinv, entries_mk]
      have := ih [] 0 128 (le_refl _) (Inv_null _ _ _ _)
      simp only [entries, List.length_nil, Nat.zero_add] at this
      simp [entries, this]
    · subst h1
      obtain ⟨i1, i2, i3, i4, i5, i6⟩ := Inv_regular hinv hnz
      rw [entries_mk, entries_mk]
      simp only [List.length_append]
      rw [ih (p ++ [sp]) 0 128 (le_refl _) i5]
      omega
  | @last pos depth n sp k d dep l m r hp hc hmore =>
    intro p lo hi hlo hinv
    rcases ins_prep_cases hp with ⟨_, h2, _, _, h5, h6, h7, hn⟩ | ⟨h1, hnz⟩
    · subst h2 h5 h6 h7
      rw [entries_fresh hn hlo hinv, entries_mk]
      simp [entries]
    · subst h1
      rw [entries_mk, entries_mk]
      cases k
      · simp
        omega
      · simp

/-- Clearing the key of the node that a search returns removes one entry. -/
theorem entries_store_clear (flags : Tree_Flags) : ∀ (n : TTNode) (s : List Int)
    (q : List Link), _TT_search n s flags = some q →
      (entries (n.store q (clear_key (n.deref q)))).length + 1 = (entries n).length := by
  intro n
  induction n with
  | null =>
    intro s q hq
    rw [_TT_search_null] at hq
    exact absurd hq (by simp)
  | mk sp k d dep l m r ihl ihm ihr =>
    intro s q hq
    cases s with
    | nil => rw [_TT_search_nil] at hq; exact absurd hq (by simp)
    | cons ch rest =>
      by_cases hch : ch = 0
      · rw [_TT_search_headD_zero _ _ _ (by simpa using hch)] at hq
        exact absurd hq (by simp)
      · rw [_TT_search_mk _ _ _ _ _ _ _ _ _ _ hch] at hq
        split at hq
        · exact absurd hq (by simp)
        · split at hq
          · obtain ⟨q1, hq1, hqq⟩ := Option.map_eq_some'.1 hq
            subst hqq
            simp only [TTNode.store, TTNode.deref, entries_mk, List.length_append]
            have := ihl _ q1 hq1
            omega
          · split at hq
            · obtain ⟨q1, hq1, hqq⟩ := Option.map_eq_some'.1 hq
              subst hqq
              simp only [TTNode.store, TTNode.deref, entries_mk, List.length_append]
              have := ihr _ q1 hq1
              omega
            · split at hq
              · obtain ⟨q1, hq1, hqq⟩ := Option.map_eq_some'.1 hq
                subst hqq
                simp only [TTNode.store, TTNode.deref, entries_mk, List.length_append]
                have := ihm _ q1 hq1
                omega
              · split at hq
                · rename_i hk
                  simp only [Option.some.injEq] at hq
                  subst hq
                  simp only [TTNode.store, TTNode.deref, clear_key, entries_mk,
                    List.length_append, hk, if_true]
                  simp
                  omega
                · exact absurd hq (by simp)

/-- What a search finds is an entry, and its folded key is the path followed
by the folded string searched. -/
theorem sfind_mem (flags : Tree_Flags) : ∀ (n : TTNode) (p : List Int) (lo hi : Int)
    (s : List Int) (e : TT_Data), Inv flags p lo hi n → (∀ c ∈ s, c ≠ 0) →
      sfind flags n s = some e →
      e ∈ entries n ∧ entry_key flags e = p ++ foldk flags s := by
  intro n
  induction n with
  | null =>
    intro p lo hi s e _ _ he
    rw [sfind_null] at he
    exact absurd he (by simp)
  | mk sp k d dep l m r ihl ihm ihr =>
    intro p lo hi s e hinv hs he
    cases s with
    | nil => rw [sfind_nil] at he; exact absurd he (by simp)
    | cons ch rest =>
      have hch : ch ≠ 0 := hs ch (List.mem_cons_self _ _)
      have hrest : ∀ c ∈ rest, c ≠ 0 := fun c hc1 => hs c (List.mem_cons_of_mem _ hc1)
      rw [sfind_mk _ _ _ _ _ _ _ _ _ _ hch] at he
      split at he
      · exact absurd he (by simp)
      · rename_i hnz
        obtain ⟨i1, i2, i3, i4, i5, i6⟩ := Inv_regular hinv hnz
        rw [entries_mk]
        split at he
        · obtain ⟨a1, a2⟩ := ihl p lo sp _ e i4 hs he
          exact ⟨by simp [a1], a2⟩
        · split at he
          · obtain ⟨a1, a2⟩ := ihr p sp hi _ e i6 hs he
            exact ⟨by simp [a1], a2⟩
          · rename_i h1 h2
            have hc : foldc flags ch = sp := by omega
            split at he
            · obtain ⟨a1, a2⟩ := ihm (p ++ [sp]) 0 128 _ e i5 hrest he
              refine ⟨by simp [a1], ?_⟩
              rw [a2, foldk_cons, hc]
              simp
            · rename_i h3
              have hr : rest = [] := by
                by_contra hne
                exact h3 ((headD_ne_zero_iff rest hrest).2 hne)
              subst hr
              split at he
              · rename_i hk
                simp only [Option.some.injEq] at he
                subst he
                refine ⟨by simp [hk], ?_⟩
                cases k with
                | none => simp at hk
                | some ks =>
                  obtain ⟨b1, _⟩ := i3 ks rfl
                  simp only [entry_key, Option.getD_some, b1, foldk_cons, hc]
                  rfl
              · exact absurd he (by simp)

theorem foldk_eq_cons {flags : Tree_Flags} {s : List Int} {c : Int} {rest : List Int}
    (h : foldk flags s = c :: rest) :
    ∃ ch srest, s = ch :: srest ∧ foldc flags ch = c ∧ foldk flags srest = rest := by
  cases s with
  | nil => simp [foldk] at h
  | cons ch srest =>
    rw [foldk_cons, List.cons.injEq] at h
    exact ⟨ch, srest, rfl, h.1, h.2⟩

/-- Under the invariant an entry is found by the search of any NUL-free string
that folds, after the path, to its key. -/
theorem mem_sfind (flags : Tree_Flags) : ∀ (n : TTNode) (p : List Int) (lo hi : Int)
    (e : TT_Data), 0 ≤ lo → Inv flags p lo hi n → e ∈ entries n →
      ∀ s : List Int, (∀ c ∈ s, c ≠ 0) → p ++ foldk flags s = entry_key flags e →
      sfind flags n s = some e := by
  intro n
  induction n with
  | null => intro p lo hi e _ _ he; simp [entries] at he
  | mk sp k d dep l m r ihl ihm ihr =>
    intro p lo hi e hlo hinv he s hs hkey
    unfold Inv at hinv
    rcases hinv with ⟨_, h2, h3, h4, h5⟩ | ⟨i1, i2, i3, i4, i5, i6⟩
    · subst h2 h3 h4 h5
      simp [entries] at he
    · have hnz : ¬ (sp = 0 ∧ k = none) := by intro hc; omega
      have hform : ∀ (c : Int) (rest : List Int), entry_key flags e = p ++ c :: rest →
          ∃ ch srest, s = ch :: srest ∧ foldc flags ch = c ∧ foldk flags srest = rest ∧
            ch ≠ 0 ∧ ∀ x ∈ srest, x ≠ 0 := by
        intro c rest hk
        rw [hk] at hkey
        obtain ⟨ch, srest, e1, e2, e3⟩ := foldk_eq_cons (List.append_cancel_left hkey)
        subst e1
        exact ⟨ch, srest, rfl, e2, e3, hs ch (List.mem_cons_self _ _),
          fun x hx => hs x (List.mem_cons_of_mem _ hx)⟩
      rw [entries_mk] at he
      simp only [List.mem_append] at he
      rcases he with ((he | he) | he) | he
      · obtain ⟨c, rest, hk, _, hc2⟩ := KeyForm_entry_key (Inv_entries_form flags l p lo sp i4 e he)
        obtain ⟨ch, srest, e1, e2, _, hch, _⟩ := hform c rest hk
        subst e1
        rw [sfind_mk _ _ _ _ _ _ _ _ _ _ hch]
        have h1 : foldc flags ch < sp := by omega
        simp only [hnz, h1, if_false, if_true]
        exact ihl p lo sp e hlo i4 he _ hs hkey
      · cases k with
        | none => simp at he
        | some ks =>
          simp only [Option.isSome_some, if_true, List.mem_singleton] at he
          subst he
          obtain ⟨a1, _⟩ := i3 ks rfl
          have hk : entry_key flags (⟨some ks, d⟩ : TT_Data) = p ++ sp :: [] := by
            simp only [entry_key, Option.getD_some, a1]
          obtain ⟨ch, srest, e1, e2, e3, hch, _⟩ := hform sp [] hk
          have hsr : srest = [] := (foldk_eq_nil flags srest).1 e3
          subst e1 hsr
          rw [sfind_mk _ _ _ _ _ _ _ _ _ _ hch]
          have h1 : ¬ foldc flags ch < sp := by omega
          have h2 : ¬ foldc flags ch > sp := by omega
          simp [hnz, h1, h2]
      · have hf := Inv_entries_form flags m (p ++ [sp]) 0 128 i5 e he
        obtain ⟨c, rest, hk, _, _⟩ := KeyForm_entry_key hf
        have hk2 : entry_key flags e = p ++ sp :: (c :: rest) := by rw [hk]; simp
        obtain ⟨ch, srest, e1, e2, e3, hch, hsr⟩ := hform sp (c :: rest) hk2
        subst e1
        rw [sfind_mk _ _ _ _ _ _ _ _ _ _ hch]
        have h1 : ¬ foldc flags ch < sp := by omega
        have h2 : ¬ foldc flags ch > sp := by omega
        have h3 : srest.headD 0 ≠ 0 := by
          rw [headD_ne_zero_iff srest hsr]
          intro hn
          rw [hn] at e3
          simp [foldk] at e3
        simp only [hnz, h1, h2, h3, if_false, if_true, ne_eq, not_false_eq_true]
        refine ihm (p ++ [sp]) 0 128 e (le_refl _) i5 he srest hsr ?_
        rw [hk, e3]
      · obtain ⟨c, rest, hk, hc1, _⟩ := KeyForm_entry_key (Inv_entries_form flags r p sp hi i6 e he)
        obtain ⟨ch, srest, e1, e2, _, hch, _⟩ := hform c rest hk
        subst e1
        rw [sfind_mk _ _ _ _ _ _ _ _ _ _ hch]
        have h1 : ¬ foldc flags ch < sp := by omega
        have h2 : foldc flags ch > sp := by omega
        simp only [hnz, h1, h2, if_false, if_true]
        exact ihr p sp hi e (by omega) i6 he _ hs hkey

theorem size_inc_mod (n : Nat) : size_inc (n % SIZE_MOD) = (n + 1) % SIZE_MOD := by
  unfold size_inc SIZE_MOD
  split <;> omega

theorem size_dec_mod (n : Nat) : size_dec ((n + 1) % SIZE_MOD) = n % SIZE_MOD := by
  unfold size_dec SIZE_MOD
  split <;> omega

theorem KeysOK_insert {t : TTree} (hg : GoodTree t) (hk : KeysOK t) (s : List Int)
    (hs : KeyOK s) (data : Nat) :
    KeysOK (TT_insert t s data).1 ∧
      (entries (TT_insert t s data).1.head.mid).length ≤ (entries t.head.mid).length + 1 := by
  obtain ⟨m, hm, hinv⟩ := hg
  have hh : t.head ≠ TTNode.null := by rw [hm]; simp
  obtain ⟨m1, t1, b, _, hb, hf, he⟩ := TT_insert_spec t s data hh hs
  have hmid : t.head.mid = m := by rw [hm]; rfl
  rw [hmid] at hb
  have hlen := Ins_entries_length hb [] 0 128 (le_refl _) hinv
  have hmid1 : (TT_insert t s data).1.head.mid = m1 := by
    rw [he]; exact setMid_mid _ _ hh
  have hkeys : (TT_insert t s data).1.keys = if b then size_inc t.keys else t.keys := by
    rw [he]; exact hf.2.2.2.2
  unfold KeysOK at hk ⊢
  rw [hmid] at hk
  rw [hmid1, hkeys, hlen, hmid, hk]
  cases b
  · simp
  · simp only [if_true]
    exact ⟨size_inc_mod _, le_refl _⟩

theorem KeysOK_del_key {t : TTree} (hk : KeysOK t) (s : List Int) :
    KeysOK (TT_del_key t s).1 ∧
      (entries (TT_del_key t s).1.head.mid).length ≤ (entries t.head.mid).length := by
  rcases TT_del_key_cases t s with hc | ⟨q, hh, hq, _, _, _, hhd, hkeys, _⟩
  · rw [hc]; exact ⟨hk, le_refl _⟩
  · have hlen := entries_store_clear t.flags t.head.mid s q hq
    unfold KeysOK at hk ⊢
    rw [hhd, setMid_mid _ _ hh, hkeys, hk, ← hlen]
    exact ⟨size_dec_mod _, by omega⟩

/-! ## Sorted extraction after insertions -/

theorem insert_all_good (flags : Tree_Flags) (destructor : Option Tree_Destroy)
    (ops : List (List Int × Nat)) (hk : ∀ op ∈ ops, KeyOK op.1) :
    GoodTree (insert_all (TT_create flags destructor) ops) ∧
    (insert_all (TT_create flags destructor) ops).flags = flags ∧
    KeysOK (insert_all (TT_create flags destructor) ops) ∧
    (entries (insert_all (TT_create flags destructor) ops).head.mid).length ≤ ops.length := by
  induction ops using List.reverseRecOn with
  | nil => exact ⟨GoodTree_create flags destructor, rfl, rfl, le_refl _⟩
  | append_singleton ops op ih =>
    obtain ⟨i1, i2, i3, i4⟩ := ih (fun o ho => hk o (List.mem_append_left _ ho))
    have hop : KeyOK op.1 := hk op (by simp)
    rw [insert_all_snoc]
    obtain ⟨j1, j2⟩ := GoodTree_insert i1 op.1 hop op.2
    obtain ⟨j3, j4⟩ := KeysOK_insert i1 i3 op.1 hop op.2
    refine ⟨j1, j2.trans i2, j3, ?_⟩
    rw [List.length_append, List.length_singleton]
    omega

/-- The function `TT_data` on a tree in a good state whose entries, with the
terminator, make an array that can be allocated: the entries in the order of
the walk, and their number. -/
theorem TT_data_good {t : TTree} (hg : GoodTree t) (hk : KeysOK t)
    (hlen : 16 * ((entries t.head.mid).length + 1) < SIZE_MOD) :
    TT_data t = some (some (entries t.head.mid), (entries t.head.mid).length) ∧
      t.keys = (entries t.head.mid).length := by
  have hkeys : t.keys = (entries t.head.mid).length := by
    unfold KeysOK at hk
    rw [hk]
    exact Nat.mod_eq_of_lt (by omega)
  have hinc : size_inc t.keys = (entries t.head.mid).length + 1 := by
    rw [hkeys]
    unfold size_inc
    rw [if_neg (by omega)]
  have hcal : Calloc sizeof_TT_Data (size_inc t.keys) = true := by
    rw [hinc]
    simpa [Calloc, sizeof_TT_Data] using hlen
  refine ⟨?_, hkeys⟩
  unfold TT_data
  rw [if_pos hcal]
  simp only
  rw [GoodTree_walk hg]
  have h1 : min (entries t.head.mid).length (SIZE_MOD - 1 - 0) = (entries t.head.mid).length := by
    omega
  have h2 : (entries t.head.mid).take (SIZE_MOD - 1 - 0) = entries t.head.mid :=
    List.take_of_length_le (by omega)
  simp only [collect, h1, h2, Nat.zero_add, List.nil_append]
  have h3 : (entries t.head.mid).length < size_inc t.keys := by
    rw [hinc]
    omega
  rw [if_pos h3]

/-- In a good state the search and the entries tell the same. -/
theorem GoodTree_find_iff {t : TTree} (hg : GoodTree t) (s : List Int)
    (hs : ∀ c ∈ s, c ≠ 0) (e : TT_Data) :
    TT_find t s = some e ↔ (e ∈ entries t.head.mid ∧ entry_key t.flags e = foldk t.flags s) := by
  have hh := GoodTree_head hg
  obtain ⟨m, hm, hinv⟩ := hg
  have hmid : t.head.mid = m := by rw [hm]; rfl
  rw [TT_find_eq _ _ hh, hmid]
  constructor
  · intro h
    have := sfind_mem t.flags m [] 0 128 s e hinv hs h
    simpa using this
  · rintro ⟨h1, h2⟩
    exact mem_sfind t.flags m [] 0 128 e (le_refl _) hinv h1 s hs (by simpa using h2.symm)

theorem GoodTree_entry_key {t : TTree} (hg : GoodTree t) (e : TT_Data)
    (he : e ∈ entries t.head.mid) :
    ∃ ks, e.key = some ks ∧ (∀ c ∈ ks, c ≠ 0) ∧ TT_find t ks = some e := by
  have hg0 := hg
  obtain ⟨m, hm, hinv⟩ := hg
  have hmid : t.head.mid = m := by rw [hm]; rfl
  rw [hmid] at he
  obtain ⟨ks, c, rest, a1, a2, _, _, _⟩ := Inv_entries_form t.flags m [] 0 128 hinv e he
  refine ⟨ks, a1, a2, ?_⟩
  rw [GoodTree_find_iff hg0 ks a2 e, hmid]
  exact ⟨he, by simp [entry_key, a1]⟩

/-- C8. Sorted extraction is complete: for a tree built from a fresh one by
insertions of keys of bytes 1..127 (fewer than `2 ^ 60 - 1` of them),
`TT_data` returns a list with one entry for every stored key: a search finds
an entry exactly when the list holds it under that key, no key occurs twice,
and the reported count is the length of the list, the counter `keys` and the
number of distinct inserted keys. -/
theorem C8_data_complete (flags : Tree_Flags) (destructor : Option Tree_Destroy)
    (ops : List (List Int × Nat)) (hk : ∀ op ∈ ops, KeyOK op.1)
    (hlen : 16 * (ops.length + 1) < SIZE_MOD) :
    ∃ es, TT_data (insert_all (TT_create flags destructor) ops) = some (some es, es.length) ∧
      es.length = (insert_all (TT_create flags destructor) ops).keys ∧
      es.length = ((ops.map (fun o => foldk flags o.1)).dedup).length ∧
      (es.map (entry_key flags)).Nodup ∧
      (∀ s : List Int, (∀ c ∈ s, c ≠ 0) → ∀ e : TT_Data,
        (TT_find (insert_all (TT_create flags destructor) ops) s = some e ↔
          (e ∈ es ∧ entry_key flags e = foldk flags s))) := by
  obtain ⟨hg, hfl, hko, hle⟩ := insert_all_good flags destructor ops hk
  obtain ⟨hd, hkeys⟩ := TT_data_good hg hko (by omega)
  have hnd : ((entries (insert_all (TT_create flags destructor) ops).head.mid).map
      (entry_key flags)).Nodup := by
    obtain ⟨m, hm, hinv⟩ := hg
    have hmid : (insert_all (TT_create flags destructor) ops).head.mid = m := by rw [hm]; rfl
    rw [hmid]
    rw [hfl] at hinv
    exact KeySorted_nodup (Inv_entries_sorted flags m [] 0 128 hinv)
  have hiff : ∀ s : List Int, (∀ c ∈ s, c ≠ 0) → ∀ e : TT_Data,
      (TT_find (insert_all (TT_create flags destructor) ops) s = some e ↔
        (e ∈ entries (insert_all (TT_create flags destructor) ops).head.mid ∧
          entry_key flags e = foldk flags s)) := by
    intro s hs e
    have := GoodTree_find_iff hg s hs e
    rw [hfl] at this
    exact this
  refine ⟨_, hd, hkeys.symm, ?_, hnd, hiff⟩
  have hsub1 : (entries (insert_all (TT_create flags destructor) ops).head.mid).map
      (entry_key flags) ⊆ (ops.map (fun o => foldk flags o.1)).dedup := by
    intro x hx
    obtain ⟨e, he, hxe⟩ := List.mem_map.1 hx
    obtain ⟨ks, a1, a2, a3⟩ := GoodTree_entry_key hg e he
    have hfound : (TT_find (insert_all (TT_create flags destructor) ops) ks).isSome = true := by
      rw [a3]; rfl
    obtain ⟨op, ho, hop⟩ := (insert_all_found flags destructor ops hk ks a2).1 hfound
    rw [List.mem_dedup, List.mem_map]
    refine ⟨op, ho, ?_⟩
    rw [hop, ← hxe]
    simp [entry_key, a1]
  have hsub2 : (ops.map (fun o => foldk flags o.1)).dedup ⊆
      (entries (insert_all (TT_create flags destructor) ops).head.mid).map (entry_key flags) := by
    intro x hx
    rw [List.mem_dedup, List.mem_map] at hx
    obtain ⟨op, ho, hxo⟩ := hx
    have hs : ∀ c ∈ op.1, c ≠ 0 := by
      intro c hc
      have := KeyOK_pos (hk op ho) c hc
      omega
    have hfound := (insert_all_found flags destructor ops hk op.1 hs).2 ⟨op, ho, rfl⟩
    obtain ⟨e, he⟩ := Option.isSome_iff_exists.1 hfound
    obtain ⟨h1, h2⟩ := (hiff op.1 hs e).1 he
    have hmem := List.mem_map.2 ⟨e, h1, h2⟩
    rw [hxo] at hmem
    exact hmem
  have hl1 := (List.subperm_of_subset hnd hsub1).length_le
  have hl2 := (List.subperm_of_subset (List.nodup_dedup _) hsub2).length_le
  rw [List.length_map] at hl1 hl2
  exact Nat.le_antisymm hl1 hl2

theorem C8_data_complete_witness :
    TT_data (insert_all (TT_create ⟨true, false, false, false⟩ none)
      [([98, 111], 2), ([98, 111, 98], 1), ([98, 111, 98, 98, 121], 3)]) =
      some (some [⟨some [98, 111], 2⟩, ⟨some [98, 111, 98], 1⟩,
        ⟨some [98, 111, 98, 98, 121], 3⟩], 3) ∧
    ∃ es, TT_data (insert_all (TT_create ⟨true, false, false, false⟩ none)
        [([98, 111], 2), ([98, 111, 98], 1), ([98, 111, 98, 98, 121], 3)]) =
        some (some es, es.length) ∧
      es.length = (insert_all (TT_create ⟨true, false, false, false⟩ none)
        [([98, 111], 2), ([98, 111, 98], 1), ([98, 111, 98, 98, 121], 3)]).keys ∧
      es.length = (([(([98, 111] : List Int), 2), ([98, 111, 98], 1),
        ([98, 111, 98, 98, 121], 3)].map
          (fun o => foldk ⟨true, false, false, false⟩ o.1)).dedup).length ∧
      (es.map (entry_key ⟨true, false, false, false⟩)).Nodup ∧
      (∀ s : List Int, (∀ c ∈ s, c ≠ 0) → ∀ e : TT_Data,
        (TT_find (insert_all (TT_create ⟨true, false, false, false⟩ none)
          [([98, 111], 2), ([98, 111, 98], 1), ([98, 111, 98, 98, 121], 3)]) s = some e ↔
          (e ∈ es ∧ entry_key ⟨true, false, false, false⟩ e =
            foldk ⟨true, false, false, false⟩ s))) :=
  ⟨by decide,
    C8_data_complete ⟨true, false, false, false⟩ none
      [([98, 111], 2), ([98, 111, 98], 1), ([98, 111, 98, 98, 121], 3)] (by decide)
      (by decide)⟩

/-! ## Prefix lookup -/

theorem ext_at_ne {flags : Tree_Flags} {pth : List Int} {c c1 : Int}
    {frest rest1 : List Int} {e : TT_Data} (hk : entry_key flags e = pth ++ c1 :: rest1)
    (hne : c1 ≠ c) : ¬ ext_at flags (pth ++ c :: frest) e := by
  unfold ext_at
  rw [hk, List.prefix_append_right_inj, List.cons_prefix_cons]
  rintro ⟨⟨h, _⟩, _⟩
  exact hne h.symm

theorem ext_at_self {flags : Tree_Flags} {pth : List Int} {sp : Int}
    {frest : List Int} {e : TT_Data} (hk : entry_key flags e = pth ++ [sp]) :
    ¬ ext_at flags (pth ++ sp :: frest) e := by
  unfold ext_at
  rw [hk]
  rintro ⟨_, h⟩
  simp at h

theorem ext_at_mid {flags : Tree_Flags} {pth : List Int} {sp c1 : Int}
    {rest1 : List Int} {e : TT_Data}
    (hk : entry_key flags e = (pth ++ [sp]) ++ c1 :: rest1) :
    ext_at flags (pth ++ [sp]) e := by
  unfold ext_at
  rw [hk]
  exact ⟨List.prefix_append _ _, by simp⟩

theorem filter_ext_none {flags : Tree_Flags} {pth : List Int} {c lo hi : Int}
    {frest : List Int} {es : List TT_Data} (hf : ∀ e ∈ es, KeyForm flags pth lo hi e)
    (hc : ¬ (lo < c ∧ c < hi)) :
    es.filter (fun e => decide (ext_at flags (pth ++ c :: frest) e)) = [] := by
  rw [List.filter_eq_nil_iff]
  intro e he
  obtain ⟨c1, rest1, hk, h1, h2⟩ := KeyForm_entry_key (hf e he)
  simp only [decide_eq_true_eq]
  exact ext_at_ne hk (by intro h; subst h; exact hc ⟨h1, h2⟩)

/-- The navigation of `__TT_lookup` lands on the node below which the strict
extensions of the string are stored, and only they. -/
theorem lookup_entries (flags : Tree_Flags) : ∀ (n : TTNode) (pth : List Int) (lo hi : Int)
    (pfx : List Int), 0 ≤ lo → Inv flags pth lo hi n → pfx ≠ [] → (∀ c ∈ pfx, c ≠ 0) →
      entries (__TT_lookup flags n pfx).mid =
        (entries n).filter (fun e => decide (ext_at flags (pth ++ foldk flags pfx) e)) := by
  intro n
  induction n with
  | null => intro pth lo hi pfx _ _ _ _; simp [__TT_lookup, TTNode.mid, entries]
  | mk sp k d dep l m r ihl ihm ihr =>
    intro pth lo hi pfx hlo hinv hne hz
    cases pfx with
    | nil => exact absurd rfl hne
    | cons ch rest =>
      have hch : ch ≠ 0 := hz ch (List.mem_cons_self _ _)
      have hrest : ∀ c ∈ rest, c ≠ 0 := fun c hc1 => hz c (List.mem_cons_of_mem _ hc1)
      unfold Inv at hinv
      rcases hinv with ⟨h1, h2, h3, h4, h5⟩ | ⟨i1, i2, i3, i4, i5, i6⟩
      · subst h1 h2 h3 h4 h5
        simp [__TT_lookup, TTNode.mid, entries]
      · have hsp : sp ≠ 0 := by omega
        have fl := Inv_entries_form flags l pth lo sp i4
        have fm := Inv_entries_form flags m (pth ++ [sp]) 0 128 i5
        have fr := Inv_entries_form flags r pth sp hi i6
        have fself : ∀ e ∈ (if k.isSome then [(⟨k, d⟩ : TT_Data)] else []),
            entry_key flags e = pth ++ [sp] := by
          intro e he
          cases k with
          | none => simp at he
          | some ks =>
            simp only [Option.isSome_some, if_true, List.mem_singleton] at he
            subst he
            obtain ⟨a1, _⟩ := i3 ks rfl
            simp only [entry_key, Option.getD_some, a1]
        have fm2 : ∀ e ∈ entries m, KeyForm flags pth (sp - 1) (sp + 1) e :=
          fun e he => KeyForm_mid (fm e he)
        have fself2 : ∀ e ∈ (if k.isSome then [(⟨k, d⟩ : TT_Data)] else []),
            KeyForm flags pth (sp - 1) (sp + 1) e := by
          intro e he
          cases k with
          | none => simp at he
          | some ks =>
            simp only [Option.isSome_some, if_true, List.mem_singleton] at he
            subst he
            obtain ⟨a1, a2⟩ := i3 ks rfl
            exact ⟨ks, sp, [], rfl, a2, a1, by omega, by omega⟩
        rw [entries_mk, List.filter_append, List.filter_append, List.filter_append, foldk_cons]
        unfold __TT_lookup
        simp only [List.headD_cons, List.tail_cons, ne_eq, hch, not_false_eq_true, hsp,
          and_self, if_true]
        by_cases c1 : foldc flags ch < sp
        · rw [if_pos c1, ihl pth lo sp (ch :: rest) hlo i4 hne hz, foldk_cons,
            filter_ext_none fself2 (by omega), filter_ext_none fm2 (by omega),
            filter_ext_none fr (by omega)]
          simp
        · rw [if_neg c1]
          by_cases c2 : foldc flags ch > sp
          · rw [if_pos c2, ihr pth sp hi (ch :: rest) (by omega) i6 hne hz, foldk_cons,
              filter_ext_none fself2 (by omega), filter_ext_none fm2 (by omega),
              filter_ext_none fl (by omega)]
            simp
          · rw [if_neg c2]
            have hc : foldc flags ch = sp := by omega
            rw [hc, filter_ext_none fl (by omega), filter_ext_none fr (by omega)]
            have hself : (if k.isSome then [(⟨k, d⟩ : TT_Data)] else []).filter
                (fun e => decide (ext_at flags (pth ++ sp :: foldk flags rest) e)) = [] := by
              rw [List.filter_eq_nil_iff]
              intro e he
              simp only [decide_eq_true_eq]
              exact ext_at_self (fself e he)
            rw [hself]
            by_cases c3 : rest.headD 0 ≠ 0
            · have hrne : rest ≠ [] := (headD_ne_zero_iff rest hrest).1 c3
              rw [if_pos (by simpa using c3),
                ihm (pth ++ [sp]) 0 128 rest (le_refl _) i5 hrne hrest]
              simp
            · have hr : rest = [] := by
                by_contra hn
                exact c3 ((headD_ne_zero_iff rest hrest).2 hn)
              subst hr
              rw [if_neg (by simp)]
              have hmid : (entries m).filter
                  (fun e => decide (ext_at flags (pth ++ sp :: foldk flags []) e)) =
                  entries m := by
                rw [List.filter_eq_self]
                intro e he
                simp only [decide_eq_true_eq]
                obtain ⟨c1, rest1, hk, _, _⟩ := KeyForm_entry_key (fm e he)
                exact ext_at_mid hk
              rw [hmid]
              simp [TTNode.mid]

/-- The function `_TT_lookup` with `max = 0` on a tree in a good state whose
entries, with the terminator, make an array that can be allocated: the entries
that strictly extend the string, in the order of the walk, and their number. -/
theorem _TT_lookup_good {t : TTree} (hg : GoodTree t) (hk : KeysOK t)
    (hlen : 16 * ((entries t.head.mid).length + 1) < SIZE_MOD) (pfx : List Int)
    (hne : pfx ≠ []) (hz : ∀ c ∈ pfx, c ≠ 0) :
    ∃ arr, _TT_lookup t pfx 0 = some (arr, (arr.getD []).length) ∧
      arr.getD [] =
        (entries t.head.mid).filter (fun e => decide (extends_key t.flags pfx e)) := by
  have hkeys : t.keys = (entries t.head.mid).length := by
    unfold KeysOK at hk
    rw [hk]
    exact Nat.mod_eq_of_lt (by omega)
  obtain ⟨m, hm, hinv⟩ := hg
  have hmid : t.head.mid = m := by rw [hm]; rfl
  rw [hmid] at hkeys hlen ⊢
  have hle := lookup_entries t.flags m [] 0 128 pfx (le_refl _) hinv hne hz
  simp only [List.nil_append] at hle
  have hfl : (entries m).filter (fun e => decide (extends_key t.flags pfx e)) =
      entries (__TT_lookup t.flags m pfx).mid := by
    rw [hle]
    rfl
  rw [hfl]
  have hlen2 : (entries (__TT_lookup t.flags m pfx).mid).length ≤ (entries m).length := by
    rw [hle]
    exact List.length_filter_le _ _
  have hh : pfx.headD 0 ≠ 0 := (headD_ne_zero_iff pfx hz).2 hne
  unfold _TT_lookup
  rw [if_neg (by simpa using hh), hm]
  simp only
  by_cases hnull : __TT_lookup t.flags m pfx = TTNode.null ∨
      (__TT_lookup t.flags m pfx).mid = TTNode.null
  · rw [if_pos hnull]
    refine ⟨none, rfl, ?_⟩
    rcases hnull with h | h
    · rw [h]; rfl
    · rw [h]; rfl
  · have hinc : size_inc t.keys = (entries m).length + 1 := by
      rw [hkeys]
      unfold size_inc
      rw [if_neg (by omega)]
    have hcal : Calloc sizeof_TT_Data (size_inc t.keys) = true := by
      rw [hinc]
      simpa [Calloc, sizeof_TT_Data] using hlen
    rw [if_neg hnull]
    simp only [if_true]
    rw [if_pos hcal, _TT_walk_asc_data]
    simp only [collect, Nat.sub_zero, Nat.zero_add, List.nil_append]
    have h1 : min (entries (__TT_lookup t.flags m pfx).mid).length t.keys =
        (entries (__TT_lookup t.flags m pfx).mid).length := by omega
    have h2 : (entries (__TT_lookup t.flags m pfx).mid).take t.keys =
        entries (__TT_lookup t.flags m pfx).mid := List.take_of_length_le (by omega)
    have h3 : (entries (__TT_lookup t.flags m pfx).mid).length < size_inc t.keys := by
      rw [hinc]
      omega
    rw [h1, h2, if_pos h3]
    exact ⟨some _, rfl, rfl⟩

/-- Every state reached from a fresh tree by `TT_insert` and `TT_del_key` is
good, its counter `keys` counts the entries, and the entries are no more than
the calls. -/
theorem run_good_keys (flags : Tree_Flags) (destructor : Option Tree_Destroy)
    (ops : List Op) (hk : ∀ op ∈ ops, OpOK op ∧ NoDelNode op) :
    GoodTree (run (TT_create flags destructor) ops) ∧
    (run (TT_create flags destructor) ops).flags = flags ∧
    KeysOK (run (TT_create flags destructor) ops) ∧
    (entries (run (TT_create flags destructor) ops).head.mid).length ≤ ops.length := by
  induction ops using List.reverseRecOn with
  | nil => exact ⟨GoodTree_create flags destructor, rfl, rfl, le_refl _⟩
  | append_singleton ops op ih =>
    obtain ⟨i1, i2, i3, i4⟩ := ih (fun o ho => hk o (List.mem_append_left _ ho))
    obtain ⟨hop, hnd⟩ := hk op (by simp)
    rw [run_snoc, List.length_append, List.length_singleton]
    cases op with
    | insert key data =>
      obtain ⟨j1, j2⟩ := GoodTree_insert i1 key hop data
      obtain ⟨j3, j4⟩ := KeysOK_insert i1 i3 key hop data
      exact ⟨j1, j2.trans i2, j3, by simp only [apply_op]; omega⟩
    | del_key key =>
      obtain ⟨j1, j2⟩ := GoodTree_del_key i1 key
      obtain ⟨j3, j4⟩ := KeysOK_del_key i3 key
      exact ⟨j1, j2.trans i2, j3, by simp only [apply_op]; omega⟩
    | del_node key => exact absurd hnd (by simp [NoDelNode])

/-- C9. Prefix completeness: in every state reached from a fresh tree by
`TT_insert` (keys of bytes 1..127) and `TT_del_key` (fewer than `2 ^ 60 - 1`
calls), for every non-empty string `p`, `_TT_lookup(tree, p, 0)` returns, in
the ascending order of `TT_data`, exactly the stored pairs whose key strictly
extends `p` (compared after folding when case-insensitive), and the count is
their number; the result is empty with count 0 when there is none. -/
theorem C9_lookup_complete (flags : Tree_Flags) (destructor : Option Tree_Destroy)
    (ops : List Op) (hk : ∀ op ∈ ops, OpOK op ∧ NoDelNode op)
    (hlen : 16 * (ops.length + 1) < SIZE_MOD) (pfx : List Int) (hne : pfx ≠ [])
    (hz : ∀ c ∈ pfx, c ≠ 0) :
    ∃ es arr, TT_data (run (TT_create flags destructor) ops) = some (some es, es.length) ∧
      KeySorted flags es ∧
      _TT_lookup (run (TT_create flags destructor) ops) pfx 0 =
        some (arr, (es.filter (fun e => decide (extends_key flags pfx e))).length) ∧
      arr.getD [] = es.filter (fun e => decide (extends_key flags pfx e)) := by
  obtain ⟨hg, hfl, hko, hle⟩ := run_good_keys flags destructor ops hk
  obtain ⟨hd, _⟩ := TT_data_good hg hko (by omega)
  obtain ⟨arr, ha1, ha2⟩ := _TT_lookup_good hg hko (by omega) pfx hne hz
  rw [hfl] at ha2
  have hsorted : KeySorted flags (entries (run (TT_create flags destructor) ops).head.mid) := by
    obtain ⟨m, hm, hinv⟩ := hg
    have hmid : (run (TT_create flags destructor) ops).head.mid = m := by rw [hm]; rfl
    rw [hmid]
    rw [hfl] at hinv
    exact Inv_entries_sorted flags m [] 0 128 hinv
  refine ⟨_, arr, hd, hsorted, ?_, ha2⟩
  rw [ha1, ha2]

theorem C9_lookup_complete_witness :
    _TT_lookup (run (TT_create ⟨true, true, false, false⟩ none)
      [Op.insert [98, 111] 2, Op.insert [66, 79, 66] 1, Op.insert [98, 111, 98, 98, 121] 3,
        Op.insert [98, 97] 4, Op.del_key [98, 111, 98]]) [66, 111] 0 =
      some (some [⟨some [98, 111, 98, 98, 121], 3⟩], 1) ∧
    ∃ es arr, TT_data (run (TT_create ⟨true, true, false, false⟩ none)
        [Op.insert [98, 111] 2, Op.insert [66, 79, 66] 1, Op.insert [98, 111, 98, 98, 121] 3,
          Op.insert [98, 97] 4, Op.del_key [98, 111, 98]]) = some (some es, es.length) ∧
      KeySorted ⟨true, true, false, false⟩ es ∧
      _TT_lookup (run (TT_create ⟨true, true, false, false⟩ none)
        [Op.insert [98, 111] 2, Op.insert [66, 79, 66] 1, Op.insert [98, 111, 98, 98, 121] 3,
          Op.insert [98, 97] 4, Op.del_key [98, 111, 98]]) [66, 111] 0 =
        some (arr, (es.filter
          (fun e => decide (extends_key ⟨true, true, false, false⟩ [66, 111] e))).length) ∧
      arr.getD [] = es.filter
        (fun e => decide (extends_key ⟨true, true, false, false⟩ [66, 111] e)) :=
  ⟨by decide,
    C9_lookup_complete ⟨true, true, false, false⟩ none
      [Op.insert [98, 111] 2, Op.insert [66, 79, 66] 1, Op.insert [98, 111, 98, 98, 121] 3,
        Op.insert [98, 97] 4, Op.del_key [98, 111, 98]] (by decide) (by decide) [66, 111]
      (by decide) (by decide)⟩

/-- C10, as stated, fails: after inserting ("bo",2), ("bob",1), ("bobby",3)
with replace enabled into an empty tree, "bob" is a stored key with value 1,
and `_TT_lookup` of "bob" returns the single entry ("bobby",3) with count 1,
not [("bob",1), ("bobby",3)]. -/
theorem C10_lookup_bob_counterexample :
    TT_find (insert_all (TT_create ⟨true, false, false, false⟩ none)
      [([98, 111], 2), ([98, 111, 98], 1), ([98, 111, 98, 98, 121], 3)]) [98, 111, 98] =
      some ⟨some [98, 111, 98], 1⟩ ∧
    _TT_lookup (insert_all (TT_create ⟨true, false, false, false⟩ none)
      [([98, 111], 2), ([98, 111, 98], 1), ([98, 111, 98, 98, 121], 3)]) [98, 111, 98] 0 =
      some (some [⟨some [98, 111, 98, 98, 121], 3⟩], 1) ∧
    _TT_lookup (insert_all (TT_create ⟨true, false, false, false⟩ none)
      [([98, 111], 2), ([98, 111, 98], 1), ([98, 111, 98, 98, 121], 3)]) [98, 111, 98] 0 ≠
      some (some [⟨some [98, 111, 98], 1⟩, ⟨some [98, 111, 98, 98, 121], 3⟩], 2) := by
  decide

/-- C10, amended. Prefix lookup leaves out the prefix itself: in every state
reached from a fresh tree by `TT_insert` (keys of bytes 1..127) and
`TT_del_key` (fewer than `2 ^ 60 - 1` calls), for every stored key `p`, the
result of `_TT_lookup(tree, p, 0)` is the list of the stored pairs whose key
strictly extends `p`, in the order of `TT_data`; the entry of `p` itself,
which `TT_data` lists, is not part of it, nor is any entry with the key of
`p`. -/
theorem C10_lookup_stored_key (flags : Tree_Flags) (destructor : Option Tree_Destroy)
    (ops : List Op) (hk : ∀ op ∈ ops, OpOK op ∧ NoDelNode op)
    (hlen : 16 * (ops.length + 1) < SIZE_MOD) (p : List Int) (hz : ∀ c ∈ p, c ≠ 0)
    (e : TT_Data) (hp : TT_find (run (TT_create flags destructor) ops) p = some e) :
    ∃ es arr, TT_data (run (TT_create flags destructor) ops) = some (some es, es.length) ∧
      _TT_lookup (run (TT_create flags destructor) ops) p 0 =
        some (arr, (arr.getD []).length) ∧
      arr.getD [] = es.filter (fun x => decide (extends_key flags p x)) ∧
      e ∈ es ∧ e ∉ arr.getD [] ∧
      ∀ x ∈ arr.getD [], entry_key flags x ≠ foldk flags p := by
  obtain ⟨hg, hfl, hko, hle⟩ := run_good_keys flags destructor ops hk
  obtain ⟨hd, _⟩ := TT_data_good hg hko (by omega)
  have hne : p ≠ [] := by
    intro h
    rw [h, TT_find_eq _ _ (GoodTree_head hg), sfind_nil] at hp
    exact absurd hp (by simp)
  obtain ⟨arr, ha1, ha2⟩ := _TT_lookup_good hg hko (by omega) p hne hz
  rw [hfl] at ha2
  obtain ⟨he1, he2⟩ := (GoodTree_find_iff hg p hz e).1 hp
  rw [hfl] at he2
  have hnot : ∀ x ∈ arr.getD [], entry_key flags x ≠ foldk flags p := by
    intro x hx hcon
    rw [ha2, List.mem_filter] at hx
    have h2 := hx.2
    simp only [decide_eq_true_eq, extends_key, ext_at] at h2
    rw [hcon] at h2
    exact absurd h2.2 (lt_irrefl _)
  exact ⟨_, arr, hd, ha1, ha2, he1, fun hmem => hnot e hmem he2, hnot⟩

theorem C10_lookup_stored_key_witness :
    ∃ es arr, TT_data (run (TT_create ⟨true, false, false, false⟩ none)
        [Op.insert [98, 111] 2, Op.insert [98, 111, 98] 1,
          Op.insert [98, 111, 98, 98, 121] 3]) = some (some es, es.length) ∧
      _TT_lookup (run (TT_create ⟨true, false, false, false⟩ none)
        [Op.insert [98, 111] 2, Op.insert [98, 111, 98] 1,
          Op.insert [98, 111, 98, 98, 121] 3]) [98, 111, 98] 0 =
        some (arr, (arr.getD []).length) ∧
      arr.getD [] = es.filter
        (fun x => decide (extends_key ⟨true, false, false, false⟩ [98, 111, 98] x)) ∧
      (⟨some [98, 111, 98], 1⟩ : TT_Data) ∈ es ∧
      (⟨some [98, 111, 98], 1⟩ : TT_Data) ∉ arr.getD [] ∧
      ∀ x ∈ arr.getD [], entry_key ⟨true, false, false, false⟩ x ≠
        foldk ⟨true, false, false, false⟩ [98, 111, 98] :=
  C10_lookup_stored_key ⟨true, false, false, false⟩ none
    [Op.insert [98, 111] 2, Op.insert [98, 111, 98] 1, Op.insert [98, 111, 98, 98, 121] 3]
    (by decide) (by decide) [98, 111, 98] (by decide) ⟨some [98, 111, 98], 1⟩ (by decide)

/-! ## Deletion of a stored key -/

theorem _TT_search_some_headD {n : TTNode} {s : List Int} {flags : Tree_Flags}
    {q : List Link} (h : _TT_search n s flags = some q) : s.headD 0 ≠ 0 := by
  intro hc
  rw [_TT_search_headD_zero _ _ _ hc] at h
  exact absurd h (by simp)

theorem deref_ne_null_of_key {n : TTNode} {q : List Link}
    (h : ((n.deref q).key).isSome = true) : n.deref q ≠ TTNode.null := by
  intro hc
  rw [hc] at h
  simp [TTNode.key] at h

/-- The function `TT_del_node` on a key that the search finds. -/
theorem TT_del_node_found (tree : TTree) (key : List Int) (q : List Link)
    (hh : tree.head ≠ TTNode.null)
    (hq : _TT_search tree.head.mid key tree.flags = some q) :
    (TT_del_node tree key).2 = 1 ∧
      (TT_del_node tree key).1.flags = tree.flags ∧
      (TT_del_node tree key).1.destructor = tree.destructor ∧
      (TT_del_node tree key).1.head =
        tree.head.setMid (tree.head.mid.store q zero_node) ∧
      (TT_del_node tree key).1.keys =
        (_TT_destroy_walk (tree.head.mid.deref q) tree).keys ∧
      (TT_del_node tree key).1.nodes =
        (_TT_destroy_walk (tree.head.mid.deref q) tree).nodes ∧
      (TT_del_node tree key).1.destroyed =
        (_TT_destroy_walk (tree.head.mid.deref q) tree).destroyed := by
  have hg : ¬ (tree.head = TTNode.null ∨ key.headD 0 = 0) := by
    rintro (h | h)
    · exact hh h
    · exact _TT_search_some_headD hq h
  cases hd : tree.head.mid.deref q with
  | null => exact absurd hd (deref_ne_null_of_key (_TT_search_key _ _ _ _ hq))
  | mk sp k d dep l m r =>
    obtain ⟨c1, c2, _, _⟩ := _TT_destroy_walk_fields (TTNode.mk sp k d dep l m r) tree
    simp only [TT_del_node, hg, if_false, hq, hd, _TT_destroy, zero_node,
      Bool.false_eq_true, c1, c2, and_self]

/-- The function `TT_del_key` on a key that the search finds. -/
theorem TT_del_key_found (tree : TTree) (key : List Int) (q : List Link)
    (hh : tree.head ≠ TTNode.null)
    (hq : _TT_search tree.head.mid key tree.flags = some q) :
    (TT_del_key tree key).2 = 1 ∧
      (TT_del_key tree key).1.flags = tree.flags ∧
      (TT_del_key tree key).1.destructor = tree.destructor ∧
      (TT_del_key tree key).1.head =
        tree.head.setMid (tree.head.mid.store q (clear_key (tree.head.mid.deref q))) ∧
      (TT_del_key tree key).1.keys = size_dec tree.keys ∧
      (TT_del_key tree key).1.nodes = tree.nodes ∧
      (TT_del_key tree key).1.destroyed =
        (call_destructor tree (tree.head.mid.deref q).data).destroyed := by
  have hg : ¬ (tree.head = TTNode.null ∨ key.headD 0 = 0) := by
    rintro (h | h)
    · exact hh h
    · exact _TT_search_some_headD hq h
  cases hd : tree.head.mid.deref q with
  | null => exact absurd hd (deref_ne_null_of_key (_TT_search_key _ _ _ _ hq))
  | mk sp k d dep l m r =>
    obtain ⟨c1, c2, c3, c4, _, _⟩ := call_destructor_fields tree d
    simp only [TT_del_key, hg, if_false, hq, hd, clear_key, TTNode.data, c1, c2, c3, c4,
      and_self]

theorem _TT_search_zero_node (s : List Int) (flags : Tree_Flags) :
    _TT_search zero_node s flags = none := by
  cases s with
  | nil => exact _TT_search_nil _ _
  | cons ch rest =>
    by_cases hch : ch = 0
    · exact _TT_search_headD_zero _ _ _ (by simpa using hch)
    · unfold zero_node
      rw [_TT_search_mk _ _ _ _ _ _ _ _ _ _ hch]
      simp

/-- After the node of a key has been zero-filled, no string that the key is a
prefix of (as the tree compares them) is found. -/
theorem _TT_search_store_zero (flags : Tree_Flags) : ∀ (n : TTNode) (k : List Int)
    (q : List Link) (s : List Int), _TT_search n k flags = some q →
      (∀ c ∈ k, c ≠ 0) → (∀ c ∈ s, c ≠ 0) → foldk flags k <+: foldk flags s →
      _TT_search (n.store q zero_node) s flags = none := by
  intro n
  induction n with
  | null =>
    intro k q s hq
    rw [_TT_search_null] at hq
    exact absurd hq (by simp)
  | mk sp key d dep l m r ihl ihm ihr =>
    intro k q s hq hk hs hpre
    cases k with
    | nil => rw [_TT_search_nil] at hq; exact absurd hq (by simp)
    | cons ch rest =>
      have hch : ch ≠ 0 := hk ch (List.mem_cons_self _ _)
      have hrest : ∀ c ∈ rest, c ≠ 0 := fun c hc1 => hk c (List.mem_cons_of_mem _ hc1)
      cases s with
      | nil => simp [foldk] at hpre
      | cons ch1 rest1 =>
        have hch1 : ch1 ≠ 0 := hs ch1 (List.mem_cons_self _ _)
        have hrest1 : ∀ c ∈ rest1, c ≠ 0 := fun c hc1 => hs c (List.mem_cons_of_mem _ hc1)
        rw [foldk_cons, foldk_cons, List.cons_prefix_cons] at hpre
        obtain ⟨hc, hpre1⟩ := hpre
        rw [_TT_search_mk _ _ _ _ _ _ _ _ _ _ hch] at hq
        by_cases hnz : sp = 0 ∧ key = none
        · rw [if_pos hnz] at hq; exact absurd hq (by simp)
        · rw [if_neg hnz] at hq
          by_cases h1 : foldc flags ch < sp
          · rw [if_pos h1] at hq
            obtain ⟨q1, hq1, hqq⟩ := Option.map_eq_some'.1 hq
            subst hqq
            simp only [TTNode.store]
            rw [_TT_search_mk _ _ _ _ _ _ _ _ _ _ hch1, if_neg hnz, ← hc, if_pos h1,
              ihl (ch :: rest) q1 (ch1 :: rest1) hq1 hk hs
                (by rw [foldk_cons, foldk_cons, List.cons_prefix_cons]; exact ⟨hc, hpre1⟩)]
            rfl
          · rw [if_neg h1] at hq
            by_cases h2 : foldc flags ch > sp
            · rw [if_pos h2] at hq
              obtain ⟨q1, hq1, hqq⟩ := Option.map_eq_some'.1 hq
              subst hqq
              simp only [TTNode.store]
              rw [_TT_search_mk _ _ _ _ _ _ _ _ _ _ hch1, if_neg hnz, ← hc, if_neg h1,
                if_pos h2,
                ihr (ch :: rest) q1 (ch1 :: rest1) hq1 hk hs
                  (by rw [foldk_cons, foldk_cons, List.cons_prefix_cons]; exact ⟨hc, hpre1⟩)]
              rfl
            · rw [if_neg h2] at hq
              by_cases h3 : rest.headD 0 ≠ 0
              · rw [if_pos h3] at hq
                obtain ⟨q1, hq1, hqq⟩ := Option.map_eq_some'.1 hq
                subst hqq
                have hrne : rest ≠ [] := (headD_ne_zero_iff rest hrest).1 h3
                have hr1 : rest1.headD 0 ≠ 0 := by
                  rw [headD_ne_zero_iff rest1 hrest1]
                  intro hn
                  rw [hn] at hpre1
                  have : foldk flags rest = [] := by simpa [foldk] using hpre1
                  exact hrne ((foldk_eq_nil flags rest).1 this)
                simp only [TTNode.store]
                rw [_TT_search_mk _ _ _ _ _ _ _ _ _ _ hch1, if_neg hnz, ← hc, if_neg h1,
                  if_neg h2, if_pos hr1, ihm rest q1 rest1 hq1 hrest hrest1 hpre1]
                rfl
              · rw [if_neg h3] at hq
                split at hq
                · simp only [Option.some.injEq] at hq
                  subst hq
                  simp only [TTNode.store]
                  exact _TT_search_zero_node _ _
                · exact absurd hq (by simp)

/-- C16. `TT_del_node` cascades: in every tree, for every stored key `k`,
`TT_del_node(tree, k)` returns 1 and afterwards `TT_search` reports not-found
for `k` and for every string that has `k` as a prefix (also when the prefix
holds only after folding, under the case-insensitive flag). -/
theorem C16_del_node_cascades (tree : TTree) (k : List Int) (hk : ∀ c ∈ k, c ≠ 0)
    (p : List Link) (hp : TT_search tree k = some p) :
    (TT_del_node tree k).2 = 1 ∧
    TT_search (TT_del_node tree k).1 k = none ∧
    (∀ s : List Int, (∀ c ∈ s, c ≠ 0) → k <+: s →
      TT_search (TT_del_node tree k).1 s = none) ∧
    (∀ s : List Int, (∀ c ∈ s, c ≠ 0) → foldk tree.flags k <+: foldk tree.flags s →
      TT_search (TT_del_node tree k).1 s = none) := by
  obtain ⟨hh, q, _, hq, _⟩ := TT_search_inv tree k p hp
  obtain ⟨h1, h2, _, h4, _⟩ := TT_del_node_found tree k q hh hq
  have hfold : ∀ s : List Int, (∀ c ∈ s, c ≠ 0) → foldk tree.flags k <+: foldk tree.flags s →
      TT_search (TT_del_node tree k).1 s = none := by
    intro s hs hpre
    unfold TT_search
    split
    · rfl
    · rw [h2, h4, setMid_mid _ _ hh, _TT_search_store_zero tree.flags _ k q s hq hk hs hpre]
      rfl
  refine ⟨h1, hfold k hk (List.prefix_refl _), ?_, hfold⟩
  intro s hs hpre
  exact hfold s hs (List.IsPrefix.map _ hpre)

theorem C16_del_node_cascades_witness :
    TT_search (insert_all (TT_create ⟨true, false, false, false⟩ none)
      [([99, 97, 114], 1), ([99, 97, 114, 115], 2)]) [99, 97, 114] =
      some [Link.mid, Link.mid, Link.mid] ∧
    ((TT_del_node (insert_all (TT_create ⟨true, false, false, false⟩ none)
      [([99, 97, 114], 1), ([99, 97, 114, 115], 2)]) [99, 97, 114]).2 = 1 ∧
    TT_search (TT_del_node (insert_all (TT_create ⟨true, false, false, false⟩ none)
      [([99, 97, 114], 1), ([99, 97, 114, 115], 2)]) [99, 97, 114]).1 [99, 97, 114] = none ∧
    (∀ s : List Int, (∀ c ∈ s, c ≠ 0) → [99, 97, 114] <+: s →
      TT_search (TT_del_node (insert_all (TT_create ⟨true, false, false, false⟩ none)
        [([99, 97, 114], 1), ([99, 97, 114, 115], 2)]) [99, 97, 114]).1 s = none) ∧
    (∀ s : List Int, (∀ c ∈ s, c ≠ 0) →
      foldk (insert_all (TT_create ⟨true, false, false, false⟩ none)
        [([99, 97, 114], 1), ([99, 97, 114, 115], 2)]).flags [99, 97, 114] <+:
        foldk (insert_all (TT_create ⟨true, false, false, false⟩ none)
          [([99, 97, 114], 1), ([99, 97, 114, 115], 2)]).flags s →
      TT_search (TT_del_node (insert_all (TT_create ⟨true, false, false, false⟩ none)
        [([99, 97, 114], 1), ([99, 97, 114, 115], 2)]) [99, 97, 114]).1 s = none)) :=
  ⟨by decide,
    C16_del_node_cascades (insert_all (TT_create ⟨true, false, false, false⟩ none)
      [([99, 97, 114], 1), ([99, 97, 114, 115], 2)]) [99, 97, 114] (by decide)
      [Link.mid, Link.mid, Link.mid] (by decide)⟩

/-! ## Empty keys and the empty tree -/

/-- C20. Empty inputs are no-ops: for every tree, `TT_insert`, `TT_search`,
`TT_del_node`, `TT_del_key` and `_TT_lookup` called with an empty key (a
string whose first byte is the terminator) return `NULL` / `NULL` / 0 / 0 /
`NULL` with count 0 and leave the tree as it is; and on a freshly created tree
`TT_search`, `TT_del_node`, `TT_del_key` and `_TT_lookup` with any key return
`NULL` / 0 / 0 / `NULL` with count 0 without changing the tree, and `TT_data`
returns an empty list with count 0. -/
theorem C20_empty_inputs (tree : TTree) (ek : List Int) (hek : ek.headD 0 = 0)
    (flags : Tree_Flags) (destructor : Option Tree_Destroy) (key : List Int)
    (data max : Nat) :
    TT_insert tree ek data = (tree, none) ∧
    TT_search tree ek = none ∧
    TT_del_node tree ek = (tree, 0) ∧
    TT_del_key tree ek = (tree, 0) ∧
    _TT_lookup tree ek max = some (none, 0) ∧
    TT_search (TT_create flags destructor) key = none ∧
    TT_del_node (TT_create flags destructor) key = (TT_create flags destructor, 0) ∧
    TT_del_key (TT_create flags destructor) key = (TT_create flags destructor, 0) ∧
    _TT_lookup (TT_create flags destructor) key max = some (none, 0) ∧
    TT_data (TT_create flags destructor) = some (some [], 0) := by
  have hmid : (TT_create flags destructor).head.mid = TTNode.null := rfl
  refine ⟨?_, ?_, ?_, ?_, ?_, ?_, ?_, ?_, ?_, ?_⟩
  · simp only [TT_insert, hek, or_true, if_true]
  · simp only [TT_search, hek, or_true, if_true]
  · simp only [TT_del_node, hek, or_true, if_true]
  · simp only [TT_del_key, hek, or_true, if_true]
  · simp only [_TT_lookup, hek, if_true]
  · unfold TT_search
    rw [hmid, _TT_search_null]
    split <;> rfl
  · unfold TT_del_node
    rw [hmid, _TT_search_null]
    split <;> rfl
  · unfold TT_del_key
    rw [hmid, _TT_search_null]
    split <;> rfl
  · unfold _TT_lookup
    split
    · rfl
    · simp [TT_create, _TT_create_node, __TT_lookup]
  · simp [TT_data, TT_walk_asc, TT_create, _TT_create_node, _TT_walk_asc, _TT_data,
      TTNode.key, TTNode.mid, TTNode.left, TTNode.right, Calloc, sizeof_TT_Data, size_inc,
      SIZE_MOD]

theorem C20_empty_inputs_witness :
    ([] : List Int).headD 0 = 0 ∧
    (TT_insert (insert_all (TT_create ⟨true, false, false, false⟩ none) [([97], 1)]) [] 5 =
        (insert_all (TT_create ⟨true, false, false, false⟩ none) [([97], 1)], none) ∧
    TT_search (insert_all (TT_create ⟨true, false, false, false⟩ none) [([97], 1)]) [] = none ∧
    TT_del_node (insert_all (TT_create ⟨true, false, false, false⟩ none) [([97], 1)]) [] =
        (insert_all (TT_create ⟨true, false, false, false⟩ none) [([97], 1)], 0) ∧
    TT_del_key (insert_all (TT_create ⟨true, false, false, false⟩ none) [([97], 1)]) [] =
        (insert_all (TT_create ⟨true, false, false, false⟩ none) [([97], 1)], 0) ∧
    _TT_lookup (insert_all (TT_create ⟨true, false, false, false⟩ none) [([97], 1)]) [] 3 =
        some (none, 0) ∧
    TT_search (TT_create ⟨true, false, false, false⟩ none) [97] = none ∧
    TT_del_node (TT_create ⟨true, false, false, false⟩ none) [97] =
        (TT_create ⟨true, false, false, false⟩ none, 0) ∧
    TT_del_key (TT_create ⟨true, false, false, false⟩ none) [97] =
        (TT_create ⟨true, false, false, false⟩ none, 0) ∧
    _TT_lookup (TT_create ⟨true, false, false, false⟩ none) [97] 3 = some (none, 0) ∧
    TT_data (TT_create ⟨true, false, false, false⟩ none) = some (some [], 0)) :=
  ⟨by decide,
    C20_empty_inputs (insert_all (TT_create ⟨true, false, false, false⟩ none) [([97], 1)]) []
      (by decide) ⟨true, false, false, false⟩ none [97] 5 3⟩

/-! ## The deletion scenario "cat", "car", "cats" -/

/-- C17, as stated, fails: in a fresh tree, after inserting "cat", "car",
"cats" in that order, `TT_del_node(tree, "car")` returns 1 and afterwards
`TT_search` still finds "cats" (the claim says it is not found). -/
theorem C17_cats_still_found :
    (TT_del_node (insert_all (TT_create ⟨true, false, false, false⟩ none)
      [([99, 97, 116], 1), ([99, 97, 114], 2), ([99, 97, 116, 115], 3)]) [99, 97, 114]).2 = 1 ∧
    TT_search (TT_del_node (insert_all (TT_create ⟨true, false, false, false⟩ none)
      [([99, 97, 116], 1), ([99, 97, 114], 2), ([99, 97, 116, 115], 3)]) [99, 97, 114]).1
      [99, 97, 116, 115] ≠ none := by
  decide

/-- The tree built by inserting "cat", "car", "cats" into a fresh tree. -/
theorem cat_car_cats_head (flags : Tree_Flags) (destructor : Option Tree_Destroy)
    (v1 v2 v3 : Nat) :
    ∃ d1 d2 d3, (insert_all (TT_create flags destructor)
      [([99, 97, 116], v1), ([99, 97, 114], v2), ([99, 97, 116, 115], v3)]).head =
      TTNode.mk 0 none 0 0 TTNode.null
        (TTNode.mk 99 none 0 1 TTNode.null
          (TTNode.mk 97 none 0 2 TTNode.null
            (TTNode.mk 116 (some [99, 97, 116]) d1 3
              (TTNode.mk 114 (some [99, 97, 114]) d2 4 TTNode.null TTNode.null TTNode.null)
              (TTNode.mk 115 (some [99, 97, 116, 115]) d3 4 TTNode.null TTNode.null TTNode.null)
              TTNode.null)
            TTNode.null)
          TTNode.null)
        TTNode.null ∧
      (insert_all (TT_create flags destructor)
        [([99, 97, 116], v1), ([99, 97, 114], v2), ([99, 97, 116, 115], v3)]).flags = flags := by
  obtain ⟨f1, f2, f3, f4⟩ := flags
  cases f1 <;> cases f2 <;> cases f3 <;>
    simp [insert_all, TT_insert, TT_create, _TT_create_node, insert_fuel, TTNode.height,
      TTNode.mid, _TT_insert, foldc, tolower, size_inc, SIZE_MOD, TTNode.setMid, Strdup,
      call_destructor]

/-- C17, amended. In a fresh tree (whatever its flags and destructor), after
inserting "cat", "car", "cats" in that order, `TT_del_node(tree, "car")`
returns 1 and afterwards `TT_search` reports "car" as not found while "cat"
and "cats" are still found, at the nodes where they were found before. -/
theorem C17_del_node_scenario (flags : Tree_Flags) (destructor : Option Tree_Destroy)
    (v1 v2 v3 : Nat) :
    (TT_del_node (insert_all (TT_create flags destructor)
      [([99, 97, 116], v1), ([99, 97, 114], v2), ([99, 97, 116, 115], v3)]) [99, 97, 114]).2 = 1 ∧
    TT_search (TT_del_node (insert_all (TT_create flags destructor)
      [([99, 97, 116], v1), ([99, 97, 114], v2), ([99, 97, 116, 115], v3)]) [99, 97, 114]).1
      [99, 97, 114] = none ∧
    TT_search (TT_del_node (insert_all (TT_create flags destructor)
      [([99, 97, 116], v1), ([99, 97, 114], v2), ([99, 97, 116, 115], v3)]) [99, 97, 114]).1
      [99, 97, 116] = some [Link.mid, Link.mid, Link.mid] ∧
    TT_search (insert_all (TT_create flags destructor)
      [([99, 97, 116], v1), ([99, 97, 114], v2), ([99, 97, 116, 115], v3)])
      [99, 97, 116] = some [Link.mid, Link.mid, Link.mid] ∧
    TT_search (TT_del_node (insert_all (TT_create flags destructor)
      [([99, 97, 116], v1), ([99, 97, 114], v2), ([99, 97, 116, 115], v3)]) [99, 97, 114]).1
      [99, 97, 116, 115] = some [Link.mid, Link.mid, Link.mid, Link.mid] ∧
    TT_search (insert_all (TT_create flags destructor)
      [([99, 97, 116], v1), ([99, 97, 114], v2), ([99, 97, 116, 115], v3)])
      [99, 97, 116, 115] = some [Link.mid, Link.mid, Link.mid, Link.mid] := by
  obtain ⟨d1, d2, d3, hhd, hfl⟩ := cat_car_cats_head flags destructor v1 v2 v3
  have hh : (insert_all (TT_create flags destructor)
      [([99, 97, 116], v1), ([99, 97, 114], v2), ([99, 97, 116, 115], v3)]).head ≠
      TTNode.null := by
    rw [hhd]
    simp
  have hq : _TT_search (insert_all (TT_create flags destructor)
      [([99, 97, 116], v1), ([99, 97, 114], v2), ([99, 97, 116, 115], v3)]).head.mid
      [99, 97, 114] (insert_all (TT_create flags destructor)
      [([99, 97, 116], v1), ([99, 97, 114], v2), ([99, 97, 116, 115], v3)]).flags =
      some [Link.mid, Link.mid, Link.left] := by
    rw [hhd, hfl]
    obtain ⟨f1, f2, f3, f4⟩ := flags
    cases f2 <;>
      simp [_TT_search, _TT_search_loop, foldc, tolower, TTNode.mid, TTNode.deref, TTNode.key,
        TTNode.left]
  obtain ⟨h1, h2, _, h4, _⟩ := TT_del_node_found _ _ _ hh hq
  refine ⟨h1, ?_, ?_, ?_, ?_, ?_⟩
  · simp only [TT_search, h2, h4, hhd, hfl]
    obtain ⟨f1, f2, f3, f4⟩ := flags
    cases f2 <;>
      simp [_TT_search, _TT_search_loop, foldc, tolower, TTNode.mid, TTNode.deref, TTNode.key,
        TTNode.left, TTNode.store, TTNode.setMid, zero_node]
  · simp only [TT_search, h2, h4, hhd, hfl]
    obtain ⟨f1, f2, f3, f4⟩ := flags
    cases f2 <;>
      simp [_TT_search, _TT_search_loop, foldc, tolower, TTNode.mid, TTNode.deref, TTNode.key,
        TTNode.left, TTNode.store, TTNode.setMid, zero_node]
  · simp only [TT_search, hhd, hfl]
    obtain ⟨f1, f2, f3, f4⟩ := flags
    cases f2 <;>
      simp [_TT_search, _TT_search_loop, foldc, tolower, TTNode.mid, TTNode.deref, TTNode.key,
        TTNode.left]
  · simp only [TT_search, h2, h4, hhd, hfl]
    obtain ⟨f1, f2, f3, f4⟩ := flags
    cases f2 <;>
      simp [_TT_search, _TT_search_loop, foldc, tolower, TTNode.mid, TTNode.deref, TTNode.key,
        TTNode.left, TTNode.store, TTNode.setMid, zero_node]
  · simp only [TT_search, hhd, hfl]
    obtain ⟨f1, f2, f3, f4⟩ := flags
    cases f2 <;>
      simp [_TT_search, _TT_search_loop, foldc, tolower, TTNode.mid, TTNode.deref, TTNode.key,
        TTNode.left]

/-! ## The key counter after `TT_del_node`, and the tree of `TT_lookup_tree` -/

/-- C11 fails on the code. After inserting "x", "xa", "xb", "q", "qrst" (replace
enabled) and `TT_del_node(tree, "q")`, the counter `keys` is 1 although three
keys are stored: `_TT_destroy` decrements it once for each of the four nodes
it visits, two of which hold a key. `_TT_lookup(tree, "x", 0)` then caps the
result at `keys` = 1 and returns only "xa" with count 1, dropping the stored
key "xb", which `TT_search` still finds. -/
theorem C11_lookup_drops_after_del_node :
    (run (TT_create ⟨true, false, false, false⟩ none)
      [Op.insert [120] 1, Op.insert [120, 97] 2, Op.insert [120, 98] 3, Op.insert [113] 4,
        Op.insert [113, 114, 115, 116] 5, Op.del_node [113]]).keys = 1 ∧
    TT_find (run (TT_create ⟨true, false, false, false⟩ none)
      [Op.insert [120] 1, Op.insert [120, 97] 2, Op.insert [120, 98] 3, Op.insert [113] 4,
        Op.insert [113, 114, 115, 116] 5, Op.del_node [113]]) [120, 97] =
      some ⟨some [120, 97], 2⟩ ∧
    TT_find (run (TT_create ⟨true, false, false, false⟩ none)
      [Op.insert [120] 1, Op.insert [120, 97] 2, Op.insert [120, 98] 3, Op.insert [113] 4,
        Op.insert [113, 114, 115, 116] 5, Op.del_node [113]]) [120, 98] =
      some ⟨some [120, 98], 3⟩ ∧
    _TT_lookup (run (TT_create ⟨true, false, false, false⟩ none)
      [Op.insert [120] 1, Op.insert [120, 97] 2, Op.insert [120, 98] 3, Op.insert [113] 4,
        Op.insert [113, 114, 115, 116] 5, Op.del_node [113]]) [120] 0 =
      some (some [⟨some [120, 97], 2⟩], 1) := by
  decide

/-- C13 fails on the code. When the source tree has the auto-free flag
`T_FREE_DEFAULT`, the tree returned by `TT_lookup_tree` has the destructor
`T_Free`: `TT_lookup_tree` calls `TT_create( tree->flags, NULL )`, and
`TT_create` replaces a `NULL` destructor by `T_Free` under that flag. -/
theorem C13_lookup_tree_destructor :
    (TT_lookup_tree (insert_all (TT_create ⟨true, false, false, true⟩ none)
      [([97, 98], 1)]) [97]).map (fun rc => rc.destructor) =
      some (some Tree_Destroy.T_Free) ∧
    (TT_lookup_tree (insert_all (TT_create ⟨true, false, false, true⟩ none)
      [([97, 98], 1)]) [97]).map (fun rc => TT_data rc) =
      some (some (some [⟨some [97, 98], 1⟩], 1)) := by
  decide

/-! ## The entries after a deletion -/

/-- Overwriting the node that a pointer designates replaces, in the listing of
the entries, the entries below that node by those below the new node. -/
theorem entries_store (q : List Link) : ∀ (n : TTNode), n.deref q ≠ TTNode.null →
    ∃ pre post, entries n = pre ++ entries (n.deref q) ++ post ∧
      ∀ x, entries (n.store q x) = pre ++ entries x ++ post := by
  induction q with
  | nil =>
    intro n _
    exact ⟨[], [], by simp [TTNode.deref], fun x => by simp [TTNode.store]⟩
  | cons lk q ih =>
    intro n hn
    cases n with
    | null => simp [TTNode.deref] at hn
    | mk sp k d dep l m r =>
      cases lk with
      | left =>
        simp only [TTNode.deref] at hn ⊢
        obtain ⟨pre, post, h1, h2⟩ := ih l hn
        refine ⟨pre, post ++ (if k.isSome then [⟨k, d⟩] else []) ++ entries m ++ entries r,
          ?_, ?_⟩
        · rw [entries_mk, h1]
          simp only [List.append_assoc]
        · intro x
          simp only [TTNode.store]
          rw [entries_mk, h2 x]
          simp only [List.append_assoc]
      | mid =>
        simp only [TTNode.deref] at hn ⊢
        obtain ⟨pre, post, h1, h2⟩ := ih m hn
        refine ⟨entries l ++ (if k.isSome then [⟨k, d⟩] else []) ++ pre, post ++ entries r,
          ?_, ?_⟩
        · rw [entries_mk, h1]
          simp only [List.append_assoc]
        · intro x
          simp only [TTNode.store]
          rw [entries_mk, h2 x]
          simp only [List.append_assoc]
      | right =>
        simp only [TTNode.deref] at hn ⊢
        obtain ⟨pre, post, h1, h2⟩ := ih r hn
        refine ⟨entries l ++ (if k.isSome then [⟨k, d⟩] else []) ++ entries m ++ pre, post,
          ?_, ?_⟩
        · rw [entries_mk, h1]
          simp only [List.append_assoc]
        · intro x
          simp only [TTNode.store]
          rw [entries_mk, h2 x]
          simp only [List.append_assoc]

/-- Clearing the key of the node that a search returns removes the entry found
from the listing and keeps the others where they are. -/
theorem del_key_entries (flags : Tree_Flags) (n : TTNode) (k : List Int) (q : List Link)
    (hq : _TT_search n k flags = some q) :
    ∃ A B e, sfind flags n k = some e ∧ entries n = A ++ e :: B ∧
      entries (n.store q (clear_key (n.deref q))) = A ++ B := by
  have hkey := _TT_search_key _ _ _ _ hq
  have hne := deref_ne_null_of_key hkey
  obtain ⟨pre, post, h1, h2⟩ := entries_store q n hne
  cases hd : n.deref q with
  | null => exact absurd hd hne
  | mk sp kk d dep l m r =>
    rw [hd] at hkey h1
    cases kk with
    | none => simp [TTNode.key] at hkey
    | some ks =>
      refine ⟨pre ++ entries l, entries m ++ entries r ++ post, ⟨some ks, d⟩, ?_, ?_, ?_⟩
      · simp only [sfind, hq, Option.map_some', hd, TTNode.key, TTNode.data]
      · rw [h1, entries_mk]
        simp
      · rw [h2, clear_key, entries_mk]
        simp

/-- Zero-filling the node that a search returns removes from the listing the
entries below that node and keeps the others where they are. -/
theorem del_node_entries (flags : Tree_Flags) (n : TTNode) (k : List Int) (q : List Link)
    (hq : _TT_search n k flags = some q) :
    ∃ A B, entries n = A ++ entries (n.deref q) ++ B ∧
      entries (n.store q zero_node) = A ++ B := by
  have hne := deref_ne_null_of_key (_TT_search_key _ _ _ _ hq)
  obtain ⟨pre, post, h1, h2⟩ := entries_store q n hne
  refine ⟨pre, post, h1, ?_⟩
  rw [h2]
  simp [zero_node, entries]

theorem KeySorted_middle {flags : Tree_Flags} {A B : List TT_Data} {e : TT_Data}
    (h : KeySorted flags (A ++ e :: B)) :
    ∀ x ∈ A ++ B, entry_key flags x ≠ entry_key flags e := by
  have hn := KeySorted_nodup h
  rw [List.map_append, List.map_cons, List.nodup_middle, List.nodup_cons] at hn
  intro x hx hc
  apply hn.1
  rw [← hc, ← List.map_append]
  exact List.mem_map_of_mem _ hx

theorem GoodTree_sorted {t : TTree} (hg : GoodTree t) :
    KeySorted t.flags (entries t.head.mid) := by
  obtain ⟨m, hm, hinv⟩ := hg
  have hmid : t.head.mid = m := by rw [hm]; rfl
  rw [hmid]
  exact Inv_entries_sorted t.flags m [] 0 128 hinv

/-- The function `TT_del_key` on a stored key of a tree in a good state whose
counter `keys` counts the entries. -/
theorem TT_del_key_good {t : TTree} (hg : GoodTree t) (hko : KeysOK t)
    (hlen : 16 * ((entries t.head.mid).length + 1) < SIZE_MOD) (k : List Int)
    (hz : ∀ c ∈ k, c ≠ 0) (e : TT_Data) (hfind : TT_find t k = some e) :
    (TT_del_key t k).2 = 1 ∧
    (∃ A B, TT_data t = some (some (A ++ e :: B), (A ++ e :: B).length) ∧
      TT_data (TT_del_key t k).1 = some (some (A ++ B), (A ++ B).length)) ∧
    (∀ s : List Int, (∀ c ∈ s, c ≠ 0) → foldk t.flags s ≠ foldk t.flags k →
      TT_find (TT_del_key t k).1 s = TT_find t s) ∧
    TT_find (TT_del_key t k).1 k = none ∧
    (TT_del_key t k).1.keys + 1 = t.keys ∧
    (TT_del_key t k).1.nodes = t.nodes := by
  have hh := GoodTree_head hg
  have hfind0 := hfind
  rw [TT_find_eq _ _ hh] at hfind
  obtain ⟨q, hq, _⟩ := Option.map_eq_some'.1 hfind
  obtain ⟨h1, h2, _, h4, h5, h6, _⟩ := TT_del_key_found t k q hh hq
  obtain ⟨A, B, e1, he1, hA, hB⟩ := del_key_entries t.flags t.head.mid k q hq
  rw [hfind] at he1
  obtain rfl : e = e1 := by simpa using he1
  obtain ⟨hg1, _⟩ := GoodTree_del_key hg k
  obtain ⟨hko1, hle1⟩ := KeysOK_del_key hko k
  have hmid1 : (TT_del_key t k).1.head.mid =
      t.head.mid.store q (clear_key (t.head.mid.deref q)) := by
    rw [h4, setMid_mid _ _ hh]
  obtain ⟨hd, hkeys⟩ := TT_data_good hg hko hlen
  obtain ⟨hd1, hkeys1⟩ := TT_data_good hg1 hko1 (by omega)
  rw [hmid1, hB] at hd1
  rw [hA] at hd hkeys
  have hsorted := GoodTree_sorted hg
  rw [hA] at hsorted
  have hek : entry_key t.flags e = foldk t.flags k := ((GoodTree_find_iff hg k hz e).1 hfind0).2
  have hmem : ∀ (s : List Int) (x : TT_Data), (∀ c ∈ s, c ≠ 0) →
      (TT_find (TT_del_key t k).1 s = some x ↔
        (x ∈ A ++ B ∧ entry_key t.flags x = foldk t.flags s)) := by
    intro s x hs
    rw [GoodTree_find_iff hg1 s hs x, hmid1, hB, h2]
  refine ⟨h1, ⟨A, B, hd, hd1⟩, ?_, ?_, ?_, h6⟩
  · intro s hs hne
    apply Option.ext
    intro x
    rw [Option.mem_def, Option.mem_def, hmem s x hs, GoodTree_find_iff hg s hs x, hA]
    constructor
    · rintro ⟨hx, hxk⟩
      refine ⟨?_, hxk⟩
      rcases List.mem_append.1 hx with hx | hx
      · exact List.mem_append_left _ hx
      · exact List.mem_append_right _ (List.mem_cons_of_mem _ hx)
    · rintro ⟨hx, hxk⟩
      refine ⟨?_, hxk⟩
      rcases List.mem_append.1 hx with hx | hx
      · exact List.mem_append_left _ hx
      · rcases List.mem_cons.1 hx with hx | hx
        · subst hx
          exact absurd (hxk.symm.trans hek) hne
        · exact List.mem_append_right _ hx
  · rw [Option.eq_none_iff_forall_not_mem]
    intro x hx
    rw [Option.mem_def, hmem k x hz] at hx
    exact KeySorted_middle hsorted x hx.1 (hx.2.trans hek.symm)
  · rw [h5, hkeys]
    unfold size_dec
    rw [if_neg (by simp)]
    simp only [List.length_append, List.length_cons]
    omega

/-- C15. `TT_del_key` removes exactly one key: for a tree built from a fresh
one by insertions (keys of bytes 1..127, fewer than `2 ^ 60 - 1` of them) and
every stored key `k`, `TT_del_key(tree, k)` returns 1; the list of `TT_data`
afterwards is the list before with the entry of `k` taken out, the other
entries staying in place; every other key, a key that extends `k` included,
gets the same answer from the search as before (same stored key, same value)
and `k` is no longer found; `keys` is decremented by 1 and `nodes` is
unchanged. -/
theorem C15_del_key_exact (flags : Tree_Flags) (destructor : Option Tree_Destroy)
    (ops : List (List Int × Nat)) (hk : ∀ op ∈ ops, KeyOK op.1)
    (hlen : 16 * (ops.length + 1) < SIZE_MOD) (k : List Int) (hz : ∀ c ∈ k, c ≠ 0)
    (e : TT_Data) (hfind : TT_find (insert_all (TT_create flags destructor) ops) k = some e) :
    (TT_del_key (insert_all (TT_create flags destructor) ops) k).2 = 1 ∧
    (∃ A B, TT_data (insert_all (TT_create flags destructor) ops) =
        some (some (A ++ e :: B), (A ++ e :: B).length) ∧
      TT_data (TT_del_key (insert_all (TT_create flags destructor) ops) k).1 =
        some (some (A ++ B), (A ++ B).length)) ∧
    (∀ s : List Int, (∀ c ∈ s, c ≠ 0) → foldk flags s ≠ foldk flags k →
      TT_find (TT_del_key (insert_all (TT_create flags destructor) ops) k).1 s =
        TT_find (insert_all (TT_create flags destructor) ops) s) ∧
    TT_find (TT_del_key (insert_all (TT_create flags destructor) ops) k).1 k = none ∧
    (TT_del_key (insert_all (TT_create flags destructor) ops) k).1.keys + 1 =
      (insert_all (TT_create flags destructor) ops).keys ∧
    (TT_del_key (insert_all (TT_create flags destructor) ops) k).1.nodes =
      (insert_all (TT_create flags destructor) ops).nodes := by
  obtain ⟨hg, hfl, hko, hle⟩ := insert_all_good flags destructor ops hk
  have h := TT_del_key_good hg hko (by omega) k hz e hfind
  rw [hfl] at h
  exact h

theorem C15_del_key_exact_witness :
    (TT_del_key (insert_all (TT_create ⟨true, false, false, false⟩ none)
      [([99, 97, 116], 1), ([99, 97, 114], 2), ([99, 97, 114, 115], 3)]) [99, 97, 114]).2 = 1 ∧
    (∃ A B, TT_data (insert_all (TT_create ⟨true, false, false, false⟩ none)
        [([99, 97, 116], 1), ([99, 97, 114], 2), ([99, 97, 114, 115], 3)]) =
        some (some (A ++ (⟨some [99, 97, 114], 2⟩ : TT_Data) :: B),
          (A ++ (⟨some [99, 97, 114], 2⟩ : TT_Data) :: B).length) ∧
      TT_data (TT_del_key (insert_all (TT_create ⟨true, false, false, false⟩ none)
        [([99, 97, 116], 1), ([99, 97, 114], 2), ([99, 97, 114, 115], 3)]) [99, 97, 114]).1 =
        some (some (A ++ B), (A ++ B).length)) ∧
    (∀ s : List Int, (∀ c ∈ s, c ≠ 0) →
      foldk ⟨true, false, false, false⟩ s ≠ foldk ⟨true, false, false, false⟩ [99, 97, 114] →
      TT_find (TT_del_key (insert_all (TT_create ⟨true, false, false, false⟩ none)
        [([99, 97, 116], 1), ([99, 97, 114], 2), ([99, 97, 114, 115], 3)]) [99, 97, 114]).1 s =
        TT_find (insert_all (TT_create ⟨true, false, false, false⟩ none)
          [([99, 97, 116], 1), ([99, 97, 114], 2), ([99, 97, 114, 115], 3)]) s) ∧
    TT_find (TT_del_key (insert_all (TT_create ⟨true, false, false, false⟩ none)
      [([99, 97, 116], 1), ([99, 97, 114], 2), ([99, 97, 114, 115], 3)]) [99, 97, 114]).1
      [99, 97, 114] = none ∧
    (TT_del_key (insert_all (TT_create ⟨true, false, false, false⟩ none)
      [([99, 97, 116], 1), ([99, 97, 114], 2), ([99, 97, 114, 115], 3)]) [99, 97, 114]).1.keys
      + 1 = (insert_all (TT_create ⟨true, false, false, false⟩ none)
      [([99, 97, 116], 1), ([99, 97, 114], 2), ([99, 97, 114, 115], 3)]).keys ∧
    (TT_del_key (insert_all (TT_create ⟨true, false, false, false⟩ none)
      [([99, 97, 116], 1), ([99, 97, 114], 2), ([99, 97, 114, 115], 3)]) [99, 97, 114]).1.nodes =
      (insert_all (TT_create ⟨true, false, false, false⟩ none)
      [([99, 97, 116], 1), ([99, 97, 114], 2), ([99, 97, 114, 115], 3)]).nodes :=
  C15_del_key_exact ⟨true, false, false, false⟩ none
    [([99, 97, 116], 1), ([99, 97, 114], 2), ([99, 97, 114, 115], 3)] (by decide) (by decide)
    [99, 97, 114] (by decide) ⟨some [99, 97, 114], 2⟩ (by decide)

/-! ## What `TT_del_node` keeps -/

/-- The entries below the node that a search returns: their folded keys begin
with the path to the node, which is the folded string searched less its last
character. -/
theorem search_subtree_form (flags : Tree_Flags) : ∀ (n : TTNode) (p : List Int)
    (lo hi : Int) (s : List Int) (q : List Link), Inv flags p lo hi n →
      (∀ c ∈ s, c ≠ 0) → _TT_search n s flags = some q →
      ∀ e ∈ entries (n.deref q), (p ++ (foldk flags s).dropLast) <+: entry_key flags e := by
  intro n
  induction n with
  | null =>
    intro p lo hi s q _ _ hq
    rw [_TT_search_null] at hq
    exact absurd hq (by simp)
  | mk sp k d dep l m r ihl ihm ihr =>
    intro p lo hi s q hinv hs hq
    cases s with
    | nil => rw [_TT_search_nil] at hq; exact absurd hq (by simp)
    | cons ch rest =>
      have hch : ch ≠ 0 := hs ch (List.mem_cons_self _ _)
      have hrest : ∀ c ∈ rest, c ≠ 0 := fun c hc1 => hs c (List.mem_cons_of_mem _ hc1)
      rw [_TT_search_mk _ _ _ _ _ _ _ _ _ _ hch] at hq
      by_cases hnz : sp = 0 ∧ k = none
      · rw [if_pos hnz] at hq; exact absurd hq (by simp)
      · rw [if_neg hnz] at hq
        obtain ⟨i1, i2, i3, i4, i5, i6⟩ := Inv_regular hinv hnz
        by_cases h1 : foldc flags ch < sp
        · rw [if_pos h1] at hq
          obtain ⟨q1, hq1, hqq⟩ := Option.map_eq_some'.1 hq
          subst hqq
          simp only [TTNode.deref]
          exact ihl p lo sp (ch :: rest) q1 i4 hs hq1
        · rw [if_neg h1] at hq
          by_cases h2 : foldc flags ch > sp
          · rw [if_pos h2] at hq
            obtain ⟨q1, hq1, hqq⟩ := Option.map_eq_some'.1 hq
            subst hqq
            simp only [TTNode.deref]
            exact ihr p sp hi (ch :: rest) q1 i6 hs hq1
          · rw [if_neg h2] at hq
            have hc : foldc flags ch = sp := by omega
            by_cases h3 : rest.headD 0 ≠ 0
            · rw [if_pos h3] at hq
              obtain ⟨q1, hq1, hqq⟩ := Option.map_eq_some'.1 hq
              subst hqq
              have hrne : rest ≠ [] := (headD_ne_zero_iff rest hrest).1 h3
              have hfne : foldk flags rest ≠ [] := fun h => hrne ((foldk_eq_nil flags rest).1 h)
              simp only [TTNode.deref]
              intro e he
              have := ihm (p ++ [sp]) 0 128 rest q1 i5 hrest hq1 e he
              rw [foldk_cons, hc, List.dropLast_cons_of_ne_nil hfne]
              simpa using this
            · rw [if_neg h3] at hq
              have hr : rest = [] := by
                by_contra hn
                exact h3 ((headD_ne_zero_iff rest hrest).2 hn)
              subst hr
              split at hq
              · simp only [Option.some.injEq] at hq
                subst hq
                simp only [TTNode.deref]
                intro e he
                obtain ⟨c1, rest1, hk, _, _⟩ :=
                  KeyForm_entry_key (Inv_entries_form flags _ p lo hi hinv e he)
                rw [hk]
                simp [foldk]
              · exact absurd hq (by simp)

/-- C18, as stated, fails: after inserting "car" then "cat" (replace enabled)
into a fresh tree, "cat" is a stored key with value 1 that does not have "car"
as a prefix, `TT_del_node(tree, "car")` returns 1, and afterwards `TT_search`
does not find "cat": its node hangs off the `right` link of the last node of
"car" and `_TT_destroy` clears it too. -/
theorem C18_sibling_key_lost :
    TT_find (insert_all (TT_create ⟨true, false, false, false⟩ none)
      [([99, 97, 114], 2), ([99, 97, 116], 1)]) [99, 97, 116] = some ⟨some [99, 97, 116], 1⟩ ∧
    ¬ ([99, 97, 114] : List Int) <+: [99, 97, 116] ∧
    (TT_del_node (insert_all (TT_create ⟨true, false, false, false⟩ none)
      [([99, 97, 114], 2), ([99, 97, 116], 1)]) [99, 97, 114]).2 = 1 ∧
    TT_search (TT_del_node (insert_all (TT_create ⟨true, false, false, false⟩ none)
      [([99, 97, 114], 2), ([99, 97, 116], 1)]) [99, 97, 114]).1 [99, 97, 116] = none := by
  decide

/-- C18, amended. `TT_del_node` removes only keys stored below the node of the
deleted key: for a tree built from a fresh one by insertions in any order
(keys of bytes 1..127) and every stored key `k`, found at the node `p`, every
stored key whose entry is not among the entries of the subtree of `p` (the
nodes reached from `p` through `left`, `mid` and `right` links) gets, after
`TT_del_node(tree, k)`, the same answer from the search as before: found, same
stored key, same value. This holds in particular for every stored key that
does not begin with `k` less its last byte (compared after folding when
case-insensitive). -/
theorem C18_del_node_frame (flags : Tree_Flags) (destructor : Option Tree_Destroy)
    (ops : List (List Int × Nat)) (hk : ∀ op ∈ ops, KeyOK op.1) (k : List Int)
    (hz : ∀ c ∈ k, c ≠ 0) (p : List Link)
    (hp : TT_search (insert_all (TT_create flags destructor) ops) k = some p)
    (s : List Int) (hs : ∀ c ∈ s, c ≠ 0) (e : TT_Data)
    (hfind : TT_find (insert_all (TT_create flags destructor) ops) s = some e) :
    (e ∉ entries ((insert_all (TT_create flags destructor) ops).head.deref p) →
      TT_find (TT_del_node (insert_all (TT_create flags destructor) ops) k).1 s = some e) ∧
    (¬ (foldk flags k).dropLast <+: foldk flags s →
      TT_find (TT_del_node (insert_all (TT_create flags destructor) ops) k).1 s = some e) := by
  obtain ⟨hg, hfl, _, _⟩ := insert_all_good flags destructor ops hk
  obtain ⟨hh, q, hpq, hq, _⟩ := TT_search_inv _ _ _ hp
  subst hpq
  rw [deref_mid_cons]
  obtain ⟨_, h2, _, h4, _⟩ := TT_del_node_found _ k q hh hq
  obtain ⟨A, B, hA, hB⟩ := del_node_entries _ _ k q hq
  obtain ⟨hg1, _⟩ := GoodTree_del_node hg k
  obtain ⟨he1, he2⟩ := (GoodTree_find_iff hg s hs e).1 hfind
  have hkeep : e ∉ entries ((insert_all (TT_create flags destructor) ops).head.mid.deref q) →
      TT_find (TT_del_node (insert_all (TT_create flags destructor) ops) k).1 s = some e := by
    intro hnot
    rw [GoodTree_find_iff hg1 s hs e, h4, setMid_mid _ _ hh, hB, h2]
    refine ⟨?_, he2⟩
    rw [hA] at he1
    rcases List.mem_append.1 he1 with hx | hx
    · rcases List.mem_append.1 hx with hx | hx
      · exact List.mem_append_left _ hx
      · exact absurd hx hnot
    · exact List.mem_append_right _ hx
  refine ⟨hkeep, ?_⟩
  intro hnp
  apply hkeep
  intro hmem
  obtain ⟨m, hm, hinv⟩ := hg
  have hmid : (insert_all (TT_create flags destructor) ops).head.mid = m := by rw [hm]; rfl
  rw [hmid] at hmem hq
  have := search_subtree_form _ m [] 0 128 k q hinv hz hq e hmem
  rw [he2, hfl] at this
  exact hnp (by simpa using this)

theorem C18_del_node_frame_witness :
    (⟨some [99, 98], 3⟩ ∉ entries ((insert_all (TT_create ⟨true, false, false, false⟩ none)
        [([99, 97, 114], 2), ([99, 97, 116], 1), ([99, 98], 3)]).head.deref
        [Link.mid, Link.mid, Link.mid]) ∧
      ¬ (foldk ⟨true, false, false, false⟩ [99, 97, 114]).dropLast <+:
        foldk ⟨true, false, false, false⟩ [99, 98]) ∧
    ((⟨some [99, 98], 3⟩ ∉ entries ((insert_all (TT_create ⟨true, false, false, false⟩ none)
        [([99, 97, 114], 2), ([99, 97, 116], 1), ([99, 98], 3)]).head.deref
        [Link.mid, Link.mid, Link.mid]) →
      TT_find (TT_del_node (insert_all (TT_create ⟨true, false, false, false⟩ none)
        [([99, 97, 114], 2), ([99, 97, 116], 1), ([99, 98], 3)]) [99, 97, 114]).1 [99, 98] =
        some ⟨some [99, 98], 3⟩) ∧
    (¬ (foldk ⟨true, false, false, false⟩ [99, 97, 114]).dropLast <+:
        foldk ⟨true, false, false, false⟩ [99, 98] →
      TT_find (TT_del_node (insert_all (TT_create ⟨true, false, false, false⟩ none)
        [([99, 97, 114], 2), ([99, 97, 116], 1), ([99, 98], 3)]) [99, 97, 114]).1 [99, 98] =
        some ⟨some [99, 98], 3⟩)) :=
  ⟨by decide,
    C18_del_node_frame ⟨true, false, false, false⟩ none
      [([99, 97, 114], 2), ([99, 97, 116], 1), ([99, 98], 3)] (by decide) [99, 97, 114]
      (by decide) [Link.mid, Link.mid, Link.mid] (by decide) [99, 98] (by decide)
      ⟨some [99, 98], 3⟩ (by decide)⟩

/-! ## Prefix lookup with a cap -/

/-- The function `_TT_lookup` with a cap `max` below `2 ^ 64 - 1` too large for
the array of `max + 1` entries to be allocated: `NULL` with count 0. -/
theorem _TT_lookup_refused (t : TTree) (hh : t.head ≠ TTNode.null) (pfx : List Int) (max : Nat)
    (hmax : max + 1 < SIZE_MOD) (hbig : ¬ 16 * (max + 1) < SIZE_MOD) :
    _TT_lookup t pfx max = some (none, 0) := by
  have hm0 : ¬ max = 0 := by
    intro h
    subst h
    exact hbig (by decide)
  have hinc : size_inc max = max + 1 := by
    unfold size_inc
    rw [if_neg (by omega)]
  have hcal : ¬ Calloc sizeof_TT_Data (size_inc max) = true := by
    rw [hinc]
    simpa [Calloc, sizeof_TT_Data] using hbig
  unfold _TT_lookup
  split
  · rfl
  · cases hd : t.head with
    | null => exact absurd hd hh
    | mk sp k d dep l hm r =>
      simp only
      split
      · rfl
      · simp [hm0, hcal]

/-- The entries that strictly extend a string, in a tree in a good state: they
are sorted, and they are the stored pairs whose key strictly extends it. -/
theorem extensions_good {t : TTree} (hg : GoodTree t) (pfx : List Int) :
    KeySorted t.flags
      ((entries t.head.mid).filter (fun e => decide (extends_key t.flags pfx e))) ∧
    ∀ e : TT_Data,
      e ∈ (entries t.head.mid).filter (fun e => decide (extends_key t.flags pfx e)) ↔
        (extends_key t.flags pfx e ∧
          ∃ ks, (∀ c ∈ ks, c ≠ 0) ∧ e.key = some ks ∧ TT_find t ks = some e) := by
  refine ⟨List.Pairwise.sublist (List.filter_sublist _) (GoodTree_sorted hg), ?_⟩
  intro e
  rw [List.mem_filter, decide_eq_true_eq]
  constructor
  · rintro ⟨he, hx⟩
    obtain ⟨ks, a1, a2, a3⟩ := GoodTree_entry_key hg e he
    exact ⟨hx, ks, a2, a1, a3⟩
  · rintro ⟨hx, ks, a2, _, a3⟩
    exact ⟨((GoodTree_find_iff hg ks a2 e).1 a3).1, hx⟩

theorem first_key_snoc (flags : Tree_Flags) (ops : List (List Int × Nat))
    (op : List Int × Nat) (k : List Int) :
    first_key flags (ops ++ [op]) k =
      match first_key flags ops k with
      | some x => some x
      | none => if foldk flags op.1 = foldk flags k then some op.1 else none := by
  unfold first_key
  rw [List.filter_append]
  cases hf : ops.filter (fun o => decide (foldk flags o.1 = foldk flags k)) with
  | nil =>
    by_cases h : foldk flags op.1 = foldk flags k
    · simp [List.filter_cons, h]
    · simp [List.filter_cons, h]
  | cons a l => simp

theorem first_key_some {flags : Tree_Flags} {ops : List (List Int × Nat)} {k x : List Int}
    (h : first_key flags ops k = some x) :
    ∃ op ∈ ops, op.1 = x ∧ foldk flags op.1 = foldk flags k := by
  unfold first_key at h
  cases hf : ops.filter (fun o => decide (foldk flags o.1 = foldk flags k)) with
  | nil => rw [hf] at h; simp at h
  | cons a l =>
    rw [hf] at h
    have ha : a ∈ ops.filter (fun o => decide (foldk flags o.1 = foldk flags k)) := by
      rw [hf]; exact List.mem_cons_self _ _
    rw [List.mem_filter, decide_eq_true_eq] at ha
    exact ⟨a, ha.1, by simpa using h, ha.2⟩

theorem first_key_none {flags : Tree_Flags} {ops : List (List Int × Nat)} {k : List Int}
    (h : ¬ ∃ op ∈ ops, foldk flags op.1 = foldk flags k) : first_key flags ops k = none := by
  unfold first_key
  have : ops.filter (fun o => decide (foldk flags o.1 = foldk flags k)) = [] := by
    rw [List.filter_eq_nil_iff]
    intro o ho hc
    exact h ⟨o, ho, by simpa using hc⟩
  rw [this]
  rfl

theorem first_key_congr (flags : Tree_Flags) (ops : List (List Int × Nat))
    {k1 k2 : List Int} (h : foldk flags k1 = foldk flags k2) :
    first_key flags ops k1 = first_key flags ops k2 := by
  unfold first_key
  rw [h]

/-- In a tree built by insertions, the key string of the node that a search
returns is the spelling given by the first insertion of the key. -/
theorem insert_all_key (flags : Tree_Flags) (destructor : Option Tree_Destroy)
    (ops : List (List Int × Nat)) (hk : ∀ op ∈ ops, KeyOK op.1) (s : List Int)
    (hs : ∀ c ∈ s, c ≠ 0) :
    ∀ e, TT_find (insert_all (TT_create flags destructor) ops) s = some e →
      e.key = first_key flags ops s := by
  induction ops using List.reverseRecOn with
  | nil =>
    intro e h
    simp [insert_all, TT_find_create] at h
  | append_singleton ops op ih =>
    intro e h
    have hk1 : ∀ o ∈ ops, KeyOK o.1 := fun o ho => hk o (List.mem_append_left _ ho)
    have hko : KeyOK op.1 := hk op (by simp)
    have hnz : ∀ c ∈ op.1, c ≠ 0 := fun c hc => by
      have := KeyOK_pos hko c hc
      omega
    obtain ⟨i1, i2, _⟩ := insert_all_fields (TT_create flags destructor)
      (by simp [TT_create, _TT_create_node]) ops hk1
    have i2f : (insert_all (TT_create flags destructor) ops).flags = flags := i2
    obtain ⟨_, _, _, hfr, hhit⟩ :=
      TT_insert_find (insert_all (TT_create flags destructor) ops) op.1 op.2 i1 hko
    rw [i2f] at hfr hhit
    rw [insert_all_snoc] at h
    rw [first_key_snoc]
    by_cases he : foldk flags s = foldk flags op.1
    · obtain ⟨b, ⟨e1, hn, hkey, _⟩, _⟩ := hhit s hs he
      rw [h] at hn
      obtain rfl : e = e1 := by simpa using hn
      rw [hkey, Strdup_eq _ hnz]
      cases hold : TT_find (insert_all (TT_create flags destructor) ops) s with
      | none =>
        have hnot : ¬ ∃ o ∈ ops, foldk flags o.1 = foldk flags s := by
          intro hc
          have := (insert_all_found flags destructor ops hk1 s hs).2 hc
          rw [hold] at this
          simp at this
        rw [first_key_none hnot]
        simp [he]
      | some e0 =>
        have hk0 := ih hk1 e0 hold
        rw [Option.some_bind, hk0]
        cases first_key flags ops s with
        | none => simp [he]
        | some x => rfl
    · rw [hfr s hs he] at h
      rw [ih hk1 e h]
      cases first_key flags ops s with
      | none =>
        simp only
        rw [if_neg (fun hc => he hc.symm)]
      | some x => rfl

/-- C19. Case-insensitive lookup keeps the original spelling: in a tree created
with the case-insensitive flag and built by insertions (keys of bytes 1..127,
fewer than `2 ^ 60 - 1` of them), for all non-empty ASCII keys `k1`, `k2` with
equal lower-case foldings, if `k1` is the first spelling inserted (so `k1` is
one of the inserted keys) then
`TT_search(tree, k2)` finds a node whose stored key is literally `k1`, and
`TT_data` lists that key as `k1`: the list holds the pair of `k1` and the
value of the node, and every entry of the list under this key has the key
string `k1`. -/
theorem C19_nocase_keeps_spelling (flags : Tree_Flags) (hnc : flags.T_NOCASE = true)
    (destructor : Option Tree_Destroy) (ops : List (List Int × Nat))
    (hk : ∀ op ∈ ops, KeyOK op.1) (hlen : 16 * (ops.length + 1) < SIZE_MOD)
    (k1 k2 : List Int) (h2 : KeyOK k2)
    (hfold : k1.map tolower = k2.map tolower)
    (hfirst : first_key flags ops k1 = some k1) :
    ∃ p es, TT_search (insert_all (TT_create flags destructor) ops) k2 = some p ∧
      ((insert_all (TT_create flags destructor) ops).head.deref p).key = some k1 ∧
      TT_data (insert_all (TT_create flags destructor) ops) = some (some es, es.length) ∧
      (⟨some k1, ((insert_all (TT_create flags destructor) ops).head.deref p).data⟩ :
        TT_Data) ∈ es ∧
      ∀ e ∈ es, entry_key flags e = foldk flags k2 → e.key = some k1 := by
  have hf : foldk flags k1 = foldk flags k2 := by
    have hc : foldc flags = tolower := by
      funext c
      simp [foldc, hnc]
    simp only [foldk, hc]
    exact hfold
  have hz2 : ∀ c ∈ k2, c ≠ 0 := fun c hc => by
    have := KeyOK_pos h2 c hc
    omega
  obtain ⟨hg, hfl, hko, hle⟩ := insert_all_good flags destructor ops hk
  obtain ⟨hd, _⟩ := TT_data_good hg hko (by omega)
  obtain ⟨op, hop, _, hopf⟩ := first_key_some hfirst
  have hsome := (insert_all_found flags destructor ops hk k2 hz2).2 ⟨op, hop, hopf.trans hf⟩
  obtain ⟨e, he⟩ := Option.isSome_iff_exists.1 hsome
  have hkey : e.key = some k1 := by
    rw [insert_all_key flags destructor ops hk k2 hz2 e he, ← first_key_congr flags ops hf]
    exact hfirst
  have he0 := he
  unfold TT_find at he
  obtain ⟨p, hp, hpe⟩ := Option.map_eq_some'.1 he
  have hmem := (GoodTree_find_iff hg k2 hz2 e).1 he0
  refine ⟨p, _, hp, ?_, hd, ?_, ?_⟩
  · rw [← hkey, ← hpe]
  · have : (⟨some k1, ((insert_all (TT_create flags destructor) ops).head.deref p).data⟩ :
        TT_Data) = e := by
      rw [← hpe] at hkey ⊢
      simp only at hkey
      rw [hkey]
    rw [this]
    exact hmem.1
  · intro x hx hxk
    have hfx := (GoodTree_find_iff hg k2 hz2 x).2 ⟨hx, by rw [hfl]; exact hxk⟩
    rw [he0] at hfx
    obtain rfl : e = x := by simpa using hfx
    exact hkey

theorem C19_nocase_keeps_spelling_witness :
    ∃ p es, TT_search (insert_all (TT_create ⟨true, true, false, false⟩ none)
        [([67, 97, 116], 1), ([99, 97, 116], 2), ([100, 111, 103], 3)]) [67, 65, 84] = some p ∧
      ((insert_all (TT_create ⟨true, true, false, false⟩ none)
        [([67, 97, 116], 1), ([99, 97, 116], 2), ([100, 111, 103], 3)]).head.deref p).key =
        some [67, 97, 116] ∧
      TT_data (insert_all (TT_create ⟨true, true, false, false⟩ none)
        [([67, 97, 116], 1), ([99, 97, 116], 2), ([100, 111, 103], 3)]) =
        some (some es, es.length) ∧
      (⟨some [67, 97, 116], ((insert_all (TT_create ⟨true, true, false, false⟩ none)
        [([67, 97, 116], 1), ([99, 97, 116], 2), ([100, 111, 103], 3)]).head.deref p).data⟩ :
        TT_Data) ∈ es ∧
      ∀ e ∈ es, entry_key ⟨true, true, false, false⟩ e =
        foldk ⟨true, true, false, false⟩ [67, 65, 84] → e.key = some [67, 97, 116] :=
  C19_nocase_keeps_spelling ⟨true, true, false, false⟩ rfl none
    [([67, 97, 116], 1), ([99, 97, 116], 2), ([100, 111, 103], 3)] (by decide) (by decide)
    [67, 97, 116] [67, 65, 84] (by decide) (by decide) (by decide)

/-! ## The tree built by `TT_lookup_tree` -/

theorem NoData_ins_prep {c : Int} {depth : Nat} {n : TTNode} (h : NoData n) :
    NoData (ins_prep c depth n) := by
  cases n with
  | null => simp [ins_prep, NoData]
  | mk sp k d dep l m r =>
    by_cases hz : sp = 0 ∧ k = none
    · simp only [ins_prep, if_pos hz]
      simp [NoData]
    · simp only [ins_prep, if_neg hz]
      exact h

theorem ins_prep_left_eq {c : Int} {depth : Nat} {n : TTNode} {sp : Int}
    {k : Option (List Int)} {d dep : Nat} {l m r : TTNode}
    (hp : ins_prep c depth n = TTNode.mk sp k d dep l m r) (hn : NoData n) :
    d = 0 ∧ NoData l ∧ NoData m ∧ NoData r := by
  have h := @NoData_ins_prep c depth n hn
  rw [hp] at h
  exact h

/-- Without the replace flag an insertion stores no value. -/
theorem Ins_NoData {flags : Tree_Flags} {s : List Int} {data : Nat}
    {pos depth : Nat} {n n1 : TTNode} {b : Bool} (h : Ins flags s data pos depth n n1 b)
    (hrep : flags.T_INSERT_REPLACE = false) : NoData n → NoData n1 := by
  induction h with
  | @lt pos depth n sp k d dep l m r l1 b hp _ _ ih =>
    intro hn
    obtain ⟨a1, a2, a3, a4⟩ := ins_prep_left_eq hp hn
    exact ⟨a1, ih a2, a3, a4⟩
  | @gt pos depth n sp k d dep l m r r1 b hp _ _ ih =>
    intro hn
    obtain ⟨a1, a2, a3, a4⟩ := ins_prep_left_eq hp hn
    exact ⟨a1, a2, a3, ih a4⟩
  | @mid pos depth n sp k d dep l m r m1 b hp _ _ _ ih =>
    intro hn
    obtain ⟨a1, a2, a3, a4⟩ := ins_prep_left_eq hp hn
    exact ⟨a1, a2, ih a3, a4⟩
  | @last pos depth n sp k d dep l m r hp _ _ =>
    intro hn
    obtain ⟨a1, a2, a3, a4⟩ := ins_prep_left_eq hp hn
    refine ⟨?_, a2, a3, a4⟩
    rw [hrep]
    simpa using a1

theorem NoData_entries : ∀ (n : TTNode), NoData n → ∀ e ∈ entries n, e.data = 0 := by
  intro n
  induction n with
  | null => intro _ e he; simp [entries] at he
  | mk sp k d dep l m r ihl ihm ihr =>
    intro hn e he
    obtain ⟨a1, a2, a3, a4⟩ := hn
    rw [entries_mk] at he
    simp only [List.mem_append] at he
    rcases he with ((he | he) | he) | he
    · exact ihl a2 e he
    · cases k with
      | none => simp at he
      | some ks =>
        simp only [Option.isSome_some, if_true, List.mem_singleton] at he
        rw [he]
        exact a1
    · exact ihm a3 e he
    · exact ihr a4 e he

/-- Without the replace flag a tree built by insertions holds no value. -/
theorem insert_all_NoData (flags : Tree_Flags) (hrep : flags.T_INSERT_REPLACE = false)
    (destructor : Option Tree_Destroy) (ops : List (List Int × Nat))
    (hk : ∀ op ∈ ops, KeyOK op.1) :
    NoData (insert_all (TT_create flags destructor) ops).head.mid := by
  induction ops using List.reverseRecOn with
  | nil => simp [insert_all, TT_create, _TT_create_node, TTNode.mid, NoData]
  | append_singleton ops op ih =>
    have hk1 : ∀ o ∈ ops, KeyOK o.1 := fun o ho => hk o (List.mem_append_left _ ho)
    have hko : KeyOK op.1 := hk op (by simp)
    obtain ⟨i1, i2, _⟩ := insert_all_fields (TT_create flags destructor)
      (by simp [TT_create, _TT_create_node]) ops hk1
    have i2f : (insert_all (TT_create flags destructor) ops).flags = flags := i2
    obtain ⟨m1, t1, b, _, hb, _, he⟩ :=
      TT_insert_spec (insert_all (TT_create flags destructor) ops) op.1 op.2 i1 hko
    rw [insert_all_snoc, he]
    simp only
    rw [setMid_mid _ _ i1]
    rw [i2f] at hb
    exact Ins_NoData hb hrep (ih hk1)

theorem foldc_range_inv (flags : Tree_Flags) {c : Int}
    (h : 1 ≤ foldc flags c ∧ foldc flags c ≤ 127) : 1 ≤ c ∧ c ≤ 127 := by
  unfold foldc tolower at h
  split at h
  · split at h <;> omega
  · exact h

/-- Under the invariant the key string of every entry is a plain key. -/
theorem Inv_entries_KeyOK (flags : Tree_Flags) : ∀ (n : TTNode) (p : List Int) (lo hi : Int),
    Inv flags p lo hi n → 0 ≤ lo → hi ≤ 128 → (∀ c ∈ p, 1 ≤ c ∧ c ≤ 127) →
      ∀ e ∈ entries n, ∃ ks, e.key = some ks ∧ KeyOK ks := by
  intro n
  induction n with
  | null => intro p lo hi _ _ _ _ e he; simp [entries] at he
  | mk sp k d dep l m r ihl ihm ihr =>
    intro p lo hi hinv hlo hhi hp e he
    unfold Inv at hinv
    rcases hinv with ⟨h1, h2, h3, h4, h5⟩ | ⟨i1, i2, i3, i4, i5, i6⟩
    · subst h1 h2 h3 h4 h5
      simp [entries] at he
    · have hp1 : ∀ c ∈ p ++ [sp], 1 ≤ c ∧ c ≤ 127 := by
        intro c hc
        rcases List.mem_append.1 hc with hc | hc
        · exact hp c hc
        · simp only [List.mem_singleton] at hc
          subst hc
          omega
      rw [entries_mk] at he
      simp only [List.mem_append] at he
      rcases he with ((he | he) | he) | he
      · exact ihl p lo sp i4 hlo (by omega) hp e he
      · cases k with
        | none => simp at he
        | some ks =>
          simp only [Option.isSome_some, if_true, List.mem_singleton] at he
          obtain ⟨a1, _⟩ := i3 ks rfl
          refine ⟨ks, by rw [he], ?_, ?_⟩
          · intro hnil
            rw [hnil] at a1
            simp [foldk] at a1
          · intro c hc
            apply foldc_range_inv flags
            apply hp1
            rw [← a1]
            exact List.mem_map_of_mem _ hc
      · exact ihm (p ++ [sp]) 0 128 i5 (le_refl _) (le_refl _) hp1 e he
      · exact ihr p sp hi i6 (by omega) hhi hp e he

theorem GoodTree_entries_KeyOK {t : TTree} (hg : GoodTree t) :
    ∀ e ∈ entries t.head.mid, ∃ ks, e.key = some ks ∧ KeyOK ks := by
  obtain ⟨m, hm, hinv⟩ := hg
  have hmid : t.head.mid = m := by rw [hm]; rfl
  rw [hmid]
  exact Inv_entries_KeyOK t.flags m [] 0 128 hinv (le_refl _) (le_refl _) (by simp)

theorem filter_unique {α β : Type} [DecidableEq β] (f : α → β) : ∀ (l : List α) (x : α),
    (l.map f).Nodup → x ∈ l → l.filter (fun y => decide (f y = f x)) = [x] := by
  intro l
  induction l with
  | nil => intro x _ hx; simp at hx
  | cons a l ih =>
    intro x hn hx
    rw [List.map_cons, List.nodup_cons] at hn
    rcases List.mem_cons.1 hx with h | h
    · subst h
      have hnil : l.filter (fun y => decide (f y = f x)) = [] := by
        rw [List.filter_eq_nil_iff]
        intro y hy hc
        simp only [decide_eq_true_eq] at hc
        exact hn.1 (hc ▸ List.mem_map_of_mem f hy)
      rw [List.filter_cons, hnil]
      simp
    · have hne : ¬ f a = f x := fun hc => hn.1 (hc ▸ List.mem_map_of_mem f h)
      rw [List.filter_cons]
      simp only [hne, decide_False, Bool.false_eq_true, if_false]
      exact ih x hn.2 h

/-- Two strictly sorted lists of entries with the same members are equal. -/
theorem KeySorted_ext {flags : Tree_Flags} {l1 l2 : List TT_Data}
    (h1 : KeySorted flags l1) (h2 : KeySorted flags l2) (h : ∀ e, e ∈ l1 ↔ e ∈ l2) :
    l1 = l2 := by
  have n1 : l1.Nodup := List.Nodup.of_map _ (KeySorted_nodup h1)
  have n2 : l2.Nodup := List.Nodup.of_map _ (KeySorted_nodup h2)
  have hp : l1.Perm l2 := (List.perm_ext_iff_of_nodup n1 n2).2 h
  exact @List.eq_of_perm_of_sorted _
    (fun a b => List.Lex (fun x y : Int => x < y) (entry_key flags a) (entry_key flags b))
    ⟨fun a b hab hba => absurd hba (asymm hab)⟩ l1 l2 hp h1 h2

theorem TT_Data_ext {a b : TT_Data} (h1 : a.key = b.key) (h2 : a.data = b.data) : a = b := by
  cases a
  cases b
  simp only at h1 h2
  rw [h1, h2]

theorem insert_all_cons (t : TTree) (op : List Int × Nat) (ops : List (List Int × Nat)) :
    insert_all t (op :: ops) = insert_all (TT_insert t op.1 op.2).1 ops := rfl

/-- The loop of `TT_lookup_tree` is a sequence of `TT_insert` calls. -/
theorem TT_lookup_tree_loop_eq : ∀ (L : List TT_Data) (rc : TTree),
    rc.head ≠ TTNode.null → (∀ e ∈ L, ∃ ks, e.key = some ks ∧ KeyOK ks) →
      TT_lookup_tree_loop L rc = insert_all rc (L.map entry_pair) := by
  intro L
  induction L with
  | nil => intro rc _ _; rfl
  | cons e rest ih =>
    intro rc hh hL
    obtain ⟨ks, hks, hok⟩ := hL e (List.mem_cons_self _ _)
    obtain ⟨ek, ed⟩ := e
    simp only at hks
    subst hks
    obtain ⟨m1, t1, b, hr, _, _, he⟩ := TT_insert_spec rc ks ed hh hok
    obtain ⟨hh1, _⟩ := TT_insert_find rc ks ed hh hok
    rw [List.map_cons, insert_all_cons]
    simp only [TT_lookup_tree_loop, hr, entry_pair, Option.getD_some]
    rw [← he]
    exact ih _ hh1 (fun x hx => hL x (List.mem_cons_of_mem _ hx))

/-- A search in the tree built by inserting the entries of a strictly sorted
list finds each entry as it is in the list; without the replace flag this
needs the entries to hold no value. -/
theorem sorted_insert_find (flags : Tree_Flags) (destructor : Option Tree_Destroy)
    (L : List TT_Data) (hsort : KeySorted flags L)
    (hL : ∀ e ∈ L, ∃ ks, e.key = some ks ∧ KeyOK ks)
    (hdata : flags.T_INSERT_REPLACE = false → ∀ e ∈ L, e.data = 0)
    (x : TT_Data) (hx : x ∈ L) (s : List Int) (hs : ∀ c ∈ s, c ≠ 0)
    (hxs : entry_key flags x = foldk flags s) :
    TT_find (insert_all (TT_create flags destructor) (L.map entry_pair)) s = some x := by
  have hk : ∀ op ∈ L.map entry_pair, KeyOK op.1 := by
    intro op hop
    obtain ⟨e, he, rfl⟩ := List.mem_map.1 hop
    obtain ⟨ks, hks, hok⟩ := hL e he
    simpa [entry_pair, hks] using hok
  have hp : ((fun o : List Int × Nat => decide (foldk flags o.1 = foldk flags s)) ∘ entry_pair) =
      fun y => decide (entry_key flags y = entry_key flags x) := by
    funext y
    rw [hxs]
    rfl
  have hfil : (L.map entry_pair).filter (fun o => decide (foldk flags o.1 = foldk flags s)) =
      [entry_pair x] := by
    rw [List.filter_map, hp, filter_unique (entry_key flags) L x (KeySorted_nodup hsort) hx]
    rfl
  have hsome := (insert_all_found flags destructor (L.map entry_pair) hk s hs).2
    ⟨entry_pair x, List.mem_map_of_mem _ hx, hxs⟩
  obtain ⟨e, he⟩ := Option.isSome_iff_exists.1 hsome
  obtain ⟨xs, hxk, _⟩ := hL x hx
  have hkey : e.key = x.key := by
    rw [insert_all_key flags destructor _ hk s hs e he]
    unfold first_key
    rw [hfil]
    simp [entry_pair, hxk]
  have hdat : e.data = x.data := by
    cases hrep : flags.T_INSERT_REPLACE with
    | true =>
      have hv : last_value flags (L.map entry_pair) s = some x.data := by
        unfold last_value
        rw [hfil]
        rfl
      obtain ⟨e1, he1, hd1⟩ := insert_all_last flags hrep destructor _ hk s hs x.data hv
      rw [he] at he1
      obtain rfl : e = e1 := by simpa using he1
      exact hd1
    | false =>
      obtain ⟨hg, _, _, _⟩ := insert_all_good flags destructor (L.map entry_pair) hk
      have hmem := ((GoodTree_find_iff hg s hs e).1 he).1
      rw [NoData_entries _ (insert_all_NoData flags hrep destructor _ hk) e hmem,
        hdata hrep x hx]
  rw [he, TT_Data_ext hkey hdat]

/-- The entries of the tree built by inserting the entries of a strictly
sorted list are that list. -/
theorem sorted_insert_entries (flags : Tree_Flags) (destructor : Option Tree_Destroy)
    (L : List TT_Data) (hsort : KeySorted flags L)
    (hL : ∀ e ∈ L, ∃ ks, e.key = some ks ∧ KeyOK ks)
    (hdata : flags.T_INSERT_REPLACE = false → ∀ e ∈ L, e.data = 0) :
    entries (insert_all (TT_create flags destructor) (L.map entry_pair)).head.mid = L := by
  have hk : ∀ op ∈ L.map entry_pair, KeyOK op.1 := by
    intro op hop
    obtain ⟨e, he, rfl⟩ := List.mem_map.1 hop
    obtain ⟨ks, hks, hok⟩ := hL e he
    simpa [entry_pair, hks] using hok
  obtain ⟨hg, hfl, _, _⟩ := insert_all_good flags destructor (L.map entry_pair) hk
  have hs1 := GoodTree_sorted hg
  rw [hfl] at hs1
  apply KeySorted_ext hs1 hsort
  intro e
  constructor
  · intro he
    obtain ⟨ks, a1, a2, a3⟩ := GoodTree_entry_key hg e he
    have hsome : (TT_find (insert_all (TT_create flags destructor) (L.map entry_pair))
        ks).isSome = true := by rw [a3]; rfl
    obtain ⟨op, hop, hopf⟩ :=
      (insert_all_found flags destructor (L.map entry_pair) hk ks a2).1 hsome
    obtain ⟨x, hx, rfl⟩ := List.mem_map.1 hop
    have := sorted_insert_find flags destructor L hsort hL hdata x hx ks a2 hopf
    rw [a3] at this
    obtain rfl : e = x := by simpa using this
    exact hx
  · intro hx
    obtain ⟨xs, hxk, hok⟩ := hL e hx
    have hz : ∀ c ∈ xs, c ≠ 0 := fun c hc => by
      have := KeyOK_pos hok c hc
      omega
    have := sorted_insert_find flags destructor L hsort hL hdata e hx xs hz
      (by simp [entry_key, hxk])
    exact ((GoodTree_find_iff hg xs hz e).1 this).1

/-- C14. Sub-tree materialization agrees with lookup: for a source tree built
from a fresh one by insertions (any flags and destructor, keys of bytes
1..127, fewer than `2 ^ 60 - 1` of them) and every non-empty string `p`,
`TT_lookup_tree(tree, p)` returns a tree `rc` whose sorted extraction
`TT_data(rc)` is, entry by entry, the result of `_TT_lookup(tree, p, 0)`: the
same key strings and values in the same order, and the same count. The source
tree is only read: `TT_lookup_tree` and `_TT_lookup` assign to no field of it,
which is why they return no new state for it. -/
theorem C14_lookup_tree_agrees (flags : Tree_Flags) (destructor : Option Tree_Destroy)
    (ops : List (List Int × Nat)) (hk : ∀ op ∈ ops, KeyOK op.1)
    (hlen : 16 * (ops.length + 1) < SIZE_MOD) (pfx : List Int) (hne : pfx ≠ [])
    (hz : ∀ c ∈ pfx, c ≠ 0) :
    ∃ es arr rc,
      _TT_lookup (insert_all (TT_create flags destructor) ops) pfx 0 =
        some (arr, es.length) ∧
      arr.getD [] = es ∧
      TT_lookup_tree (insert_all (TT_create flags destructor) ops) pfx = some rc ∧
      TT_data rc = some (some es, es.length) := by
  obtain ⟨hg, hfl, hko, hle⟩ := insert_all_good flags destructor ops hk
  obtain ⟨arr, ha1, ha2⟩ := _TT_lookup_good hg hko (by omega) pfx hne hz
  rw [hfl] at ha2
  have hsub : ∀ e ∈ arr.getD [],
      e ∈ entries (insert_all (TT_create flags destructor) ops).head.mid := by
    intro e he
    rw [ha2] at he
    exact (List.mem_filter.1 he).1
  have hsort : KeySorted flags (arr.getD []) := by
    rw [ha2]
    have := (extensions_good hg pfx).1
    rw [hfl] at this
    exact this
  have hL : ∀ e ∈ arr.getD [], ∃ ks, e.key = some ks ∧ KeyOK ks :=
    fun e he => GoodTree_entries_KeyOK hg e (hsub e he)
  have hdata : flags.T_INSERT_REPLACE = false → ∀ e ∈ arr.getD [], e.data = 0 :=
    fun hrep e he =>
      NoData_entries _ (insert_all_NoData flags hrep destructor ops hk) e (hsub e he)
  have hk1 : ∀ op ∈ (arr.getD []).map entry_pair, KeyOK op.1 := by
    intro op hop
    obtain ⟨e, he, rfl⟩ := List.mem_map.1 hop
    obtain ⟨ks, hks, hok⟩ := hL e he
    simpa [entry_pair, hks] using hok
  have hlen1 : (arr.getD []).length ≤ ops.length := by
    have : (arr.getD []).length ≤
        (entries (insert_all (TT_create flags destructor) ops).head.mid).length := by
      rw [ha2]
      exact List.length_filter_le _ _
    omega
  obtain ⟨hgN, _, hkoN, _⟩ := insert_all_good flags none ((arr.getD []).map entry_pair) hk1
  have hent := sorted_insert_entries flags none (arr.getD []) hsort hL hdata
  obtain ⟨hdN, _⟩ := TT_data_good hgN hkoN (by rw [hent]; omega)
  rw [hent] at hdN
  have hloop : TT_lookup_tree (insert_all (TT_create flags destructor) ops) pfx =
      some (insert_all (TT_create flags none) ((arr.getD []).map entry_pair)) := by
    unfold TT_lookup_tree
    rw [ha1]
    simp only
    rw [hfl, TT_lookup_tree_loop_eq _ _ (by simp [TT_create, _TT_create_node]) hL]
  exact ⟨arr.getD [], arr, _, ha1, rfl, hloop, hdN⟩

theorem C14_lookup_tree_agrees_witness :
    (_TT_lookup (insert_all (TT_create ⟨true, true, false, false⟩ none)
        [([66, 111], 2), ([98, 79, 98], 1), ([98, 111, 98, 98, 121], 3), ([97], 4)]) [98] 0 =
        some (some [⟨some [66, 111], 2⟩, ⟨some [98, 79, 98], 1⟩,
          ⟨some [98, 111, 98, 98, 121], 3⟩], 3) ∧
      (TT_lookup_tree (insert_all (TT_create ⟨true, true, false, false⟩ none)
        [([66, 111], 2), ([98, 79, 98], 1), ([98, 111, 98, 98, 121], 3), ([97], 4)])
        [98]).map TT_data =
        some (some (some [⟨some [66, 111], 2⟩, ⟨some [98, 79, 98], 1⟩,
          ⟨some [98, 111, 98, 98, 121], 3⟩], 3))) ∧
    ∃ es arr rc,
      _TT_lookup (insert_all (TT_create ⟨true, true, false, false⟩ none)
        [([66, 111], 2), ([98, 79, 98], 1), ([98, 111, 98, 98, 121], 3), ([97], 4)]) [98] 0 =
        some (arr, es.length) ∧
      arr.getD [] = es ∧
      TT_lookup_tree (insert_all (TT_create ⟨true, true, false, false⟩ none)
        [([66, 111], 2), ([98, 79, 98], 1), ([98, 111, 98, 98, 121], 3), ([97], 4)]) [98] =
        some rc ∧
      TT_data rc = some (some es, es.length) :=
  ⟨by decide,
    C14_lookup_tree_agrees ⟨true, true, false, false⟩ none
      [([66, 111], 2), ([98, 79, 98], 1), ([98, 111, 98, 98, 121], 3), ([97], 4)]
      (by decide) (by decide) [98] (by decide) (by decide)⟩

/-! ## `TT_clear` and the counter `keys` -/

/-- C21 fails on the code. On a freshly created tree `tree->head->mid` is
`NULL`, and `TT_clear` passes it to `_TT_destroy`, whose first statement reads
`node->left`: the call faults, for all flags and destructors. -/
theorem C21_clear_empty_faults (flags : Tree_Flags) (destructor : Option Tree_Destroy) :
    (TT_create flags destructor).head ≠ TTNode.null ∧
    (TT_create flags destructor).head.mid = TTNode.null ∧
    _TT_destroy (TT_create flags destructor).head.mid (TT_create flags destructor) true =
      none ∧
    TT_clear (TT_create flags destructor) = none := by
  refine ⟨by simp [TT_create, _TT_create_node], rfl, rfl, rfl⟩

/-- C22 fails on the code. After `TT_insert(tree, "ab", 1)` the tree has two
nodes and one key (`nodes` = 2, `keys` = 1, `TT_data` reports one entry);
`TT_clear` then runs `tree->keys--` once for each of the two nodes, so `keys`
wraps to `2 ^ 64 - 1` instead of 0, while `TT_data` would find no entry. -/
theorem C22_keys_after_clear :
    (insert_all (TT_create ⟨true, false, false, false⟩ none) [([97, 98], 1)]).keys = 1 ∧
    (insert_all (TT_create ⟨true, false, false, false⟩ none) [([97, 98], 1)]).nodes = 2 ∧
    TT_data (insert_all (TT_create ⟨true, false, false, false⟩ none) [([97, 98], 1)]) =
      some (some [⟨some [97, 98], 1⟩], 1) ∧
    (TT_clear (insert_all (TT_create ⟨true, false, false, false⟩ none)
      [([97, 98], 1)])).map (fun t => (t.keys, t.nodes, entries t.head.mid)) =
      some (SIZE_MOD - 1, 0, []) := by
  decide

/-- C27 fails on the code. With `char` signed, the byte 0xC3 is -61. Inserting
the key "a\xC3" (replace flag set) into a fresh tree stops at the node of 'a',
because `*( s + pos + 1 ) > 0` is false for the negative byte: the whole key
string and the value are stored there. `TT_insert` returns `NULL`, since the
search of the key walks on to the `mid` child of 'a', which is absent;
`TT_search` of the key finds nothing, while the search of "a" finds the node
holding the key "a\xC3" and the value. -/
theorem C27_high_byte_key_lost :
    (TT_insert (TT_create ⟨true, false, false, false⟩ none) [97, -61] 7).2 = none ∧
    TT_search (TT_insert (TT_create ⟨true, false, false, false⟩ none) [97, -61] 7).1
      [97, -61] = none ∧
    TT_find (TT_insert (TT_create ⟨true, false, false, false⟩ none) [97, -61] 7).1 [97] =
      some ⟨some [97, -61], 7⟩ := by
  decide

/-! ## The three traversals -/

theorem _TT_walk_asc_acc : ∀ (n : TTNode) (acc : List TTNode),
    _TT_walk_asc visit n acc = acc ++ _TT_walk_asc visit n [] := by
  intro n
  induction n with
  | null => intro acc; simp [_TT_walk_asc]
  | mk sp k d dep l m r ihl ihm ihr =>
    intro acc
    simp only [_TT_walk_asc]
    rw [ihr (_TT_walk_asc visit m (visit (TTNode.mk sp k d dep l m r) (_TT_walk_asc visit l acc))),
      ihm (visit (TTNode.mk sp k d dep l m r) (_TT_walk_asc visit l acc)), ihl acc,
      ihr (_TT_walk_asc visit m (visit (TTNode.mk sp k d dep l m r) (_TT_walk_asc visit l []))),
      ihm (visit (TTNode.mk sp k d dep l m r) (_TT_walk_asc visit l []))]
    simp [visit, List.append_assoc]

theorem _TT_walk_desc_acc : ∀ (n : TTNode) (acc : List TTNode),
    _TT_walk_desc visit n acc = acc ++ _TT_walk_desc visit n [] := by
  intro n
  induction n with
  | null => intro acc; simp [_TT_walk_desc]
  | mk sp k d dep l m r ihl ihm ihr =>
    intro acc
    simp only [_TT_walk_desc]
    rw [ihl (visit (TTNode.mk sp k d dep l m r)
        (_TT_walk_desc visit m (_TT_walk_desc visit r acc))),
      ihm (_TT_walk_desc visit r acc), ihr acc,
      ihl (visit (TTNode.mk sp k d dep l m r)
        (_TT_walk_desc visit m (_TT_walk_desc visit r []))),
      ihm (_TT_walk_desc visit r [])]
    simp [visit, List.append_assoc]

theorem _TT_walk_acc : ∀ (n : TTNode) (acc : List TTNode),
    _TT_walk visit n acc = acc ++ _TT_walk visit n [] := by
  intro n
  induction n with
  | null => intro acc; simp [_TT_walk]
  | mk sp k d dep l m r ihl ihm ihr =>
    intro acc
    simp only [_TT_walk]
    rw [ihr (_TT_walk visit m (_TT_walk visit l acc)), ihm (_TT_walk visit l acc), ihl acc,
      ihr (_TT_walk visit m (_TT_walk visit l [])), ihm (_TT_walk visit l [])]
    simp [visit, List.append_assoc]

/-- The sequence of the ascending walk: left, the node, mid, right. -/
theorem _TT_walk_asc_mk (sp : Int) (k : Option (List Int)) (d dep : Nat) (l m r : TTNode) :
    _TT_walk_asc visit (TTNode.mk sp k d dep l m r) [] =
      _TT_walk_asc visit l [] ++ [TTNode.mk sp k d dep l m r] ++ _TT_walk_asc visit m [] ++
        _TT_walk_asc visit r [] := by
  simp only [_TT_walk_asc]
  rw [_TT_walk_asc_acc r, _TT_walk_asc_acc m]
  simp [visit, List.append_assoc]

/-- The sequence of the descending walk: right, mid, the node, left. -/
theorem _TT_walk_desc_mk (sp : Int) (k : Option (List Int)) (d dep : Nat) (l m r : TTNode) :
    _TT_walk_desc visit (TTNode.mk sp k d dep l m r) [] =
      _TT_walk_desc visit r [] ++ _TT_walk_desc visit m [] ++ [TTNode.mk sp k d dep l m r] ++
        _TT_walk_desc visit l [] := by
  simp only [_TT_walk_desc]
  rw [_TT_walk_desc_acc l, _TT_walk_desc_acc m]
  simp [visit, List.append_assoc]

/-- The sequence of the plain walk: left, mid, right, the node. -/
theorem _TT_walk_mk (sp : Int) (k : Option (List Int)) (d dep : Nat) (l m r : TTNode) :
    _TT_walk visit (TTNode.mk sp k d dep l m r) [] =
      _TT_walk visit l [] ++ _TT_walk visit m [] ++ _TT_walk visit r [] ++
        [TTNode.mk sp k d dep l m r] := by
  simp only [_TT_walk]
  rw [_TT_walk_acc r, _TT_walk_acc m]
  simp [visit, List.append_assoc]

theorem _TT_walk_desc_reverse : ∀ (n : TTNode),
    _TT_walk_desc visit n [] = (_TT_walk_asc visit n []).reverse := by
  intro n
  induction n with
  | null => simp [_TT_walk_desc, _TT_walk_asc]
  | mk sp k d dep l m r ihl ihm ihr =>
    rw [_TT_walk_desc_mk, _TT_walk_asc_mk, ihl, ihm, ihr]
    simp [List.reverse_append, List.append_assoc]

theorem _TT_walk_perm : ∀ (n : TTNode),
    (_TT_walk visit n []).Perm (_TT_walk_asc visit n []) := by
  intro n
  induction n with
  | null => simp [_TT_walk, _TT_walk_asc]
  | mk sp k d dep l m r ihl ihm ihr =>
    rw [_TT_walk_mk, _TT_walk_asc_mk]
    have h1 : (_TT_walk visit l [] ++ _TT_walk visit m [] ++ _TT_walk visit r [] ++
        [TTNode.mk sp k d dep l m r]).Perm
        (TTNode.mk sp k d dep l m r ::
          (_TT_walk visit l [] ++ (_TT_walk visit m [] ++ _TT_walk visit r []))) := by
      rw [List.append_assoc (_TT_walk visit l [])]
      exact List.perm_append_singleton _ _
    have h2 : (_TT_walk_asc visit l [] ++ [TTNode.mk sp k d dep l m r] ++
        _TT_walk_asc visit m [] ++ _TT_walk_asc visit r []).Perm
        (TTNode.mk sp k d dep l m r ::
          (_TT_walk_asc visit l [] ++ (_TT_walk_asc visit m [] ++ _TT_walk_asc visit r []))) := by
      simp only [List.append_assoc, List.singleton_append]
      exact List.perm_middle
    exact h1.trans (((ihl.append (ihm.append ihr)).cons _).trans h2.symm)

theorem _TT_walk_length : ∀ (n : TTNode), (_TT_walk visit n []).length = node_count n := by
  intro n
  induction n with
  | null => simp [_TT_walk, node_count]
  | mk sp k d dep l m r ihl ihm ihr =>
    rw [_TT_walk_mk]
    simp only [List.length_append, List.length_singleton, ihl, ihm, ihr, node_count]

/-- Every visitor is given the nodes of the recorded sequence, in that order. -/
theorem _TT_walk_asc_fold {σ : Type} (w : TTNode → σ → σ) : ∀ (n : TTNode) (st : σ),
    _TT_walk_asc w n st = (_TT_walk_asc visit n []).foldl (fun s x => w x s) st := by
  intro n
  induction n with
  | null => intro st; simp [_TT_walk_asc]
  | mk sp k d dep l m r ihl ihm ihr =>
    intro st
    rw [_TT_walk_asc_mk]
    simp only [List.foldl_append, List.foldl_cons, List.foldl_nil]
    rw [← ihl, ← ihm, ← ihr]
    rfl

theorem _TT_walk_desc_fold {σ : Type} (w : TTNode → σ → σ) : ∀ (n : TTNode) (st : σ),
    _TT_walk_desc w n st = (_TT_walk_desc visit n []).foldl (fun s x => w x s) st := by
  intro n
  induction n with
  | null => intro st; simp [_TT_walk_desc]
  | mk sp k d dep l m r ihl ihm ihr =>
    intro st
    rw [_TT_walk_desc_mk]
    simp only [List.foldl_append, List.foldl_cons, List.foldl_nil]
    rw [← ihr, ← ihm, ← ihl]
    rfl

theorem _TT_walk_fold {σ : Type} (w : TTNode → σ → σ) : ∀ (n : TTNode) (st : σ),
    _TT_walk w n st = (_TT_walk visit n []).foldl (fun s x => w x s) st := by
  intro n
  induction n with
  | null => intro st; simp [_TT_walk]
  | mk sp k d dep l m r ihl ihm ihr =>
    intro st
    rw [_TT_walk_mk]
    simp only [List.foldl_append, List.foldl_cons, List.foldl_nil]
    rw [← ihl, ← ihm, ← ihr]
    rfl

/-- C25. Descending traversal is the mirror of ascending traversal: for every
tree, the sequence of nodes that `TT_walk_desc` passes to the visitor is the
reverse of the sequence that `TT_walk_asc` passes; the sequence of `TT_walk`
is a rearrangement of it that holds as many nodes as the tree has, each node
coming after the nodes below its `left`, `mid` and `right` links, in that
order. The sequences are those recorded by the visitor `visit`, and every
visitor is called on them, node by node, by the three functions. -/
theorem C25_walk_mirror (tree : TTree) :
    TT_walk_desc tree visit [] = (TT_walk_asc tree visit []).reverse ∧
    (TT_walk tree visit []).Perm (TT_walk_asc tree visit []) ∧
    (TT_walk tree visit []).length = node_count tree.head ∧
    (∀ (sp : Int) (k : Option (List Int)) (d dep : Nat) (l m r : TTNode),
      _TT_walk visit (TTNode.mk sp k d dep l m r) [] =
        _TT_walk visit l [] ++ _TT_walk visit m [] ++ _TT_walk visit r [] ++
          [TTNode.mk sp k d dep l m r]) ∧
    (∀ (σ : Type) (w : TTNode → σ → σ) (st : σ),
      TT_walk_asc tree w st = (TT_walk_asc tree visit []).foldl (fun s x => w x s) st ∧
      TT_walk_desc tree w st = (TT_walk_desc tree visit []).foldl (fun s x => w x s) st ∧
      TT_walk tree w st = (TT_walk tree visit []).foldl (fun s x => w x s) st) :=
  ⟨_TT_walk_desc_reverse tree.head, _TT_walk_perm tree.head, _TT_walk_length tree.head,
    _TT_walk_mk,
    fun _ w st => ⟨_TT_walk_asc_fold w tree.head st, _TT_walk_desc_fold w tree.head st,
      _TT_walk_fold w tree.head st⟩⟩

/-! ## Insertion and the other keys -/

/-- Insertion of a key of bytes 1..127 does not disturb the other keys: in
every state reached from a fresh tree by `TT_insert` (keys of bytes 1..127),
`TT_del_key` and `TT_del_node` (zero-filled nodes included), for every key `k`
of bytes 1..127, every value `v` and every string `s1` that differs from `k`
(after folding when case-insensitive), `TT_search(s1)` gives the same answer
after `TT_insert(tree, k, v)` as before: found or not found alike, and when
found the same stored key string and the same value. -/
theorem TT_insert_frame_plain_key (flags : Tree_Flags) (destructor : Option Tree_Destroy)
    (ops : List Op) (hk : ∀ op ∈ ops, OpOK op) (k : List Int) (hkk : KeyOK k) (v : Nat)
    (s1 : List Int) (hs1 : ∀ c ∈ s1, c ≠ 0) (hne : foldk flags s1 ≠ foldk flags k) :
    TT_find (TT_insert (run (TT_create flags destructor) ops) k v).1 s1 =
      TT_find (run (TT_create flags destructor) ops) s1 ∧
    (TT_search (TT_insert (run (TT_create flags destructor) ops) k v).1 s1).isSome =
      (TT_search (run (TT_create flags destructor) ops) s1).isSome := by
  obtain ⟨hg, hfl⟩ := GoodTree_run flags destructor ops hk
  obtain ⟨_, _, _, hfr, _⟩ :=
    TT_insert_find (run (TT_create flags destructor) ops) k v (GoodTree_head hg) hkk
  have h := hfr s1 hs1 (by rw [hfl]; exact hne)
  refine ⟨h, ?_⟩
  have h2 := congrArg Option.isSome h
  simpa [TT_find] using h2

/-- C26 fails on the code. With `char` signed, the byte 0xC3 is -61. In the
tree that holds "a" with the value 1 (replace flag set), inserting the
non-empty key "a\xC3" with the value 7 stops at the node of 'a', because
`*( s + pos + 1 ) > 0` is false for the negative byte, and assigns the value
there: `TT_search(tree, "a")`, a key different from "a\xC3", found the value 1
before the insertion and finds the value 7 after it. -/
theorem C26_high_byte_overwrites_other_key :
    foldk ⟨true, false, false, false⟩ [97] ≠ foldk ⟨true, false, false, false⟩ [97, -61] ∧
    TT_find (run (TT_create ⟨true, false, false, false⟩ none) [Op.insert [97] 1]) [97] =
      some ⟨some [97], 1⟩ ∧
    TT_find (TT_insert (run (TT_create ⟨true, false, false, false⟩ none) [Op.insert [97] 1])
      [97, -61] 7).1 [97] = some ⟨some [97], 7⟩ := by
  decide

/-! ## The structure of the nodes -/

theorem deref_null (q : List Link) : TTNode.null.deref q = TTNode.null := by
  cases q <;> rfl

/-- Under the invariant, the key string of a node folds to the path to the
node: the splitters met where the path takes a `mid` link, then its own. -/
theorem Inv_key_path (flags : Tree_Flags) : ∀ (q : List Link) (n : TTNode) (p : List Int)
    (lo hi : Int), Inv flags p lo hi n → ∀ ks, (n.deref q).key = some ks →
      p ++ mid_splitters n q ++ [(n.deref q).splitter] = foldk flags ks := by
  intro q
  induction q with
  | nil =>
    intro n p lo hi hinv ks hks
    cases n with
    | null => simp [TTNode.deref, TTNode.key] at hks
    | mk sp k d dep l m r =>
      simp only [TTNode.deref, TTNode.key] at hks
      have hnz : ¬ (sp = 0 ∧ k = none) := by
        rintro ⟨_, h2⟩
        rw [h2] at hks
        exact absurd hks (by simp)
      obtain ⟨_, _, i3, _, _, _⟩ := Inv_regular hinv hnz
      obtain ⟨a1, _⟩ := i3 ks hks
      simp [TTNode.deref, TTNode.splitter, mid_splitters, a1]
  | cons lk q ih =>
    intro n p lo hi hinv ks hks
    cases n with
    | null => simp [TTNode.deref, TTNode.key] at hks
    | mk sp k d dep l m r =>
      unfold Inv at hinv
      rcases hinv with ⟨_, _, h3, h4, h5⟩ | ⟨_, _, _, i4, i5, i6⟩
      · subst h3 h4 h5
        cases lk <;> simp [TTNode.deref, deref_null, TTNode.key] at hks
      · cases lk with
        | left =>
          simp only [TTNode.deref, mid_splitters] at hks ⊢
          exact ih l p lo sp i4 ks hks
        | mid =>
          simp only [TTNode.deref, mid_splitters] at hks ⊢
          have := ih m (p ++ [sp]) 0 128 i5 ks hks
          simpa [List.append_assoc] using this
        | right =>
          simp only [TTNode.deref, mid_splitters] at hks ⊢
          exact ih r p sp hi i6 ks hks

/-- C23. Key/path invariant: in every state reached from a fresh tree by
`TT_insert` (non-empty keys of bytes 1..127), `TT_del_key` and `TT_del_node`,
every node that holds a key lies below the `mid` link of the head (the
sentinel, whose splitter 0 is no character), and the splitters of the nodes
below the head at which the path to it takes a `mid` link, followed by its own
splitter, are the stored key, folded to lower case when the case-insensitive
flag is set. -/
theorem C23_key_path (flags : Tree_Flags) (destructor : Option Tree_Destroy)
    (ops : List Op) (hk : ∀ op ∈ ops, OpOK op) (pth : List Link) (ks : List Int)
    (h : ((run (TT_create flags destructor) ops).head.deref pth).key = some ks) :
    ∃ q, pth = Link.mid :: q ∧
      mid_splitters (run (TT_create flags destructor) ops).head.mid q ++
        [((run (TT_create flags destructor) ops).head.deref pth).splitter] =
        foldk flags ks ∧
      (flags.T_NOCASE = false → foldk flags ks = ks) ∧
      (flags.T_NOCASE = true → foldk flags ks = ks.map tolower) := by
  obtain ⟨⟨m, hm, hinv⟩, hfl⟩ := GoodTree_run flags destructor ops hk
  rw [hfl] at hinv
  have hfold : (flags.T_NOCASE = false → foldk flags ks = ks) ∧
      (flags.T_NOCASE = true → foldk flags ks = ks.map tolower) := by
    constructor
    · intro hn
      have hc : foldc flags = id := by
        funext c
        simp [foldc, hn]
      simp [foldk, hc]
    · intro hn
      have hc : foldc flags = tolower := by
        funext c
        simp [foldc, hn]
      simp [foldk, hc]
  rw [hm] at h ⊢
  cases pth with
  | nil => simp [TTNode.deref, TTNode.key] at h
  | cons lk q =>
    cases lk with
    | left => simp [TTNode.deref, deref_null, TTNode.key] at h
    | right => simp [TTNode.deref, deref_null, TTNode.key] at h
    | mid =>
      simp only [TTNode.deref] at h ⊢
      refine ⟨q, rfl, ?_, hfold⟩
      have := Inv_key_path flags q m [] 0 128 hinv ks h
      simpa [TTNode.mid] using this

theorem C23_key_path_witness :
    ((run (TT_create ⟨true, true, false, false⟩ none)
        [Op.insert [67, 97, 116] 1, Op.insert [99, 97, 114] 2, Op.insert [99, 98] 3,
          Op.del_node [99, 97, 114], Op.del_key [99, 98]]).head.deref
        [Link.mid, Link.mid, Link.mid]).key = some [67, 97, 116] ∧
    ∃ q, [Link.mid, Link.mid, Link.mid] = Link.mid :: q ∧
      mid_splitters (run (TT_create ⟨true, true, false, false⟩ none)
        [Op.insert [67, 97, 116] 1, Op.insert [99, 97, 114] 2, Op.insert [99, 98] 3,
          Op.del_node [99, 97, 114], Op.del_key [99, 98]]).head.mid q ++
        [((run (TT_create ⟨true, true, false, false⟩ none)
          [Op.insert [67, 97, 116] 1, Op.insert [99, 97, 114] 2, Op.insert [99, 98] 3,
            Op.del_node [99, 97, 114], Op.del_key [99, 98]]).head.deref
          [Link.mid, Link.mid, Link.mid]).splitter] =
        foldk ⟨true, true, false, false⟩ [67, 97, 116] ∧
      ((⟨true, true, false, false⟩ : Tree_Flags).T_NOCASE = false →
        foldk ⟨true, true, false, false⟩ [67, 97, 116] = [67, 97, 116]) ∧
      ((⟨true, true, false, false⟩ : Tree_Flags).T_NOCASE = true →
        foldk ⟨true, true, false, false⟩ [67, 97, 116] = [67, 97, 116].map tolower) :=
  ⟨by decide,
    C23_key_path ⟨true, true, false, false⟩ none
      [Op.insert [67, 97, 116] 1, Op.insert [99, 97, 114] 2, Op.insert [99, 98] 3,
        Op.del_node [99, 97, 114], Op.del_key [99, 98]] (by decide)
      [Link.mid, Link.mid, Link.mid] [67, 97, 116] (by decide)⟩

/-- Under the invariant the splitters of a sibling level lie within the
bounds, the zero-filled nodes aside. -/
theorem Inv_level (flags : Tree_Flags) : ∀ (n : TTNode) (p : List Int) (lo hi : Int),
    Inv flags p lo hi n → ∀ c ∈ level n, c = 0 ∨ (lo < c ∧ c < hi) := by
  intro n
  induction n with
  | null => intro p lo hi _ c hc; simp [level] at hc
  | mk sp k d dep l m r ihl _ ihr =>
    intro p lo hi hinv c hc
    unfold Inv at hinv
    rcases hinv with ⟨h1, _, h3, _, h5⟩ | ⟨i1, i2, _, i4, _, i6⟩
    · subst h1 h3 h5
      simp [level] at hc
      exact Or.inl hc
    · simp only [level, List.mem_append, List.mem_singleton] at hc
      rcases hc with (hc | hc) | hc
      · rcases ihl p lo sp i4 c hc with h | ⟨h1, h2⟩
        · exact Or.inl h
        · exact Or.inr ⟨h1, by omega⟩
      · subst hc
        exact Or.inr ⟨i1, i2⟩
      · rcases ihr p sp hi i6 c hc with h | ⟨h1, h2⟩
        · exact Or.inl h
        · exact Or.inr ⟨by omega, h2⟩

/-- The invariant holds, with suitable path and bounds, at every node. -/
theorem Inv_deref (flags : Tree_Flags) : ∀ (q : List Link) (n : TTNode) (p : List Int)
    (lo hi : Int), 0 ≤ lo → Inv flags p lo hi n →
      ∃ p1 lo1 hi1, 0 ≤ lo1 ∧ Inv flags p1 lo1 hi1 (n.deref q) := by
  intro q
  induction q with
  | nil => intro n p lo hi hlo hinv; exact ⟨p, lo, hi, hlo, by simpa [TTNode.deref] using hinv⟩
  | cons lk q ih =>
    intro n p lo hi hlo hinv
    cases n with
    | null => exact ⟨p, lo, hi, hlo, by simp [TTNode.deref, Inv_null]⟩
    | mk sp k d dep l m r =>
      unfold Inv at hinv
      rcases hinv with ⟨_, _, h3, h4, h5⟩ | ⟨i1, _, _, i4, i5, i6⟩
      · subst h3 h4 h5
        refine ⟨p, lo, hi, hlo, ?_⟩
        cases lk <;> simp [TTNode.deref, deref_null, Inv_null]
      · cases lk with
        | left => exact ih l p lo sp hlo i4
        | mid => exact ih m (p ++ [sp]) 0 128 (le_refl _) i5
        | right => exact ih r p sp hi (by omega) i6

/-- Under the invariant the splitters of the left level of a node are smaller
than its own, and those of the right level are greater or belong to
zero-filled nodes. -/
theorem Inv_siblings {flags : Tree_Flags} {p : List Int} {lo hi : Int} {n : TTNode}
    (hlo : 0 ≤ lo) (hinv : Inv flags p lo hi n) :
    (∀ c ∈ level n.left, c < n.splitter) ∧
    (∀ c ∈ level n.right, c = 0 ∨ n.splitter < c) := by
  cases n with
  | null => simp [TTNode.left, TTNode.right, level]
  | mk sp k d dep l m r =>
    unfold Inv at hinv
    rcases hinv with ⟨_, _, h3, _, h5⟩ | ⟨i1, _, _, i4, _, i6⟩
    · subst h3 h5
      simp [TTNode.left, TTNode.right, level]
    · simp only [TTNode.left, TTNode.right, TTNode.splitter]
      constructor
      · intro c hc
        rcases Inv_level flags l p lo sp i4 c hc with h | ⟨_, h2⟩
        · omega
        · exact h2
      · intro c hc
        rcases Inv_level flags r p sp hi i6 c hc with h | ⟨h1, _⟩
        · exact Or.inl h
        · exact Or.inr h1

/-- Under the invariant a node whose splitter is 0 is zero-filled: it has no
key and no children. -/
theorem Inv_zero_splitter {flags : Tree_Flags} {p : List Int} {lo hi : Int} {n : TTNode}
    (hlo : 0 ≤ lo) (hinv : Inv flags p lo hi n) (hz : n.splitter = 0) :
    n.key = none ∧ n.left = TTNode.null ∧ n.mid = TTNode.null ∧ n.right = TTNode.null := by
  cases n with
  | null => simp [TTNode.key, TTNode.left, TTNode.mid, TTNode.right]
  | mk sp k d dep l m r =>
    simp only [TTNode.splitter] at hz
    unfold Inv at hinv
    rcases hinv with ⟨_, h2, h3, h4, h5⟩ | ⟨i1, _⟩
    · exact ⟨h2, h3, h4, h5⟩
    · omega

/-- C24, as stated, fails: after inserting "car" then "cat" and deleting
"cat" with `TT_del_node`, the node of 'r' (splitter 114) still has as its
`right` child the node of 't', now zero-filled: its splitter is 0, which is
not greater than 114. -/
theorem C24_zeroed_right_sibling :
    ((run (TT_create ⟨true, false, false, false⟩ none)
      [Op.insert [99, 97, 114] 2, Op.insert [99, 97, 116] 1,
        Op.del_node [99, 97, 116]]).head.deref [Link.mid, Link.mid, Link.mid]).splitter =
      114 ∧
    level ((run (TT_create ⟨true, false, false, false⟩ none)
      [Op.insert [99, 97, 114] 2, Op.insert [99, 97, 116] 1,
        Op.del_node [99, 97, 116]]).head.deref [Link.mid, Link.mid, Link.mid]).right = [0] ∧
    ¬ ∀ c ∈ level ((run (TT_create ⟨true, false, false, false⟩ none)
      [Op.insert [99, 97, 114] 2, Op.insert [99, 97, 116] 1,
        Op.del_node [99, 97, 116]]).head.deref [Link.mid, Link.mid, Link.mid]).right,
      ((run (TT_create ⟨true, false, false, false⟩ none)
        [Op.insert [99, 97, 114] 2, Op.insert [99, 97, 116] 1,
          Op.del_node [99, 97, 116]]).head.deref [Link.mid, Link.mid, Link.mid]).splitter <
        c := by
  decide

/-- C24, amended. Sibling BST invariant: in every state reached from a fresh
tree by `TT_insert` (non-empty keys of bytes 1..127), `TT_del_key` and
`TT_del_node`, for every node `n` (the node at any path from the head), every
node reached from `n.left` through `left`/`right` links has a splitter
strictly smaller than that of `n`, and every node reached from `n.right`
through `left`/`right` links has a splitter strictly greater than that of `n`
unless it is a zero-filled node left by `TT_del_node`, whose splitter is 0;
below the head, a node with splitter 0 has no key and no children. -/
theorem C24_sibling_order (flags : Tree_Flags) (destructor : Option Tree_Destroy)
    (ops : List Op) (hk : ∀ op ∈ ops, OpOK op) (pth : List Link) :
    (∀ c ∈ level ((run (TT_create flags destructor) ops).head.deref pth).left,
      c < ((run (TT_create flags destructor) ops).head.deref pth).splitter) ∧
    (∀ c ∈ level ((run (TT_create flags destructor) ops).head.deref pth).right,
      c = 0 ∨ ((run (TT_create flags destructor) ops).head.deref pth).splitter < c) ∧
    (pth ≠ [] → ((run (TT_create flags destructor) ops).head.deref pth).splitter = 0 →
      ((run (TT_create flags destructor) ops).head.deref pth).key = none ∧
      ((run (TT_create flags destructor) ops).head.deref pth).left = TTNode.null ∧
      ((run (TT_create flags destructor) ops).head.deref pth).mid = TTNode.null ∧
      ((run (TT_create flags destructor) ops).head.deref pth).right = TTNode.null) := by
  obtain ⟨⟨m, hm, hinv⟩, _⟩ := GoodTree_run flags destructor ops hk
  rw [hm]
  cases pth with
  | nil => simp [TTNode.deref, TTNode.left, TTNode.right, level]
  | cons lk q =>
    cases lk with
    | left =>
      simp [TTNode.deref, deref_null, TTNode.left, TTNode.right, TTNode.mid, TTNode.key, level]
    | right =>
      simp [TTNode.deref, deref_null, TTNode.left, TTNode.right, TTNode.mid, TTNode.key, level]
    | mid =>
      simp only [TTNode.deref]
      obtain ⟨p1, lo1, hi1, hlo1, h1⟩ := Inv_deref _ q m [] 0 128 (le_refl _) hinv
      obtain ⟨a1, a2⟩ := Inv_siblings hlo1 h1
      exact ⟨a1, a2, fun _ hz => Inv_zero_splitter hlo1 h1 hz⟩

theorem C24_sibling_order_witness :
    (∀ c ∈ level ((run (TT_create ⟨true, false, false, false⟩ none)
        [Op.insert [99, 97, 114] 2, Op.insert [99, 97, 116] 1, Op.insert [99, 97, 98] 3,
          Op.del_node [99, 97, 116]]).head.deref [Link.mid, Link.mid, Link.mid]).left,
      c < ((run (TT_create ⟨true, false, false, false⟩ none)
        [Op.insert [99, 97, 114] 2, Op.insert [99, 97, 116] 1, Op.insert [99, 97, 98] 3,
          Op.del_node [99, 97, 116]]).head.deref [Link.mid, Link.mid, Link.mid]).splitter) ∧
    (∀ c ∈ level ((run (TT_create ⟨true, false, false, false⟩ none)
        [Op.insert [99, 97, 114] 2, Op.insert [99, 97, 116] 1, Op.insert [99, 97, 98] 3,
          Op.del_node [99, 97, 116]]).head.deref [Link.mid, Link.mid, Link.mid]).right,
      c = 0 ∨ ((run (TT_create ⟨true, false, false, false⟩ none)
        [Op.insert [99, 97, 114] 2, Op.insert [99, 97, 116] 1, Op.insert [99, 97, 98] 3,
          Op.del_node [99, 97, 116]]).head.deref [Link.mid, Link.mid, Link.mid]).splitter < c) ∧
    (([Link.mid, Link.mid, Link.mid] : List Link) ≠ [] →
      ((run (TT_create ⟨true, false, false, false⟩ none)
        [Op.insert [99, 97, 114] 2, Op.insert [99, 97, 116] 1, Op.insert [99, 97, 98] 3,
          Op.del_node [99, 97, 116]]).head.deref [Link.mid, Link.mid, Link.mid]).splitter = 0 →
      ((run (TT_create ⟨true, false, false, false⟩ none)
        [Op.insert [99, 97, 114] 2, Op.insert [99, 97, 116] 1, Op.insert [99, 97, 98] 3,
          Op.del_node [99, 97, 116]]).head.deref [Link.mid, Link.mid, Link.mid]).key = none ∧
      ((run (TT_create ⟨true, false, false, false⟩ none)
        [Op.insert [99, 97, 114] 2, Op.insert [99, 97, 116] 1, Op.insert [99, 97, 98] 3,
          Op.del_node [99, 97, 116]]).head.deref [Link.mid, Link.mid, Link.mid]).left = TTNode.null ∧
      ((run (TT_create ⟨true, false, false, false⟩ none)
        [Op.insert [99, 97, 114] 2, Op.insert [99, 97, 116] 1, Op.insert [99, 97, 98] 3,
          Op.del_node [99, 97, 116]]).head.deref [Link.mid, Link.mid, Link.mid]).mid = TTNode.null ∧
      ((run (TT_create ⟨true, false, false, false⟩ none)
        [Op.insert [99, 97, 114] 2, Op.insert [99, 97, 116] 1, Op.insert [99, 97, 98] 3,
          Op.del_node [99, 97, 116]]).head.deref [Link.mid, Link.mid, Link.mid]).right = TTNode.null) :=
  C24_sibling_order ⟨true, false, false, false⟩ none
    [Op.insert [99, 97, 114] 2, Op.insert [99, 97, 116] 1, Op.insert [99, 97, 98] 3,
      Op.del_node [99, 97, 116]] (by decide) [Link.mid, Link.mid, Link.mid]

end Trees
